import Mathlib

/-! Node navigation of `src/runtime/node.c`.

A shallow embedding of the node-handle layer (`ts_node_parent`, `ts_node_prev_sibling`,
`ts_node_next_sibling`, `ts_node_child`, `ts_node_find_for_range`) over an explicit memory of
`TSTree` records.  Pointers are addresses (`Nat`), `NULL` is `none`, `size_t` arithmetic is
arithmetic modulo `SIZE_MOD`, and every loop that C could run forever takes a fuel argument.
-/

namespace TreeSitter

/-! ## Data model -/

/-- Modulus of `size_t` arithmetic (64-bit targets). -/
def SIZE_MOD : Nat := 18446744073709551616

/-- The `size_t` value of `i - 1`: it wraps to `SIZE_MOD - 1` at `0`. -/
def sizePred (i : Nat) : Nat := if i = 0 then SIZE_MOD - 1 else i - 1

/-- Modelled from the spec: the `TSLength` struct of `runtime/length.h` (not in the sources at
hand); an extent with a byte count and a character count, both `size_t`. -/
structure TSLength where
  bytes : Nat
  chars : Nat
deriving DecidableEq, Repr

/-- Both counters of an extent are representable in `size_t`. -/
def TSLength.inRange (a : TSLength) : Prop :=
  a.bytes < SIZE_MOD ∧ a.chars < SIZE_MOD

instance (a : TSLength) : Decidable a.inRange := by
  unfold TSLength.inRange; infer_instance

/-- Modelled from the spec: `ts_length_zero` of `runtime/length.h`, the zero extent. -/
def ts_length_zero : TSLength := ⟨0, 0⟩

/-- Modelled from the spec: `ts_length_add` of `runtime/length.h`, componentwise `size_t`
addition. -/
def ts_length_add (a b : TSLength) : TSLength :=
  ⟨(a.bytes + b.bytes) % SIZE_MOD, (a.chars + b.chars) % SIZE_MOD⟩

/-- Modelled from the spec: `ts_length_sub` of `runtime/length.h`, componentwise `size_t`
subtraction (wrapping, as unsigned subtraction does in C). -/
def ts_length_sub (a b : TSLength) : TSLength :=
  ⟨(a.bytes + (SIZE_MOD - b.bytes % SIZE_MOD)) % SIZE_MOD,
   (a.chars + (SIZE_MOD - b.chars % SIZE_MOD)) % SIZE_MOD⟩

/-- Modelled from the spec: `ts_length_eq` of `runtime/length.h`, componentwise equality. -/
def ts_length_eq (a b : TSLength) : Bool :=
  a.bytes == b.bytes && a.chars == b.chars

/-- The `context` member of a `TSTree`: the parent back-reference and the index among its
children. -/
structure TSTreeContext where
  parent : Option Nat
  index : Nat
deriving DecidableEq, Repr

/-- Modelled from the spec: the `TSTree` struct of `runtime/tree.h` (not in the sources at hand),
with the members `node.c` reads.  `children` is the child array, whose length is `child_count`;
`visible` is the flag `ts_tree_is_visible` reports. -/
structure TSTree where
  symbol : Nat
  padding : TSLength
  size : TSLength
  children : List Nat
  visible_child_count : Nat
  visible : Bool
  context : TSTreeContext
deriving DecidableEq, Repr

/-- The member `child_count`: the length of the child array. -/
def TSTree.child_count (t : TSTree) : Nat := t.children.length

/-- Modelled from the spec: `ts_tree_is_visible` of `runtime/tree.h`, the node's visibility
flag. -/
def ts_tree_is_visible (t : TSTree) : Bool := t.visible

/-- The memory the trees live in: what is stored at each address. -/
abbrev Memory := Nat → Option TSTree

/-- A node handle `TSNode`: a tree pointer (`none` is `NULL`) and a relative position. -/
structure TSNode where
  data : Option Nat
  position : TSLength
deriving DecidableEq, Repr

/-- What running a piece of the C code gives: a value, a fault (a `NULL` or wild pointer is
dereferenced, an array is read out of bounds), or no answer within the fuel. -/
inductive Outcome (α : Type) where
  | ok (a : α)
  | fault
  | timeout
deriving DecidableEq, Repr

/-- Modelled from the spec: `ts_node_null` of `runtime/node.h`, the handle with no tree
reference (and the zero position). -/
def ts_node_null : TSNode := ⟨none, ts_length_zero⟩

/-- Modelled from the spec: `ts_tree_eq` of `runtime/tree.c` as the spec uses it in `equals`:
the two pointers reference the same physical node. -/
def ts_tree_eq (a b : Option Nat) : Bool := a == b

/-! ## The functions of `node.c` -/

/-- The function `ts_node_make`. -/
def ts_node_make (tree : Option Nat) (position : TSLength) : TSNode :=
  { data := tree, position := position }

/-- The function `get_tree`. -/
def get_tree (this : TSNode) : Option Nat := this.data

/-- The function `ts_node_pos`: the position plus the padding of the referenced tree. -/
def ts_node_pos (mem : Memory) (this : TSNode) : Outcome TSLength :=
  match get_tree this with
  | none => .fault
  | some p =>
    match mem p with
    | none => .fault
    | some t => .ok (ts_length_add this.position t.padding)

/-- The function `ts_node_size`. -/
def ts_node_size (mem : Memory) (this : TSNode) : Outcome TSLength :=
  match get_tree this with
  | none => .fault
  | some p =>
    match mem p with
    | none => .fault
    | some t => .ok t.size

/-- The function `ts_node_eq`. -/
def ts_node_eq (this other : TSNode) : Bool :=
  ts_tree_eq (get_tree this) (get_tree other) && ts_length_eq this.position other.position

/-- The function `ts_node_child_count`. -/
def ts_node_child_count (mem : Memory) (this : TSNode) : Outcome Nat :=
  match get_tree this with
  | none => .fault
  | some p =>
    match mem p with
    | none => .fault
    | some t => .ok t.visible_child_count

section Navigation

variable (mem : Memory)
/- `ts_tree_total_size` of `runtime/tree.h` is not in the sources at hand: it is a parameter,
any function of the node it is given. -/
variable (ts_tree_total_size : TSTree → TSLength)

/-- What the inner `for` loop of `ts_node_child` leaves behind: either it executed `return`, or it
ran to the end with these values of `did_descend`, `node` and `child_index`. -/
inductive ChildScan where
  | returned (n : TSNode)
  | finished (did_descend : Bool) (node : TSNode) (child_index : Nat)
deriving DecidableEq, Repr

/-- The inner `for` loop of `ts_node_child` over the children still to visit. `index++`,
`index += ...` and `child_index - index` are `size_t` operations. -/
def childScan : List Nat → Nat → Nat → TSLength → Bool → TSNode → Outcome ChildScan
  | [], _, child_index, _, did_descend, node => .ok (.finished did_descend node child_index)
  | c :: rest, index, child_index, position, did_descend, node =>
    match mem c with
    | none => .fault
    | some child =>
      if ts_tree_is_visible child then
        if index = child_index then
          .ok (.returned (ts_node_make (some c) position))
        else
          childScan rest ((index + 1) % SIZE_MOD) child_index
            (ts_length_add position (ts_tree_total_size child)) did_descend node
      else
        let grandchild_index := (child_index + (SIZE_MOD - index % SIZE_MOD)) % SIZE_MOD
        if grandchild_index < child.visible_child_count then
          childScan rest ((index + child.visible_child_count) % SIZE_MOD) grandchild_index
            (ts_length_add position (ts_tree_total_size child)) true
            (ts_node_make (some c) position)
        else
          childScan rest ((index + child.visible_child_count) % SIZE_MOD) child_index
            (ts_length_add position (ts_tree_total_size child)) did_descend node

/-- The `while (did_descend)` loop of `ts_node_child`, one unit of fuel per iteration. -/
def childLoop : Nat → TSNode → Nat → Outcome TSNode
  | 0, _, _ => .timeout
  | fuel + 1, node, child_index =>
    match get_tree node with
    | none => .fault
    | some p =>
      match mem p with
      | none => .fault
      | some tree =>
        match childScan mem ts_tree_total_size tree.children 0 child_index node.position
            false node with
        | .ok (.returned n) => .ok n
        | .ok (.finished true node' child_index') => childLoop fuel node' child_index'
        | .ok (.finished false _ _) => .ok ts_node_null
        | .fault => .fault
        | .timeout => .timeout

/-- The function `ts_node_child`. -/
def ts_node_child (fuel : Nat) (this : TSNode) (child_index : Nat) : Outcome TSNode :=
  childLoop mem ts_tree_total_size fuel this child_index

/-- The `for` loop of `ts_node_parent`: subtract the total sizes of the children before `tree`,
with `break` at `child == tree`. -/
def parentScan (tree : Nat) : List Nat → TSLength → Outcome TSLength
  | [], position => .ok position
  | c :: rest, position =>
    if c = tree then .ok position
    else
      match mem c with
      | none => .fault
      | some child => parentScan tree rest (ts_length_sub position (ts_tree_total_size child))

/-- The `do ... while (!ts_tree_is_visible(tree))` loop of `ts_node_parent`. -/
def parentLoop : Nat → Nat → TSLength → Outcome TSNode
  | 0, _, _ => .timeout
  | fuel + 1, tree, position =>
    match mem tree with
    | none => .fault
    | some t =>
      match t.context.parent with
      | none => .ok ts_node_null
      | some parent =>
        match mem parent with
        | none => .fault
        | some par =>
          match parentScan mem ts_tree_total_size tree par.children position with
          | .ok position' =>
            if ts_tree_is_visible par then .ok (ts_node_make (some parent) position')
            else parentLoop fuel parent position'
          | .fault => .fault
          | .timeout => .timeout

/-- The function `ts_node_parent`. -/
def ts_node_parent (fuel : Nat) (this : TSNode) : Outcome TSNode :=
  match get_tree this with
  | none => .fault
  | some tree => parentLoop mem ts_tree_total_size fuel tree this.position

/-- What a sibling `for` loop leaves behind: either it executed `return` with this outcome of the
returned expression, or it ran to the end with this `position`. -/
inductive SiblingScan where
  | returned (r : Outcome TSNode)
  | finished (position : TSLength)
deriving DecidableEq, Repr

/-- The `for (size_t i = index - 1; i + 1 > 0; i--)` loop of `ts_node_prev_sibling`; the first
argument is the value of `i + 1`, so the loop ends at `0`. -/
def prevScan (cfuel : Nat) (children : List Nat) : Nat → TSLength → Outcome SiblingScan
  | 0, position => .ok (.finished position)
  | i + 1, position =>
    match children[i]? with
    | none => .fault
    | some c =>
      match mem c with
      | none => .fault
      | some child =>
        let position := ts_length_sub position (ts_tree_total_size child)
        if ts_tree_is_visible child then
          .ok (.returned (.ok (ts_node_make (some c) position)))
        else if child.visible_child_count > 0 then
          .ok (.returned (ts_node_child mem ts_tree_total_size cfuel
            (ts_node_make (some c) position) (child.visible_child_count - 1)))
        else
          prevScan cfuel children i position

/-- The `do ... while` loop of `ts_node_prev_sibling`. The scan starts at `i = index - 1` in
`size_t`, and is given `i + 1` modulo `SIZE_MOD`. -/
def prevLoop (cfuel : Nat) : Nat → Nat → TSLength → Outcome TSNode
  | 0, _, _ => .timeout
  | fuel + 1, tree, position =>
    match mem tree with
    | none => .fault
    | some t =>
      match t.context.parent with
      | none => .ok ts_node_null
      | some parent =>
        match mem parent with
        | none => .fault
        | some par =>
          match prevScan mem ts_tree_total_size cfuel par.children
              ((sizePred t.context.index + 1) % SIZE_MOD) position with
          | .ok (.returned r) => r
          | .ok (.finished position') =>
            if ts_tree_is_visible par then .ok ts_node_null
            else prevLoop cfuel fuel parent position'
          | .fault => .fault
          | .timeout => .timeout

/-- The function `ts_node_prev_sibling`; the fuel bounds its own loop and each call of
`ts_node_child`. -/
def ts_node_prev_sibling (fuel : Nat) (this : TSNode) : Outcome TSNode :=
  match get_tree this with
  | none => .fault
  | some tree => prevLoop mem ts_tree_total_size fuel fuel tree this.position

/-- The `for (size_t i = index + 1; i < parent->child_count; i++)` loop of
`ts_node_next_sibling`; the first argument counts the iterations left, `child_count - i`. -/
def nextScan (cfuel : Nat) (children : List Nat) : Nat → Nat → TSLength → Outcome SiblingScan
  | 0, _, position => .ok (.finished position)
  | n + 1, i, position =>
    match children[i]? with
    | none => .fault
    | some c =>
      match children[sizePred i]? with
      | none => .fault
      | some b =>
        match mem b with
        | none => .fault
        | some before =>
          let position := ts_length_add position (ts_tree_total_size before)
          match mem c with
          | none => .fault
          | some child =>
            if ts_tree_is_visible child then
              .ok (.returned (.ok (ts_node_make (some c) position)))
            else if child.visible_child_count > 0 then
              .ok (.returned (ts_node_child mem ts_tree_total_size cfuel
                (ts_node_make (some c) position) 0))
            else
              nextScan cfuel children n ((i + 1) % SIZE_MOD) position

/-- The `do ... while` loop of `ts_node_next_sibling`. -/
def nextLoop (cfuel : Nat) : Nat → Nat → TSLength → Outcome TSNode
  | 0, _, _ => .timeout
  | fuel + 1, tree, position =>
    match mem tree with
    | none => .fault
    | some t =>
      match t.context.parent with
      | none => .ok ts_node_null
      | some parent =>
        match mem parent with
        | none => .fault
        | some par =>
          match nextScan mem ts_tree_total_size cfuel par.children
              (par.child_count - (t.context.index + 1) % SIZE_MOD)
              ((t.context.index + 1) % SIZE_MOD) position with
          | .ok (.returned r) => r
          | .ok (.finished position') =>
            if ts_tree_is_visible par then .ok ts_node_null
            else nextLoop cfuel fuel parent position'
          | .fault => .fault
          | .timeout => .timeout

/-- The function `ts_node_next_sibling`; the fuel bounds its own loop and each call of
`ts_node_child`. -/
def ts_node_next_sibling (fuel : Nat) (this : TSNode) : Outcome TSNode :=
  match get_tree this with
  | none => .fault
  | some tree => nextLoop mem ts_tree_total_size fuel fuel tree this.position

/-- The state the inner `for` loop of `ts_node_find_for_range` leaves behind: `node`,
`last_visible_node` and `did_descend`. -/
structure RangeScan where
  node : TSNode
  last_visible_node : TSNode
  did_descend : Bool
deriving DecidableEq, Repr

/-- The inner `for` loop of `ts_node_find_for_range` over the children still to visit, with its
`break`. The sums are `size_t` sums. -/
def rangeScan (min max : Nat) : List Nat → TSLength → RangeScan → Outcome RangeScan
  | [], _, s => .ok s
  | c :: rest, position, s =>
    match mem c with
    | none => .fault
    | some child =>
      if (position.chars + child.padding.chars) % SIZE_MOD > min then .ok s
      else
        let s' : RangeScan :=
          if (position.chars + child.padding.chars + child.size.chars) % SIZE_MOD > max then
            { node := ts_node_make (some c) position
              last_visible_node :=
                if ts_tree_is_visible child then ts_node_make (some c) position
                else s.last_visible_node
              did_descend := true }
          else s
        rangeScan min max rest (ts_length_add position (ts_tree_total_size child)) s'

/-- The `while (did_descend)` loop of `ts_node_find_for_range`. -/
def rangeLoop (min max : Nat) : Nat → TSNode → TSNode → Outcome TSNode
  | 0, _, _ => .timeout
  | fuel + 1, node, last_visible_node =>
    match get_tree node with
    | none => .fault
    | some p =>
      match mem p with
      | none => .fault
      | some tree =>
        match rangeScan mem ts_tree_total_size min max tree.children node.position
            { node := node, last_visible_node := last_visible_node, did_descend := false } with
        | .ok s =>
          if s.did_descend then rangeLoop min max fuel s.node s.last_visible_node
          else .ok s.last_visible_node
        | .fault => .fault
        | .timeout => .timeout

/-- The function `ts_node_find_for_range`. -/
def ts_node_find_for_range (fuel : Nat) (this : TSNode) (min max : Nat) : Outcome TSNode :=
  rangeLoop mem ts_tree_total_size min max fuel this this

/-- The function `ts_node_find_for_pos`. -/
def ts_node_find_for_pos (fuel : Nat) (this : TSNode) (position : Nat) : Outcome TSNode :=
  ts_node_find_for_range mem ts_tree_total_size fuel this position position

end Navigation

/-! ## The flattened view and well-formed trees -/

section View

variable (mem : Memory)

/-- One level of the flattened visible enumeration: the children in order, a visible child kept,
a hidden child replaced by what `f` lists for it. -/
def flatScan (f : Nat → List Nat) : List Nat → List Nat
  | [] => []
  | c :: rest =>
    match mem c with
    | none => flatScan f rest
    | some child => (if child.visible then [c] else f c) ++ flatScan f rest

/-- The flattened visible enumeration of the node at `p` (addresses), for a tree of height at
most the first argument: the physical children in order, each visible child kept and each hidden
child replaced by its own flattened visible enumeration. -/
def flat : Nat → Nat → List Nat
  | 0, _ => []
  | n + 1, p =>
    match mem p with
    | none => []
    | some t => flatScan mem (flat n) t.children

variable (ts_tree_total_size : TSTree → TSLength)

/-- One level of the flattened enumeration with positions: a child starts where the previous
one started plus the previous one's total size. -/
def flatPosScan (f : Nat → TSLength → List TSNode) : List Nat → TSLength → List TSNode
  | [], _ => []
  | c :: rest, position =>
    match mem c with
    | none => flatPosScan f rest position
    | some child =>
      (if child.visible then [ts_node_make (some c) position] else f c position) ++
        flatPosScan f rest (ts_length_add position (ts_tree_total_size child))

/-- The flattened visible enumeration of the node at `p` as handles, when the handle of `p` has
the given position. -/
def flatPos : Nat → Nat → TSLength → List TSNode
  | 0, _, _ => []
  | n + 1, p, position =>
    match mem p with
    | none => []
    | some t => flatPosScan mem ts_tree_total_size (flatPos n) t.children position

/-- The subtree at `p` is well formed, with height at most the first argument: every node is in
memory, its `visible_child_count` is the length of its flattened visible enumeration, its counts
fit in `size_t`, and the `context` of each child names its parent and its index there. -/
def wf : Nat → Nat → Bool
  | 0, _ => false
  | n + 1, p =>
    match mem p with
    | none => false
    | some t =>
      decide (t.visible_child_count = (flat mem (n + 1) p).length) &&
      decide (t.visible_child_count < SIZE_MOD) &&
      decide (t.children.length < SIZE_MOD) &&
      t.children.enum.all fun ic =>
        (match mem ic.2 with
         | none => false
         | some ct => decide (ct.context = ⟨some p, ic.1⟩)) && wf n ic.2

/-- The node at `x` lies `d` levels below the node at `r`, following child arrays. -/
inductive InTree (r : Nat) : Nat → Nat → Prop where
  | root : InTree r 0 r
  | child {d q x i : Nat} {t : TSTree} :
      InTree r d q → mem q = some t → t.children[i]? = some x → InTree r (d + 1) x

end View

/-! ## Auxiliary definitions -/

/-- What the `while` loop of `ts_node_child` does with the outcome of the scan. -/
def resume (k : TSNode → Nat → Outcome TSNode) : Outcome ChildScan → Outcome TSNode
  | .ok (.returned n) => .ok n
  | .ok (.finished true node ci) => k node ci
  | .ok (.finished false _ _) => .ok ts_node_null
  | .fault => .fault
  | .timeout => .timeout

section Helpers

variable (mem : Memory) (ts_tree_total_size : TSTree → TSLength)

/-- The total sizes of the nodes at the given addresses, in order. -/
def totalSizes (l : List Nat) : List TSLength :=
  l.filterMap fun c => (mem c).map ts_tree_total_size

/-- The node at `a` is in memory and visible. -/
def isVisibleAt (a : Nat) : Bool :=
  match mem a with
  | none => false
  | some t => ts_tree_is_visible t

/-- The strict ancestors of the node at `x`, nearest first, following at most `d` parent
references. -/
def ancestors : Nat → Nat → List Nat
  | 0, _ => []
  | d + 1, x =>
    match mem x with
    | none => []
    | some t =>
      match t.context.parent with
      | none => []
      | some q => q :: ancestors d q

/-- The nearest visible strict ancestor of the node at `x`, which lies `d` levels deep. -/
def nearestVisibleAncestor (d x : Nat) : Option Nat :=
  (ancestors mem d x).find? (isVisibleAt mem)

/-- The path from the node at `x` up to its nearest visible strict ancestor, that ancestor left
out: `x` and the hidden ancestors in between. -/
def pathBelowAncestor (d x : Nat) : List Nat :=
  x :: (ancestors mem d x).takeWhile fun a => !isVisibleAt mem a

/-- The physical siblings before the node at `y`: the children of its parent in front of its
own index. -/
def precedingSiblings (y : Nat) : List Nat :=
  match mem y with
  | none => []
  | some t =>
    match t.context.parent with
    | none => []
    | some q =>
      match mem q with
      | none => []
      | some par => par.children.take t.context.index

/-- The total sizes of the physical siblings before the node at `y`. -/
def sizesBefore (y : Nat) : List TSLength :=
  totalSizes mem ts_tree_total_size (precedingSiblings mem y)

end Helpers

/-- What `ts_node_parent` is to return for the node at `x`, `d` levels deep, at `position`: the
nearest visible strict ancestor, at the position less the total sizes of the siblings before
each node of the path; the null handle when no strict ancestor is visible. -/
def expectedParent (mem : Memory) (ts_tree_total_size : TSTree → TSLength) (d x : Nat)
    (position : TSLength) : TSNode :=
  match nearestVisibleAncestor mem d x with
  | none => ts_node_null
  | some a =>
    ts_node_make (some a)
      (((pathBelowAncestor mem d x).map (sizesBefore mem ts_tree_total_size)).flatten.foldl
        ts_length_sub position)

/-- What the loop of `ts_node_prev_sibling` gives once it stands at a child of the node `q`
(record `t`, entered at `position`) and `before` are the flattened nodes in front of that child:
the last of them, or else null at a visible `q` and a further round from a hidden `q`. -/
def prevAfter (mem : Memory) (ts_tree_total_size : TSTree → TSLength) (cfuel : Nat)
    (t : TSTree) (q : Nat) (position : TSLength) (before : List TSNode) (fuel : Nat) :
    Outcome TSNode :=
  match before.getLast? with
  | some e => .ok e
  | none =>
    if t.visible then .ok ts_node_null
    else prevLoop mem ts_tree_total_size cfuel fuel q position

/-- The handle `r` starts at or before `min` and ends after `max`, in characters:
`ts_node_pos(r).chars <= min` and `ts_node_pos(r).chars + ts_node_size(r).chars > max`. -/
def coversRange (mem : Memory) (min max : Nat) (r : TSNode) : Prop :=
  ∃ pr sz, ts_node_pos mem r = .ok pr ∧ ts_node_size mem r = .ok sz ∧
    pr.chars ≤ min ∧ max < pr.chars + sz.chars

/-! ## Variants of the scans that stop at the first descent -/

section Variants

variable (mem : Memory) (ts_tree_total_size : TSTree → TSLength)

/-- The inner `for` loop of `ts_node_child` with a `break` added after
`child_index = grandchild_index`: the scan is left as soon as it decides to descend. -/
def childScanBreak : List Nat → Nat → Nat → TSLength → TSNode → Outcome ChildScan
  | [], _, child_index, _, node => .ok (.finished false node child_index)
  | c :: rest, index, child_index, position, node =>
    match mem c with
    | none => .fault
    | some child =>
      if ts_tree_is_visible child then
        if index = child_index then
          .ok (.returned (ts_node_make (some c) position))
        else
          childScanBreak rest ((index + 1) % SIZE_MOD) child_index
            (ts_length_add position (ts_tree_total_size child)) node
      else
        let grandchild_index := (child_index + (SIZE_MOD - index % SIZE_MOD)) % SIZE_MOD
        if grandchild_index < child.visible_child_count then
          .ok (.finished true (ts_node_make (some c) position) grandchild_index)
        else
          childScanBreak rest ((index + child.visible_child_count) % SIZE_MOD) child_index
            (ts_length_add position (ts_tree_total_size child)) node

/-- The `while (did_descend)` loop of `ts_node_child` around the scan with the `break`. -/
def childLoopBreak : Nat → TSNode → Nat → Outcome TSNode
  | 0, _, _ => .timeout
  | fuel + 1, node, child_index =>
    match get_tree node with
    | none => .fault
    | some p =>
      match mem p with
      | none => .fault
      | some tree =>
        match childScanBreak mem ts_tree_total_size tree.children 0 child_index node.position
            node with
        | .ok (.returned n) => .ok n
        | .ok (.finished true node' child_index') => childLoopBreak fuel node' child_index'
        | .ok (.finished false _ _) => .ok ts_node_null
        | .fault => .fault
        | .timeout => .timeout

/-- The variant of `ts_node_child` that breaks out of the scan immediately on descent. -/
def ts_node_child_break (fuel : Nat) (this : TSNode) (child_index : Nat) : Outcome TSNode :=
  childLoopBreak mem ts_tree_total_size fuel this child_index

/-- The inner `for` loop of `ts_node_find_for_range` with a `break` added after
`did_descend = true`: the scan is left at the first child that contains the range. -/
def rangeScanFirst (min max : Nat) : List Nat → TSLength → RangeScan → Outcome RangeScan
  | [], _, s => .ok s
  | c :: rest, position, s =>
    match mem c with
    | none => .fault
    | some child =>
      if (position.chars + child.padding.chars) % SIZE_MOD > min then .ok s
      else if (position.chars + child.padding.chars + child.size.chars) % SIZE_MOD > max then
        .ok { node := ts_node_make (some c) position
              last_visible_node :=
                if ts_tree_is_visible child then ts_node_make (some c) position
                else s.last_visible_node
              did_descend := true }
      else
        rangeScanFirst min max rest (ts_length_add position (ts_tree_total_size child)) s

/-- The `while (did_descend)` loop of `ts_node_find_for_range` around the scan that stops at the
first match. -/
def rangeLoopFirst (min max : Nat) : Nat → TSNode → TSNode → Outcome TSNode
  | 0, _, _ => .timeout
  | fuel + 1, node, last_visible_node =>
    match get_tree node with
    | none => .fault
    | some p =>
      match mem p with
      | none => .fault
      | some tree =>
        match rangeScanFirst mem ts_tree_total_size min max tree.children node.position
            { node := node, last_visible_node := last_visible_node, did_descend := false } with
        | .ok s =>
          if s.did_descend then rangeLoopFirst min max fuel s.node s.last_visible_node
          else .ok s.last_visible_node
        | .fault => .fault
        | .timeout => .timeout

/-- The variant of `ts_node_find_for_range` that restarts the scan one level down immediately
on the first match. -/
def ts_node_find_for_range_first (fuel : Nat) (this : TSNode) (min max : Nat) :
    Outcome TSNode :=
  rangeLoopFirst mem ts_tree_total_size min max fuel this this

end Variants

/-- The list `path` leads from the node at `p` down the child arrays: its first node is a child
of `p`, and each further node is a child of the one before. -/
def isChildPath (mem : Memory) : Nat → List Nat → Prop
  | _, [] => True
  | p, y :: rest => (∃ t, mem p = some t ∧ y ∈ t.children) ∧ isChildPath mem y rest

/-! ## The layout of the children, and what a range scan selects -/

section Layout

variable (mem : Memory) (ts_tree_total_size : TSTree → TSLength)

/-- The children a scan visits from `position` on, as handles with their records: each child
stands at the position of the one before plus that one's total size. The list ends at a child
that is not in memory. -/
def childHandles : List Nat → TSLength → List (TSNode × TSTree)
  | [], _ => []
  | c :: rest, position =>
    match mem c with
    | none => []
    | some child =>
      (ts_node_make (some c) position, child) ::
        childHandles rest (ts_length_add position (ts_tree_total_size child))

/-- The test of the `break` in `ts_node_find_for_range`: the child starts after `min`. -/
def startsAfter (min : Nat) (e : TSNode × TSTree) : Bool :=
  decide ((e.1.position.chars + e.2.padding.chars) % SIZE_MOD > min)

/-- The test of the descent in `ts_node_find_for_range`: the child ends after `max`. -/
def endsAfter (max : Nat) (e : TSNode × TSTree) : Bool :=
  decide ((e.1.position.chars + e.2.padding.chars + e.2.size.chars) % SIZE_MOD > max)

/-- The children that satisfy the condition of the descent, among those scanned before the first
child whose start exceeds `min`. -/
def rangeCandidates (min max : Nat) (children : List Nat) (position : TSLength) :
    List (TSNode × TSTree) :=
  ((childHandles mem ts_tree_total_size children position).takeWhile
    fun e => !startsAfter min e).filter (endsAfter max)

/-- One level of the layout in non-decreasing, non-overlapping order: each child is in memory
and ends (start plus size, not wrapped) at or before the position the scan gives to the next
child; `f` is the condition on the subtree of a child. -/
def orderedScan (f : Nat → TSLength → Bool) : List Nat → TSLength → Bool
  | [], _ => true
  | c :: rest, position =>
    match mem c with
    | none => false
    | some child =>
      decide (position.chars + child.padding.chars + child.size.chars
        ≤ (ts_length_add position (ts_tree_total_size child)).chars) &&
      f c position &&
      orderedScan f rest (ts_length_add position (ts_tree_total_size child))

/-- The subtree at `p`, of height at most the first argument and entered at `position`, has the
children of every node laid out in non-decreasing, non-overlapping order. -/
def ordered : Nat → Nat → TSLength → Bool
  | 0, _, _ => false
  | n + 1, p, position =>
    match mem p with
    | none => false
    | some t => orderedScan mem ts_tree_total_size (ordered n) t.children position

/-- One level of the nesting of spans: each child starts at or after `lo` and ends at or before
`hi`, the start and the end of its parent; `f` is the condition on the subtree of a child. -/
def nestedScan (f : Nat → TSLength → Bool) (lo hi : Nat) : List Nat → TSLength → Bool
  | [], _ => true
  | c :: rest, position =>
    match mem c with
    | none => false
    | some child =>
      decide (lo ≤ position.chars + child.padding.chars) &&
      decide (position.chars + child.padding.chars + child.size.chars ≤ hi) &&
      f c position &&
      nestedScan f lo hi rest (ts_length_add position (ts_tree_total_size child))

/-- In the subtree at `p`, of height at most the first argument and entered at `position`, the
span of every child lies within the span of its parent, and no end of a span exceeds
`size_t`. -/
def nested : Nat → Nat → TSLength → Bool
  | 0, _, _ => false
  | n + 1, p, position =>
    match mem p with
    | none => false
    | some t =>
      decide (position.chars + t.padding.chars + t.size.chars < SIZE_MOD) &&
      nestedScan mem ts_tree_total_size (nested n)
        (position.chars + t.padding.chars)
        (position.chars + t.padding.chars + t.size.chars) t.children position

/-- The handle `b` is a child of the handle `a`: its node is the `k`-th child of the node of
`a`, at the position of `a` plus the total sizes of the children before it, which is the
position the scans of the child array give it. -/
def isChildHandle (a b : TSNode) : Prop :=
  ∃ p t k c, a.data = some p ∧ mem p = some t ∧ t.children[k]? = some c ∧
    b = ts_node_make (some c)
      ((totalSizes mem ts_tree_total_size (t.children.take k)).foldl ts_length_add a.position)

/-- The handle `b` is a proper descendant of the handle `a`, by one or more steps from a handle
to a child handle. -/
inductive Below : TSNode → TSNode → Prop where
  | child {a b : TSNode} : isChildHandle mem ts_tree_total_size a b → Below a b
  | step {a b c : TSNode} :
      isChildHandle mem ts_tree_total_size a b → Below b c → Below a c

/-- The handle is non-null and its node is in memory and visible. -/
def isVisibleHandle (a : TSNode) : Bool :=
  match a.data with
  | none => false
  | some p => isVisibleAt mem p

/-- The handle `b` is reached from the handle `a` by one or more calls of `ts_node_child`, each
returning a non-null handle. -/
inductive ChildDescent : TSNode → TSNode → Prop where
  | child {a b : TSNode} (fuel i : Nat) :
      ts_node_child mem ts_tree_total_size fuel a i = .ok b → b.data ≠ none → ChildDescent a b
  | step {a b c : TSNode} (fuel i : Nat) :
      ChildDescent a b → ts_node_child mem ts_tree_total_size fuel b i = .ok c →
      c.data ≠ none → ChildDescent a c

/-- The `while (did_descend)` loop of `ts_node_find_for_range` with a record kept of the nodes
it descends into, in order: the result of `rangeLoop` and the downward path the descent
followed. -/
def rangeLoopTrace (min max : Nat) : Nat → TSNode → TSNode → Outcome (TSNode × List TSNode)
  | 0, _, _ => .timeout
  | fuel + 1, node, last_visible_node =>
    match get_tree node with
    | none => .fault
    | some p =>
      match mem p with
      | none => .fault
      | some tree =>
        match rangeScan mem ts_tree_total_size min max tree.children node.position
            { node := node, last_visible_node := last_visible_node, did_descend := false } with
        | .ok s =>
          if s.did_descend then
            match rangeLoopTrace min max fuel s.node s.last_visible_node with
            | .ok (r, path) => .ok (r, s.node :: path)
            | .fault => .fault
            | .timeout => .timeout
          else .ok (s.last_visible_node, [])
        | .fault => .fault
        | .timeout => .timeout

/-- The node of the handle `d` is in memory, starts at or before `min` and ends after `max`;
the sums are not wrapped. -/
def spanCovers (min max : Nat) (d : TSNode) : Prop :=
  ∃ c dt, d.data = some c ∧ mem c = some dt ∧
    d.position.chars + dt.padding.chars ≤ min ∧
    max < d.position.chars + dt.padding.chars + dt.size.chars

/-- The subtree at `p` is finite, with at most as many levels as the first argument, and all
its nodes are in memory. -/
def finiteTree : Nat → Nat → Bool
  | 0, _ => false
  | n + 1, p =>
    match mem p with
    | none => false
    | some t => t.children.all (finiteTree n)

end Layout

/-! ## A sample tree -/

/-- The total size the runtime uses: padding plus size. -/
def paddedSize (t : TSTree) : TSLength := ts_length_add t.padding t.size

/-- A visible node `P` at address 0 with two hidden wrappers: the one at address 1 holds the
visible leaves 3 and 4 (one and two characters), the one at address 2 holds the visible leaf 5
(three characters). -/
def sampleMem : Memory := fun a =>
  match a with
  | 0 => some ⟨0, ⟨0, 0⟩, ⟨6, 6⟩, [1, 2], 3, true, ⟨none, 0⟩⟩
  | 1 => some ⟨1, ⟨0, 0⟩, ⟨3, 3⟩, [3, 4], 2, false, ⟨some 0, 0⟩⟩
  | 2 => some ⟨2, ⟨0, 0⟩, ⟨3, 3⟩, [5], 1, false, ⟨some 0, 1⟩⟩
  | 3 => some ⟨3, ⟨0, 0⟩, ⟨1, 1⟩, [], 0, true, ⟨some 1, 0⟩⟩
  | 4 => some ⟨4, ⟨0, 0⟩, ⟨2, 2⟩, [], 0, true, ⟨some 1, 1⟩⟩
  | 5 => some ⟨5, ⟨0, 0⟩, ⟨3, 3⟩, [], 0, true, ⟨some 2, 0⟩⟩
  | _ => none

/-- A visible node at address 0, two characters long, with a visible leaf at address 1 and a
hidden leaf at address 2 after it, one character each. -/
def sampleMem2 : Memory := fun a =>
  match a with
  | 0 => some ⟨0, ⟨0, 0⟩, ⟨2, 2⟩, [1, 2], 1, true, ⟨none, 0⟩⟩
  | 1 => some ⟨1, ⟨0, 0⟩, ⟨1, 1⟩, [], 0, true, ⟨some 0, 0⟩⟩
  | 2 => some ⟨2, ⟨0, 0⟩, ⟨1, 1⟩, [], 0, false, ⟨some 0, 1⟩⟩
  | _ => none

/-- A visible root at address 0, five characters long, with a visible leaf at address 1 (two
characters) and after it a visible node at address 2; that node has one child, the hidden
wrapper at address 3, which holds the visible leaves 4 and 5 (one and two characters). -/
def sampleMem3 : Memory := fun a =>
  match a with
  | 0 => some ⟨0, ⟨0, 0⟩, ⟨5, 5⟩, [1, 2], 2, true, ⟨none, 0⟩⟩
  | 1 => some ⟨1, ⟨0, 0⟩, ⟨2, 2⟩, [], 0, true, ⟨some 0, 0⟩⟩
  | 2 => some ⟨2, ⟨0, 0⟩, ⟨3, 3⟩, [3], 2, true, ⟨some 0, 1⟩⟩
  | 3 => some ⟨3, ⟨0, 0⟩, ⟨3, 3⟩, [4, 5], 2, false, ⟨some 2, 0⟩⟩
  | 4 => some ⟨4, ⟨0, 0⟩, ⟨1, 1⟩, [], 0, true, ⟨some 3, 0⟩⟩
  | 5 => some ⟨5, ⟨0, 0⟩, ⟨2, 2⟩, [], 0, true, ⟨some 3, 1⟩⟩
  | _ => none


/-! ## Extent arithmetic -/

theorem ts_length_add_inRange (a b : TSLength) : (ts_length_add a b).inRange := by
  simp only [TSLength.inRange, ts_length_add, SIZE_MOD]
  omega

theorem ts_length_sub_inRange (a b : TSLength) : (ts_length_sub a b).inRange := by
  simp only [TSLength.inRange, ts_length_sub, SIZE_MOD]
  omega

theorem ts_length_sub_add_cancel (a b : TSLength) (ha : a.inRange) :
    ts_length_sub (ts_length_add a b) b = a := by
  obtain ⟨a1, a2⟩ := a
  obtain ⟨b1, b2⟩ := b
  simp only [TSLength.inRange, SIZE_MOD] at ha
  simp only [ts_length_sub, ts_length_add, SIZE_MOD, TSLength.mk.injEq]
  omega

theorem ts_length_add_sub_cancel (a b : TSLength) (ha : a.inRange) :
    ts_length_add (ts_length_sub a b) b = a := by
  obtain ⟨a1, a2⟩ := a
  obtain ⟨b1, b2⟩ := b
  simp only [TSLength.inRange, SIZE_MOD] at ha
  simp only [ts_length_sub, ts_length_add, SIZE_MOD, TSLength.mk.injEq]
  omega

theorem ts_length_sub_add_comm (a b c : TSLength) :
    ts_length_sub (ts_length_add a b) c = ts_length_add (ts_length_sub a c) b := by
  obtain ⟨a1, a2⟩ := a
  obtain ⟨b1, b2⟩ := b
  obtain ⟨c1, c2⟩ := c
  simp only [ts_length_sub, ts_length_add, SIZE_MOD, TSLength.mk.injEq]
  omega

theorem ts_length_sub_injective (a b c : TSLength) (ha : a.inRange) (hb : b.inRange)
    (h : ts_length_sub a c = ts_length_sub b c) : a = b := by
  rw [← ts_length_add_sub_cancel a c ha, h, ts_length_add_sub_cancel b c hb]

theorem foldl_add_inRange (l : List TSLength) : ∀ a : TSLength, a.inRange →
    (l.foldl ts_length_add a).inRange := by
  induction l with
  | nil => intro a ha; simpa using ha
  | cons x l ih => intro a _; exact ih _ (ts_length_add_inRange a x)

theorem foldl_sub_inRange (l : List TSLength) : ∀ a : TSLength, a.inRange →
    (l.foldl ts_length_sub a).inRange := by
  induction l with
  | nil => intro a ha; simpa using ha
  | cons x l ih => intro a _; exact ih _ (ts_length_sub_inRange a x)

theorem foldl_sub_injective (l : List TSLength) : ∀ a b : TSLength, a.inRange → b.inRange →
    l.foldl ts_length_sub a = l.foldl ts_length_sub b → a = b := by
  induction l with
  | nil => intro a b _ _ h; simpa using h
  | cons x l ih =>
    intro a b ha hb h
    exact ts_length_sub_injective a b x ha hb
      (ih _ _ (ts_length_sub_inRange a x) (ts_length_sub_inRange b x) h)

theorem sub_foldl_add (l : List TSLength) : ∀ a x : TSLength,
    ts_length_sub (l.foldl ts_length_add a) x = l.foldl ts_length_add (ts_length_sub a x) := by
  induction l with
  | nil => intro a x; rfl
  | cons y l ih =>
    intro a x
    simp only [List.foldl_cons]
    rw [ih, ts_length_sub_add_comm]

/-- Subtracting, front to back, what was added front to back gives the start again. -/
theorem foldl_sub_foldl_add (l : List TSLength) : ∀ a : TSLength, a.inRange →
    l.foldl ts_length_sub (l.foldl ts_length_add a) = a := by
  induction l with
  | nil => intro a _; rfl
  | cons x l ih =>
    intro a ha
    simp only [List.foldl_cons]
    rw [sub_foldl_add, ts_length_sub_add_cancel a x ha]
    exact ih a ha

/-- Subtracting, back to front, the last part of what was added leaves the first part. -/
theorem foldl_sub_reverse_foldl_add (l2 : List TSLength) : ∀ (l1 : List TSLength)
    (a : TSLength), a.inRange →
    l2.reverse.foldl ts_length_sub ((l1 ++ l2).foldl ts_length_add a)
      = l1.foldl ts_length_add a := by
  induction l2 using List.reverseRecOn with
  | nil => intro l1 a _; simp
  | append_singleton l2 x ih =>
    intro l1 a ha
    rw [List.reverse_append, ← List.append_assoc, List.foldl_append _ _ (l1 ++ l2)]
    simp only [List.reverse_cons, List.reverse_nil, List.nil_append, List.singleton_append,
      List.foldl_cons, List.foldl_nil]
    rw [ts_length_sub_add_cancel _ x (foldl_add_inRange _ a ha)]
    exact ih l1 a ha

/-! ## Child descent -/

section
variable (mem : Memory) (total : TSTree → TSLength)

theorem wf_succ_iff (n p : Nat) :
    wf mem (n + 1) p = true ↔
      ∃ t, mem p = some t ∧ t.visible_child_count = (flat mem (n + 1) p).length ∧
        t.visible_child_count < SIZE_MOD ∧ t.children.length < SIZE_MOD ∧
        ∀ i c, t.children[i]? = some c →
          (∃ ct, mem c = some ct ∧ ct.context = ⟨some p, i⟩) ∧ wf mem n c = true := by
  rw [wf]
  cases h : mem p with
  | none => simp
  | some t =>
    simp only [Bool.and_eq_true, decide_eq_true_eq, List.all_eq_true]
    constructor
    · rintro ⟨⟨⟨h1, h2⟩, h3⟩, h4⟩
      refine ⟨t, rfl, h1, h2, h3, ?_⟩
      intro i c hic
      have h5 := h4 (i, c) (by simpa [List.mk_mem_enum_iff_getElem?] using hic)
      obtain ⟨h6, h7⟩ := h5
      refine ⟨?_, h7⟩
      cases hc : mem c with
      | none => simp [hc] at h6
      | some ct => simp [hc] at h6; exact ⟨ct, rfl, h6⟩
    · rintro ⟨t', ht', h1, h2, h3, h4⟩
      cases ht'
      refine ⟨⟨⟨h1, h2⟩, h3⟩, ?_⟩
      rintro ⟨i, c⟩ hic
      have hic' : t.children[i]? = some c := by
        simpa [List.mk_mem_enum_iff_getElem?] using hic
      obtain ⟨⟨ct, hct, hctx⟩, hw⟩ := h4 i c hic'
      simp [hct, hctx, hw]

theorem wf_node {n p : Nat} (h : wf mem n p = true) :
    ∃ t, mem p = some t ∧ t.visible_child_count = (flat mem n p).length ∧
      t.visible_child_count < SIZE_MOD ∧ t.children.length < SIZE_MOD := by
  cases n with
  | zero => simp [wf] at h
  | succ n =>
    obtain ⟨t, h1, h2, h3, h4, _⟩ := (wf_succ_iff mem n p).1 h
    exact ⟨t, h1, h2, h3, h4⟩

theorem wf_children {n p : Nat} {t : TSTree} (h : wf mem (n + 1) p = true) (ht : mem p = some t) :
    ∀ c ∈ t.children, wf mem n c = true := by
  obtain ⟨t', h1, _, _, _, h5⟩ := (wf_succ_iff mem n p).1 h
  rw [ht] at h1; cases h1
  intro c hc
  obtain ⟨i, hi⟩ := List.mem_iff_getElem?.1 hc
  exact (h5 i c hi).2

theorem flatPosScan_data (f : Nat → TSLength → List TSNode) (g : Nat → List Nat)
    (hfg : ∀ c pos, (f c pos).map TSNode.data = (g c).map some) (cs : List Nat) :
    ∀ pos, (flatPosScan mem total f cs pos).map TSNode.data = (flatScan mem g cs).map some := by
  induction cs with
  | nil => intro pos; simp [flatPosScan, flatScan]
  | cons c rest ih =>
    intro pos
    rw [flatPosScan, flatScan]
    cases hc : mem c with
    | none => simpa using ih pos
    | some child =>
      simp only [List.map_append, ih]
      congr 1
      by_cases hv : child.visible = true
      · simp [hv, ts_node_make]
      · simp [hv, hfg]

theorem flatPos_data (n : Nat) : ∀ p pos,
    (flatPos mem total n p pos).map TSNode.data = (flat mem n p).map some := by
  induction n with
  | zero => intro p pos; simp [flatPos, flat]
  | succ n ih =>
    intro p pos
    rw [flatPos, flat]
    cases hp : mem p with
    | none => simp
    | some t => exact flatPosScan_data mem total _ _ ih _ _

theorem flatPos_length (n p : Nat) (pos : TSLength) :
    (flatPos mem total n p pos).length = (flat mem n p).length := by
  have := congrArg List.length (flatPos_data mem total n p pos)
  simpa using this

theorem flatPosScan_length (n : Nat) (cs : List Nat) (pos : TSLength) :
    (flatPosScan mem total (flatPos mem total n) cs pos).length
      = (flatScan mem (flat mem n) cs).length := by
  have := congrArg List.length
    (flatPosScan_data mem total _ _ (flatPos_data mem total n) cs pos)
  simpa using this

theorem childLoop_succ (fuel p : Nat) (t : TSTree) (node : TSNode) (ci : Nat)
    (hp : node.data = some p) (ht : mem p = some t) :
    childLoop mem total (fuel + 1) node ci =
      resume (childLoop mem total fuel)
        (childScan mem total t.children 0 ci node.position false node) := by
  rw [childLoop]
  simp only [get_tree, hp, ht]
  split <;> simp_all [resume]

theorem childScan_after (n : Nat) (cs : List Nat) :
    ∀ (idx g : Nat) (pos : TSLength) (nd : TSNode),
      (∀ c ∈ cs, wf mem n c = true) → g < idx →
      idx + (flatScan mem (flat mem n) cs).length < SIZE_MOD →
      childScan mem total cs idx g pos true nd = .ok (.finished true nd g) := by
  induction cs with
  | nil => intro idx g pos nd _ _ _; simp [childScan]
  | cons c rest ih =>
    intro idx g pos nd hwf hg hlen
    obtain ⟨ct, hct, hvcc, hlt, _⟩ := wf_node mem (hwf c (by simp))
    have hrest : ∀ c ∈ rest, wf mem n c = true := fun c hc => hwf c (by simp [hc])
    rw [flatScan, hct] at hlen
    simp only [List.length_append] at hlen
    rw [childScan, hct]
    cases hv : ct.visible with
    | true =>
      simp only [hv, if_true, List.length_singleton] at hlen
      have hne : idx ≠ g := by omega
      simp only [ts_tree_is_visible, hv, if_true, hne, if_false]
      have h1 : (idx + 1) % SIZE_MOD = idx + 1 := Nat.mod_eq_of_lt (by omega)
      rw [h1]
      exact ih _ _ _ _ hrest (by omega) (by omega)
    | false =>
      simp only [hv, Bool.false_eq_true, if_false] at hlen
      simp only [ts_tree_is_visible, hv, Bool.false_eq_true, if_false]
      rw [← hvcc] at hlen
      have h1 : (idx + ct.visible_child_count) % SIZE_MOD = idx + ct.visible_child_count :=
        Nat.mod_eq_of_lt (by omega)
      have h2 : ¬ (g + (SIZE_MOD - idx % SIZE_MOD)) % SIZE_MOD < ct.visible_child_count := by
        have h3 : idx % SIZE_MOD = idx := Nat.mod_eq_of_lt (by omega)
        have h4 : (g + (SIZE_MOD - idx)) % SIZE_MOD = g + (SIZE_MOD - idx) :=
          Nat.mod_eq_of_lt (by omega)
        rw [h3, h4]; omega
      simp only [h2, if_false, h1]
      exact ih _ _ _ _ hrest (by omega) (by omega)

theorem childScan_found (n fuel : Nat)
    (ih : ∀ c pos g, wf mem n c = true → g < SIZE_MOD →
      childLoop mem total fuel ⟨some c, pos⟩ g
        = .ok ((flatPos mem total n c pos)[g]?.getD ts_node_null))
    (cs : List Nat) :
    ∀ (idx ci : Nat) (pos : TSLength) (node : TSNode),
      (∀ c ∈ cs, wf mem n c = true) → idx ≤ ci → ci < SIZE_MOD →
      idx + (flatScan mem (flat mem n) cs).length < SIZE_MOD →
      resume (childLoop mem total fuel) (childScan mem total cs idx ci pos false node)
        = .ok ((flatPosScan mem total (flatPos mem total n) cs pos)[ci - idx]?.getD
            ts_node_null) := by
  induction cs with
  | nil => intro idx ci pos node _ _ _ _; simp [childScan, resume, flatPosScan]
  | cons c rest ih2 =>
    intro idx ci pos node hwf hle hci hlen
    have hwc := hwf c (by simp)
    obtain ⟨ct, hct, hvcc, hlt, _⟩ := wf_node mem hwc
    have hrest : ∀ c ∈ rest, wf mem n c = true := fun c hc => hwf c (by simp [hc])
    rw [flatScan, hct] at hlen
    simp only [List.length_append] at hlen
    rw [childScan, hct, flatPosScan, hct]
    cases hv : ct.visible with
    | true =>
      simp only [hv, if_true, List.length_singleton] at hlen
      simp only [ts_tree_is_visible, hv, if_true]
      by_cases he : idx = ci
      · subst he
        simp [resume]
      · simp only [he, if_false]
        have h1 : (idx + 1) % SIZE_MOD = idx + 1 := Nat.mod_eq_of_lt (by omega)
        rw [h1, ih2 _ _ _ _ hrest (by omega) hci (by omega)]
        have h2 : ci - idx = (ci - (idx + 1)) + 1 := by omega
        rw [h2]
        simp
    | false =>
      simp only [hv, Bool.false_eq_true, if_false] at hlen
      simp only [ts_tree_is_visible, hv, Bool.false_eq_true, if_false]
      rw [← hvcc] at hlen
      have h1 : (idx + ct.visible_child_count) % SIZE_MOD = idx + ct.visible_child_count :=
        Nat.mod_eq_of_lt (by omega)
      have h3 : idx % SIZE_MOD = idx := Nat.mod_eq_of_lt (by omega)
      have h4 : (ci + (SIZE_MOD - idx)) % SIZE_MOD = ci - idx := by
        have : ci + (SIZE_MOD - idx) = (ci - idx) + SIZE_MOD := by omega
        rw [this, Nat.add_mod_right]
        exact Nat.mod_eq_of_lt (by omega)
      have hbl : (flatPos mem total n c pos).length = ct.visible_child_count := by
        rw [flatPos_length, hvcc]
      rw [h3, h4, h1]
      by_cases hg : ci - idx < ct.visible_child_count
      · simp only [hg, if_true]
        rw [childScan_after mem total n rest _ _ _ _ hrest (by omega) (by omega)]
        simp only [resume, ts_node_make]
        rw [ih c pos (ci - idx) hwc (by omega)]
        rw [List.getElem?_append_left (by omega)]
      · simp only [hg, if_false]
        rw [ih2 _ _ _ _ hrest (by omega) hci (by omega)]
        rw [List.getElem?_append_right (by omega), hbl]
        congr 3
        omega

theorem childLoop_eq (n : Nat) : ∀ (p : Nat) (pos : TSLength) (ci fuel : Nat),
    wf mem n p = true → n ≤ fuel → ci < SIZE_MOD →
    childLoop mem total fuel ⟨some p, pos⟩ ci
      = .ok ((flatPos mem total n p pos)[ci]?.getD ts_node_null) := by
  induction n with
  | zero => intro p pos ci fuel h; simp [wf] at h
  | succ n ih =>
    intro p pos ci fuel hwf hfuel hci
    obtain ⟨f, rfl⟩ : ∃ f, fuel = f + 1 := ⟨fuel - 1, by omega⟩
    obtain ⟨t, ht, hvcc, hlt, _⟩ := wf_node mem hwf
    rw [childLoop_succ mem total f p t _ ci rfl ht]
    have hfl : flat mem (n + 1) p = flatScan mem (flat mem n) t.children := by
      rw [flat, ht]
    rw [childScan_found mem total n f (fun c pos g hc hg => ih c pos g f hc (by omega) hg)
      t.children 0 ci pos _ (wf_children mem hwf ht) (by omega) hci
      (by rw [← hfl, ← hvcc]; omega)]
    rw [flatPos, ht]
    simp

theorem flatPos_getElem?_data {n p : Nat} (pos : TSLength) {i c : Nat}
    (h : (flat mem n p)[i]? = some c) :
    ∃ position, (flatPos mem total n p pos)[i]? = some ⟨some c, position⟩ := by
  have h1 := congrArg (fun l => l[i]?) (flatPos_data mem total n p pos)
  simp only [List.getElem?_map, h, Option.map_some'] at h1
  cases he : (flatPos mem total n p pos)[i]? with
  | none => simp [he] at h1
  | some e =>
    rw [he] at h1
    simp only [Option.map_some', Option.some.injEq] at h1
    exact ⟨e.position, by cases e; simp_all⟩

end

/-! ## Well-formed trees and the walk to the parent -/

section
variable (mem : Memory) (total : TSTree → TSLength)

theorem flatScan_congr (f g : Nat → List Nat) (cs : List Nat)
    (h : ∀ c ∈ cs, f c = g c) : flatScan mem f cs = flatScan mem g cs := by
  induction cs with
  | nil => rfl
  | cons c rest ih =>
    rw [flatScan, flatScan, ih (fun c hc => h c (by simp [hc])), h c (by simp)]

theorem flat_succ_of_wf (n : Nat) : ∀ p, wf mem n p = true →
    flat mem (n + 1) p = flat mem n p := by
  induction n with
  | zero => intro p h; simp [wf] at h
  | succ n ih =>
    intro p h
    obtain ⟨t, ht, _⟩ := wf_node mem h
    rw [flat, flat, ht]
    exact flatScan_congr mem _ _ _ (fun c hc => ih c (wf_children mem h ht c hc))

theorem wf_succ_of_wf (n : Nat) : ∀ p, wf mem n p = true → wf mem (n + 1) p = true := by
  induction n with
  | zero => intro p h; simp [wf] at h
  | succ n ih =>
    intro p h
    obtain ⟨t, ht, h1, h2, h3, h4⟩ := (wf_succ_iff mem n p).1 h
    refine (wf_succ_iff mem (n + 1) p).2 ⟨t, ht, ?_, h2, h3, ?_⟩
    · rw [flat_succ_of_wf mem (n + 1) p h]; exact h1
    · intro i c hic
      exact ⟨(h4 i c hic).1, ih c (h4 i c hic).2⟩

theorem wf_mono {n m : Nat} {p : Nat} (h : wf mem n p = true) (hnm : n ≤ m) :
    wf mem m p = true := by
  induction hnm with
  | refl => exact h
  | step _ ih => exact wf_succ_of_wf mem _ p ih

theorem flat_mono {n m : Nat} {p : Nat} (h : wf mem n p = true) (hnm : n ≤ m) :
    flat mem m p = flat mem n p := by
  induction hnm with
  | refl => rfl
  | step hle ih => rw [flat_succ_of_wf mem _ p (wf_mono mem h hle), ih]

/-- A node of a well-formed tree heads a well-formed subtree, and the tree is higher than the
node is deep. -/
theorem InTree.wf_sub {r N d x : Nat} (hwf : wf mem N r = true) (h : InTree mem r d x) :
    ∃ m, m + d = N ∧ wf mem m x = true := by
  induction h with
  | root => exact ⟨N, rfl, hwf⟩
  | child hq ht hi ih =>
    obtain ⟨m, hm, hwq⟩ := ih
    cases m with
    | zero => simp [wf] at hwq
    | succ m =>
      refine ⟨m, by omega, ?_⟩
      exact wf_children mem hwq ht _ (List.mem_iff_getElem?.2 ⟨_, hi⟩)

theorem InTree.node_wf {r N d x : Nat} (hwf : wf mem N r = true) (h : InTree mem r d x) :
    wf mem N x = true := by
  obtain ⟨m, hm, hx⟩ := h.wf_sub mem hwf
  exact wf_mono mem hx (by omega)

theorem InTree.depth_lt {r N d x : Nat} (hwf : wf mem N r = true) (h : InTree mem r d x) :
    d < N := by
  obtain ⟨m, hm, hx⟩ := h.wf_sub mem hwf
  cases m with
  | zero => simp [TreeSitter.wf] at hx
  | succ m => omega

/-- The context of a child in a well-formed tree. -/
theorem wf_child_context {n q i c : Nat} {t : TSTree} (hwf : wf mem n q = true)
    (ht : mem q = some t) (hi : t.children[i]? = some c) :
    ∃ ct, mem c = some ct ∧ ct.context = ⟨some q, i⟩ := by
  cases n with
  | zero => simp [wf] at hwf
  | succ n =>
    obtain ⟨t', ht', _, _, _, h5⟩ := (wf_succ_iff mem n q).1 hwf
    rw [ht] at ht'; cases ht'
    exact (h5 i c hi).1

/-- The children of a well-formed node are pairwise different. -/
theorem wf_children_inj {n q i j c : Nat} {t : TSTree} (hwf : wf mem n q = true)
    (ht : mem q = some t) (hi : t.children[i]? = some c) (hj : t.children[j]? = some c) :
    i = j := by
  obtain ⟨ct, hct, hctx⟩ := wf_child_context mem hwf ht hi
  obtain ⟨ct', hct', hctx'⟩ := wf_child_context mem hwf ht hj
  rw [hct] at hct'; cases hct'
  rw [hctx] at hctx'
  simpa using hctx'

theorem parentScan_eq (x : Nat) (cs : List Nat) : ∀ (k : Nat) (pos : TSLength),
    cs[k]? = some x → (∀ j, j < k → cs[j]? ≠ some x) → (∀ c ∈ cs, (mem c).isSome) →
    parentScan mem total x cs pos
      = .ok ((totalSizes mem total (cs.take k)).foldl ts_length_sub pos) := by
  induction cs with
  | nil => intro k pos h; simp at h
  | cons c rest ih =>
    intro k pos hk hne hmem
    rw [parentScan]
    cases k with
    | zero =>
      simp at hk
      simp [hk, totalSizes]
    | succ k =>
      have hc : c ≠ x := by
        intro h
        exact hne 0 (by omega) (by simp [h])
      obtain ⟨ct, hct⟩ := Option.isSome_iff_exists.1 (hmem c (by simp))
      simp only [hc, if_false, hct]
      rw [ih k _ (by simpa using hk) (fun j hj => by simpa using hne (j + 1) (by omega))
        (fun c hc => hmem c (by simp [hc]))]
      simp [totalSizes, hct]

theorem wf_children_mem {n q : Nat} {t : TSTree} (hwf : wf mem n q = true)
    (ht : mem q = some t) : ∀ c ∈ t.children, (mem c).isSome := by
  intro c hc
  obtain ⟨i, hi⟩ := List.mem_iff_getElem?.1 hc
  obtain ⟨ct, hct, _⟩ := wf_child_context mem hwf ht hi
  simp [hct]

/-- One round of the loop of `ts_node_parent`, started at the `k`-th child of `q`. -/
theorem parentLoop_step {n q k c : Nat} {t : TSTree} (hwf : wf mem n q = true)
    (ht : mem q = some t) (hk : t.children[k]? = some c) (pos : TSLength) (f : Nat) :
    parentLoop mem total (f + 1) c pos =
      if t.visible then
        .ok ⟨some q, (totalSizes mem total (t.children.take k)).foldl ts_length_sub pos⟩
      else
        parentLoop mem total f q
          ((totalSizes mem total (t.children.take k)).foldl ts_length_sub pos) := by
  obtain ⟨ct, hct, hctx⟩ := wf_child_context mem hwf ht hk
  rw [parentLoop, hct]
  simp only [hctx, ht]
  rw [parentScan_eq mem total c t.children k pos hk
    (fun j hj hj' => by have := wf_children_inj mem hwf ht hj' hk; omega)
    (wf_children_mem mem hwf ht)]
  simp [ts_tree_is_visible, ts_node_make]

theorem parentLoop_mono (f : Nat) : ∀ (x : Nat) (pos : TSLength) (r : TSNode),
    parentLoop mem total f x pos = .ok r → parentLoop mem total (f + 1) x pos = .ok r := by
  induction f with
  | zero => intro x pos r h; simp [parentLoop] at h
  | succ f ih =>
    intro x pos r h
    rw [parentLoop] at h ⊢
    split <;> simp_all
    split <;> simp_all
    split <;> simp_all
    split <;> simp_all
    split at h
    · simp_all
    · rename_i hv
      rw [if_neg hv]
      exact ih _ _ _ h

end

/-! ## The loop of `ts_node_parent` -/

section
variable (mem : Memory) (total : TSTree → TSLength)

theorem parentLoop_mono_le {f f' : Nat} (hle : f ≤ f') {x : Nat} {pos : TSLength} {r : TSNode}
    (h : parentLoop mem total f x pos = .ok r) : parentLoop mem total f' x pos = .ok r := by
  induction hle with
  | refl => exact h
  | step _ ih => exact parentLoop_mono mem total _ _ _ _ ih

/-- The loop of `ts_node_parent`, started anywhere in a well-formed tree whose root has no
parent, ends with the expected handle. -/
theorem parentLoop_expected {r N : Nat} {rt : TSTree} (hwf : wf mem N r = true)
    (hr : mem r = some rt) (hnone : rt.context.parent = none) {d x : Nat}
    (h : InTree mem r d x) :
    ∀ (pos : TSLength) (f : Nat), d + 1 ≤ f →
      parentLoop mem total f x pos = .ok (expectedParent mem total d x pos) := by
  induction h with
  | root =>
    intro pos f hf
    obtain ⟨f, rfl⟩ : ∃ g, f = g + 1 := ⟨f - 1, by omega⟩
    rw [parentLoop, hr]
    simp [hnone, expectedParent, nearestVisibleAncestor, ancestors]
  | @child d q x i t hq ht hi ih =>
    intro pos f hf
    obtain ⟨f, rfl⟩ : ∃ g, f = g + 1 := ⟨f - 1, by omega⟩
    have hwq := hq.node_wf mem hwf
    obtain ⟨ct, hct, hctx⟩ := wf_child_context mem hwq ht hi
    rw [parentLoop_step mem total hwq ht hi]
    have hanc : ancestors mem (d + 1) x = q :: ancestors mem d q := by
      rw [ancestors, hct]; simp [hctx]
    have hsz : sizesBefore mem total x = totalSizes mem total (t.children.take i) := by
      simp [sizesBefore, precedingSiblings, hct, hctx, ht]
    cases hv : t.visible with
    | true =>
      simp [expectedParent, nearestVisibleAncestor, pathBelowAncestor, hanc, isVisibleAt, ht,
        ts_tree_is_visible, hv, hsz, ts_node_make]
    | false =>
      simp only [Bool.false_eq_true, if_false]
      rw [ih _ f (by omega)]
      simp [expectedParent, nearestVisibleAncestor, pathBelowAncestor, hanc, isVisibleAt, ht,
        ts_tree_is_visible, hv, hsz, ts_node_make, List.foldl_append]

theorem flatPosScan_append (f : Nat → TSLength → List TSNode) (l1 l2 : List Nat) :
    ∀ pos, flatPosScan mem total f (l1 ++ l2) pos
      = flatPosScan mem total f l1 pos ++
        flatPosScan mem total f l2 ((totalSizes mem total l1).foldl ts_length_add pos) := by
  induction l1 with
  | nil => intro pos; simp [flatPosScan, totalSizes]
  | cons c rest ih =>
    intro pos
    rw [List.cons_append, flatPosScan, flatPosScan]
    cases hc : mem c with
    | none => simp [ih, totalSizes, hc]
    | some ct => simp [ih, totalSizes, hc]

theorem flatPosScan_mem (f : Nat → TSLength → List TSNode) (cs : List Nat) :
    ∀ (pos : TSLength) (e : TSNode), e ∈ flatPosScan mem total f cs pos →
      ∃ k c ct, cs[k]? = some c ∧ mem c = some ct ∧
        ((ct.visible = true ∧
            e = ⟨some c, (totalSizes mem total (cs.take k)).foldl ts_length_add pos⟩) ∨
         (ct.visible = false ∧
            e ∈ f c ((totalSizes mem total (cs.take k)).foldl ts_length_add pos))) := by
  induction cs with
  | nil => intro pos e h; simp [flatPosScan] at h
  | cons c rest ih =>
    intro pos e h
    rw [flatPosScan] at h
    cases hc : mem c with
    | none =>
      rw [hc] at h
      obtain ⟨k, c', ct, h1, h2, h3⟩ := ih pos e h
      refine ⟨k + 1, c', ct, by simpa using h1, h2, ?_⟩
      simpa [totalSizes, hc] using h3
    | some ct =>
      rw [hc] at h
      simp only [List.mem_append] at h
      rcases h with h | h
      · refine ⟨0, c, ct, by simp, hc, ?_⟩
        cases hv : ct.visible with
        | true => left; simpa [hv, totalSizes, ts_node_make] using h
        | false => right; simpa [hv, totalSizes] using h
      · obtain ⟨k, c', ct', h1, h2, h3⟩ := ih _ e h
        refine ⟨k + 1, c', ct', by simpa using h1, h2, ?_⟩
        simpa [totalSizes, hc] using h3

/-- From a node of the flattened enumeration of `q` the loop of `ts_node_parent` climbs to `q`,
with the position `q` was entered at. -/
theorem parentLoop_of_flatPos (n : Nat) : ∀ (q : Nat) (t : TSTree) (posq : TSLength)
    (e : TSNode), wf mem n q = true → mem q = some t → posq.inRange →
    e ∈ flatPos mem total n q posq →
    ∃ x pos, e = ⟨some x, pos⟩ ∧ pos.inRange ∧ ∀ f r,
      (if t.visible then Outcome.ok (⟨some q, posq⟩ : TSNode)
        else parentLoop mem total f q posq) = .ok r →
      parentLoop mem total (f + n) x pos = .ok r := by
  induction n with
  | zero => intro q t posq e h; simp [wf] at h
  | succ n ih =>
    intro q t posq e hwf ht hpos he
    rw [flatPos, ht] at he
    obtain ⟨k, c, ct, hk, hct, hcase⟩ := flatPosScan_mem mem total _ _ _ _ he
    have hwc : wf mem n c = true :=
      wf_children mem hwf ht c (List.mem_iff_getElem?.2 ⟨k, hk⟩)
    have hback := foldl_sub_foldl_add (totalSizes mem total (t.children.take k)) posq hpos
    have hin := foldl_add_inRange (totalSizes mem total (t.children.take k)) posq hpos
    rcases hcase with ⟨hv, rfl⟩ | ⟨hv, hmem⟩
    · refine ⟨_, _, rfl, hin, ?_⟩
      intro f r hr
      rw [show f + (n + 1) = (f + n) + 1 by omega, parentLoop_step mem total hwf ht hk, hback]
      cases hvt : t.visible with
      | true => simpa [hvt] using hr
      | false =>
        simp only [hvt, Bool.false_eq_true, if_false] at hr ⊢
        exact parentLoop_mono_le mem total (by omega) hr
    · obtain ⟨x, pos, hx, hxin, hclimb⟩ := ih c ct _ e hwc hct hin hmem
      refine ⟨x, pos, hx, hxin, ?_⟩
      intro f r hr
      rw [show f + (n + 1) = (f + 1) + n by omega]
      apply hclimb (f + 1) r
      simp only [hv, Bool.false_eq_true, if_false]
      rw [parentLoop_step mem total hwf ht hk, hback]
      exact hr

theorem flatScan_mem_visible (f : Nat → List Nat) (cs : List Nat) {c : Nat} {ct : TSTree}
    (hc : c ∈ cs) (hct : mem c = some ct) (hv : ct.visible = true) :
    c ∈ flatScan mem f cs := by
  induction cs with
  | nil => simp at hc
  | cons a rest ih =>
    rw [flatScan]
    rcases List.mem_cons.1 hc with rfl | h
    · simp [hct, hv]
    · cases ha : mem a with
      | none => exact ih h
      | some at' => simp [ih h]

theorem flatScan_mem_hidden (f : Nat → List Nat) (cs : List Nat) {c y : Nat} {ct : TSTree}
    (hc : c ∈ cs) (hct : mem c = some ct) (hv : ct.visible = false) (hy : y ∈ f c) :
    y ∈ flatScan mem f cs := by
  induction cs with
  | nil => simp at hc
  | cons a rest ih =>
    rw [flatScan]
    rcases List.mem_cons.1 hc with rfl | h
    · simp [hct, hv, hy]
    · cases ha : mem a with
      | none => exact ih h
      | some at' => simp [ih h]

/-- A visible child is in the flattened enumeration of its parent; what a hidden child lists,
its parent lists too. -/
theorem flat_of_child {N q i x : Nat} {t ct : TSTree} (hwf : wf mem N q = true)
    (ht : mem q = some t) (hi : t.children[i]? = some x) (hct : mem x = some ct) :
    (ct.visible = true → x ∈ flat mem N q) ∧
    (ct.visible = false → ∀ y ∈ flat mem N x, y ∈ flat mem N q) := by
  cases N with
  | zero => simp [wf] at hwf
  | succ m =>
    have hx : x ∈ t.children := List.mem_iff_getElem?.2 ⟨i, hi⟩
    have hwx : wf mem m x = true := wf_children mem hwf ht x hx
    constructor
    · intro hv
      rw [flat, ht]
      exact flatScan_mem_visible mem _ _ hx hct hv
    · intro hv y hy
      rw [flat_succ_of_wf mem m x hwx] at hy
      rw [flat, ht]
      exact flatScan_mem_hidden mem _ _ hx hct hv hy

theorem ancestors_length {r d x : Nat} (N : Nat) (hwf : wf mem N r = true)
    (h : InTree mem r d x) : (ancestors mem d x).length = d := by
  induction h with
  | root => simp [ancestors]
  | @child d q x i t hq ht hi ih =>
    obtain ⟨ct, hct, hctx⟩ := wf_child_context mem (hq.node_wf mem hwf) ht hi
    rw [ancestors, hct]
    simp [hctx, ih]

/-- The nearest visible strict ancestor of a node of a well-formed tree is a visible node of
the tree, and lists the node in its flattened enumeration if the node is visible. -/
theorem nearestVisibleAncestor_spec {r N d x : Nat} (hwf : wf mem N r = true)
    (h : InTree mem r d x) :
    ∀ a, nearestVisibleAncestor mem d x = some a →
      (∃ da, InTree mem r da a) ∧ isVisibleAt mem a = true ∧
      (isVisibleAt mem x = true → x ∈ flat mem N a) ∧
      (isVisibleAt mem x = false → ∀ y ∈ flat mem N x, y ∈ flat mem N a) := by
  induction h with
  | root => intro a ha; simp [nearestVisibleAncestor, ancestors] at ha
  | @child d q x i t hq ht hi ih =>
    intro a ha
    have hwq := hq.node_wf mem hwf
    obtain ⟨ct, hct, hctx⟩ := wf_child_context mem hwq ht hi
    have hanc : ancestors mem (d + 1) x = q :: ancestors mem d q := by
      rw [ancestors, hct]; simp [hctx]
    obtain ⟨hfv, hfh⟩ := flat_of_child mem hwq ht hi hct
    have hvx : isVisibleAt mem x = ct.visible := by simp [isVisibleAt, hct, ts_tree_is_visible]
    have hvq : isVisibleAt mem q = t.visible := by simp [isVisibleAt, ht, ts_tree_is_visible]
    rw [nearestVisibleAncestor, hanc, List.find?_cons] at ha
    cases hv : t.visible with
    | true =>
      rw [hvq, hv] at ha
      simp only [Option.some.injEq] at ha
      subst ha
      refine ⟨⟨d, hq⟩, by rw [hvq, hv], ?_, ?_⟩
      · rw [hvx]; exact hfv
      · rw [hvx]; exact hfh
    | false =>
      rw [hvq, hv] at ha
      obtain ⟨hin, hva, _, hsub⟩ := ih a ha
      refine ⟨hin, hva, ?_, ?_⟩
      · rw [hvx]; intro hv'
        exact hsub (by rw [hvq, hv]) x (hfv hv')
      · rw [hvx]; intro hv' y hy
        exact hsub (by rw [hvq, hv]) y (hfh hv' y hy)

theorem flatPos_inRange (n : Nat) : ∀ (q : Nat) (posq : TSLength) (e : TSNode),
    posq.inRange → e ∈ flatPos mem total n q posq → e.position.inRange := by
  induction n with
  | zero => intro q posq e _ h; simp [flatPos] at h
  | succ n ih =>
    intro q posq e hpos he
    rw [flatPos] at he
    cases ht : mem q with
    | none => simp [ht] at he
    | some t =>
      rw [ht] at he
      obtain ⟨k, c, ct, _, _, hcase⟩ := flatPosScan_mem mem total _ _ _ _ he
      have hin := foldl_add_inRange (totalSizes mem total (t.children.take k)) posq hpos
      rcases hcase with ⟨_, rfl⟩ | ⟨_, hmem⟩
      · exact hin
      · exact ih c _ e hin hmem

end

theorem ts_node_eq_self (a : TSNode) : ts_node_eq a a = true := by
  simp [ts_node_eq, ts_tree_eq, ts_length_eq]

section
variable (mem : Memory) (total : TSTree → TSLength)

/-- What is known of the handle `ts_node_parent` returns for a visible node `x` of a
well-formed tree: its node `a` is a visible node of the tree that lists `x` in its flattened
enumeration, and descending from the handle to `x` ends at the position the walk began at. -/
theorem parent_handle_facts {r N : Nat} {rt : TSTree} {d x : Nat} {pos : TSLength}
    {fuel a : Nat} {posa : TSLength}
    (hwf : wf mem N r = true) (hr : mem r = some rt) (hroot : rt.context.parent = none)
    (hx : InTree mem r d x) (hvis : isVisibleAt mem x = true) (hpos : pos.inRange)
    (hfuel : N ≤ fuel)
    (hpar : ts_node_parent mem total fuel ⟨some x, pos⟩ = .ok ⟨some a, posa⟩) :
    wf mem N a = true ∧ isVisibleAt mem a = true ∧ posa.inRange ∧ x ∈ flat mem N a ∧
    ∀ q, (⟨some x, q⟩ : TSNode) ∈ flatPos mem total N a posa → q = pos := by
  have hd := hx.depth_lt mem hwf
  have hexp := parentLoop_expected mem total hwf hr hroot hx
  have hmain : ts_node_parent mem total fuel ⟨some x, pos⟩ =
      .ok (expectedParent mem total d x pos) := by
    rw [ts_node_parent]; exact hexp pos fuel (by omega)
  rw [hmain] at hpar
  simp only [Outcome.ok.injEq] at hpar
  cases hnva : nearestVisibleAncestor mem d x with
  | none => simp [expectedParent, hnva, ts_node_null] at hpar
  | some a' =>
    have hpar' := hpar
    simp only [expectedParent, hnva, ts_node_make, TSNode.mk.injEq, Option.some.injEq] at hpar'
    obtain ⟨rfl, hposa⟩ := hpar'
    obtain ⟨⟨da, hina⟩, hva, hmemx, _⟩ := nearestVisibleAncestor_spec mem hwf hx a' hnva
    have hwa : wf mem N a' = true := hina.node_wf mem hwf
    obtain ⟨ta, hta, _⟩ := wf_node mem hwa
    have hposa_in : posa.inRange := by
      rw [← hposa]; exact foldl_sub_inRange _ _ hpos
    refine ⟨hwa, hva, hposa_in, hmemx hvis, ?_⟩
    intro q hqmem
    have hqin : q.inRange := flatPos_inRange mem total N a' posa _ hposa_in hqmem
    obtain ⟨x', q', hxq, _, hclimb⟩ :=
      parentLoop_of_flatPos mem total N a' ta posa _ hwa hta hposa_in hqmem
    simp only [TSNode.mk.injEq, Option.some.injEq] at hxq
    obtain ⟨rfl, rfl⟩ := hxq
    have hv : ta.visible = true := by simpa [isVisibleAt, hta, ts_tree_is_visible] using hva
    have h1 := hclimb 0 ⟨some a', posa⟩ (by simp [hv])
    rw [hexp q (0 + N) (by omega)] at h1
    simp only [Outcome.ok.injEq] at h1
    rw [← hpar] at h1
    simp only [expectedParent, hnva, ts_node_make, TSNode.mk.injEq, true_and] at h1
    exact foldl_sub_injective _ q pos hqin hpos h1

end

/-! ## The loop of `ts_node_prev_sibling` -/

section
variable (mem : Memory) (total : TSTree → TSLength)

theorem take_succ_of_getElem? {α : Type} (cs : List α) (k : Nat) (c : α)
    (hc : cs[k]? = some c) : cs.take (k + 1) = cs.take k ++ [c] := by
  rw [List.take_succ, hc]; rfl

theorem totalSizes_append (l1 l2 : List Nat) :
    totalSizes mem total (l1 ++ l2) = totalSizes mem total l1 ++ totalSizes mem total l2 := by
  simp [totalSizes]

theorem totalSizes_take_succ (cs : List Nat) (k c : Nat) (ct : TSTree)
    (hc : cs[k]? = some c) (hct : mem c = some ct) :
    totalSizes mem total (cs.take (k + 1)) = totalSizes mem total (cs.take k) ++ [total ct] := by
  rw [take_succ_of_getElem? cs k c hc, totalSizes_append]
  simp [totalSizes, hct]

theorem flatPosScan_take_succ (f : Nat → TSLength → List TSNode) (cs : List Nat) (k c : Nat)
    (ct : TSTree) (hc : cs[k]? = some c) (hct : mem c = some ct) (posq : TSLength) :
    flatPosScan mem total f (cs.take (k + 1)) posq
      = flatPosScan mem total f (cs.take k) posq ++
        (if ct.visible then
          [ts_node_make (some c) ((totalSizes mem total (cs.take k)).foldl ts_length_add posq)]
         else f c ((totalSizes mem total (cs.take k)).foldl ts_length_add posq)) := by
  rw [take_succ_of_getElem? cs k c hc, flatPosScan_append]
  simp [flatPosScan, hct]

theorem prevScan_eq (m cfuel : Nat) (cs : List Nat) (posq : TSLength)
    (hwf : ∀ c ∈ cs, wf mem m c = true) (hm : m ≤ cfuel) (hpos : posq.inRange) :
    ∀ k, k ≤ cs.length →
      prevScan mem total cfuel cs k ((totalSizes mem total (cs.take k)).foldl ts_length_add posq)
        = .ok (match (flatPosScan mem total (flatPos mem total m) (cs.take k) posq).getLast? with
            | some e => .returned (.ok e)
            | none => .finished posq) := by
  intro k
  induction k with
  | zero => intro _; simp [prevScan, flatPosScan, totalSizes]
  | succ k ih =>
    intro hk
    have hc : cs[k]? = some cs[k] := List.getElem?_eq_getElem (by omega)
    have hwc := hwf cs[k] (List.getElem_mem _)
    obtain ⟨ct, hct, hvcc, hlt, _⟩ := wf_node mem hwc
    have hin := foldl_add_inRange (totalSizes mem total (cs.take k)) posq hpos
    rw [prevScan]
    simp only [hc, hct]
    rw [totalSizes_take_succ mem total cs k _ ct hc hct, List.foldl_append]
    simp only [List.foldl_cons, List.foldl_nil]
    rw [ts_length_sub_add_cancel _ _ hin, flatPosScan_take_succ mem total _ cs k _ ct hc hct]
    cases hv : ct.visible with
    | true => simp [ts_tree_is_visible, hv]
    | false =>
      simp only [ts_tree_is_visible, hv, Bool.false_eq_true, if_false]
      have hbl : (flatPos mem total m cs[k]
          ((totalSizes mem total (cs.take k)).foldl ts_length_add posq)).length
            = ct.visible_child_count := by rw [flatPos_length, hvcc]
      by_cases hz : ct.visible_child_count > 0
      · simp only [hz, if_true]
        rw [ts_node_child, ts_node_make, childLoop_eq mem total m _ _ _ cfuel hwc hm (by omega)]
        have hne : flatPos mem total m cs[k]
            ((totalSizes mem total (cs.take k)).foldl ts_length_add posq) ≠ [] := by
          intro h; rw [h] at hbl; simp at hbl; omega
        rw [List.getLast?_append_of_ne_nil _ hne, List.getLast?_eq_getElem?, hbl]
        have hlast : ct.visible_child_count - 1 < (flatPos mem total m cs[k]
            ((totalSizes mem total (cs.take k)).foldl ts_length_add posq)).length := by omega
        rw [List.getElem?_eq_getElem hlast]
        simp
      · simp only [hz, if_false]
        have hnil : flatPos mem total m cs[k]
            ((totalSizes mem total (cs.take k)).foldl ts_length_add posq) = [] := by
          apply List.eq_nil_of_length_eq_zero; omega
        rw [hnil, List.append_nil]
        exact ih (by omega)

theorem prevLoop_mono (cfuel f : Nat) : ∀ (x : Nat) (pos : TSLength) (r : TSNode),
    prevLoop mem total cfuel f x pos = .ok r →
    prevLoop mem total cfuel (f + 1) x pos = .ok r := by
  induction f with
  | zero => intro x pos r h; simp [prevLoop] at h
  | succ f ih =>
    intro x pos r h
    rw [prevLoop] at h ⊢
    cases hx : mem x with
    | none => simp [hx] at h
    | some t =>
      simp only [hx] at h ⊢
      cases hp : t.context.parent with
      | none => simpa [hp] using h
      | some q =>
        simp only [hp] at h ⊢
        cases hq : mem q with
        | none => simp [hq] at h
        | some par =>
          simp only [hq] at h ⊢
          cases hs : prevScan mem total cfuel par.children
              ((sizePred t.context.index + 1) % SIZE_MOD) pos with
          | fault => simp [hs] at h
          | timeout => simp [hs] at h
          | ok res =>
            simp only [hs] at h ⊢
            cases res with
            | returned r' => exact h
            | finished pos' =>
              simp only at h ⊢
              by_cases hv : ts_tree_is_visible par = true
              · simpa [hv] using h
              · simp only [hv, if_false] at h ⊢
                exact ih _ _ _ h

theorem prevLoop_mono_le (cfuel : Nat) {f f' : Nat} (hle : f ≤ f') {x : Nat} {pos : TSLength}
    {r : TSNode} (h : prevLoop mem total cfuel f x pos = .ok r) :
    prevLoop mem total cfuel f' x pos = .ok r := by
  induction hle with
  | refl => exact h
  | step _ ih => exact prevLoop_mono mem total cfuel _ _ _ _ ih

theorem prevAfter_mono_le (cfuel : Nat) (t : TSTree) (q : Nat) (posq : TSLength)
    (A : List TSNode) {f f' : Nat} (hle : f ≤ f') {r : TSNode}
    (h : prevAfter mem total cfuel t q posq A f = .ok r) :
    prevAfter mem total cfuel t q posq A f' = .ok r := by
  unfold prevAfter at h ⊢
  cases hA : A.getLast? with
  | some e => simpa [hA] using h
  | none =>
    simp only [hA] at h ⊢
    cases hv : t.visible with
    | true => simpa [hv] using h
    | false =>
      simp only [hv, Bool.false_eq_true, if_false] at h ⊢
      exact prevLoop_mono_le mem total cfuel hle h

theorem prevAfter_append (cfuel : Nat) (t : TSTree) (q : Nat) (posq : TSLength)
    (A B : List TSNode) (f : Nat) :
    prevAfter mem total cfuel t q posq (A ++ B) f =
      match B.getLast? with
      | some e => .ok e
      | none => prevAfter mem total cfuel t q posq A f := by
  cases hB : B.getLast? with
  | none =>
    rw [List.getLast?_eq_none_iff] at hB
    subst hB
    simp
  | some e =>
    have hne : B ≠ [] := by intro h; subst h; simp at hB
    simp only [prevAfter, List.getLast?_append_of_ne_nil _ hne, hB]

/-- One round of the loop of `ts_node_prev_sibling`, started at the `k`-th child of `q`. -/
theorem prevLoop_step {n q k c : Nat} {t : TSTree} (cfuel : Nat)
    (hwf : wf mem (n + 1) q = true) (ht : mem q = some t) (hk : t.children[k]? = some c)
    (hm : n ≤ cfuel) (posq : TSLength) (hpos : posq.inRange) (f : Nat) :
    prevLoop mem total cfuel (f + 1) c
        ((totalSizes mem total (t.children.take k)).foldl ts_length_add posq)
      = prevAfter mem total cfuel t q posq
          (flatPosScan mem total (flatPos mem total n) (t.children.take k) posq) f := by
  obtain ⟨ct, hct, hctx⟩ := wf_child_context mem hwf ht hk
  obtain ⟨t', ht', _, _, hlen⟩ := wf_node mem hwf
  rw [ht] at ht'; cases ht'
  have hklt : k < t.children.length := (List.getElem?_eq_some_iff.1 hk).1
  have hidx : (sizePred k + 1) % SIZE_MOD = k := by
    simp only [sizePred, SIZE_MOD] at hlen ⊢
    split <;> omega
  rw [prevLoop, hct]
  simp only [hctx, ht, hidx]
  rw [prevScan_eq mem total n cfuel t.children posq (wf_children mem hwf ht) hm hpos k
    (by omega)]
  unfold prevAfter
  cases (flatPosScan mem total (flatPos mem total n) (t.children.take k) posq).getLast? with
  | some e => rfl
  | none => simp [ts_tree_is_visible]

theorem prevLoop_scan (m cfuel q : Nat) (t : TSTree) (posq : TSLength)
    (hwf : wf mem (m + 1) q = true) (ht : mem q = some t) (hm : m ≤ cfuel)
    (hpos : posq.inRange)
    (ihn : ∀ (c : Nat) (ct : TSTree) (pc : TSLength), wf mem m c = true → mem c = some ct →
      pc.inRange → ∀ (i : Nat) (e : TSNode), (flatPos mem total m c pc)[i]? = some e →
      ∃ x pos, e = ⟨some x, pos⟩ ∧ ∀ f r,
        prevAfter mem total cfuel ct c pc ((flatPos mem total m c pc).take i) f = .ok r →
        prevLoop mem total cfuel (f + m) x pos = .ok r)
    (suf : List Nat) :
    ∀ pre, t.children = pre ++ suf → ∀ (i : Nat) (e : TSNode),
      (flatPosScan mem total (flatPos mem total m) suf
        ((totalSizes mem total pre).foldl ts_length_add posq))[i]? = some e →
      ∃ x pos, e = ⟨some x, pos⟩ ∧ ∀ f r,
        prevAfter mem total cfuel t q posq
          (flatPosScan mem total (flatPos mem total m) pre posq ++
            (flatPosScan mem total (flatPos mem total m) suf
              ((totalSizes mem total pre).foldl ts_length_add posq)).take i) f = .ok r →
        prevLoop mem total cfuel (f + (m + 1)) x pos = .ok r := by
  induction suf with
  | nil => intro pre _ i e he; simp [flatPosScan] at he
  | cons c rest ih =>
    intro pre hsplit i e he
    have hk : t.children[pre.length]? = some c := by
      rw [hsplit, List.getElem?_append_right (le_refl _)]; simp
    have htake : t.children.take pre.length = pre := by rw [hsplit]; simp
    have hwc : wf mem m c = true :=
      wf_children mem hwf ht c (List.mem_iff_getElem?.2 ⟨_, hk⟩)
    obtain ⟨ct, hct, hvcc, hlt, _⟩ := wf_node mem hwc
    have hin := foldl_add_inRange (totalSizes mem total pre) posq hpos
    have hstep := fun f => prevLoop_step mem total cfuel hwf ht hk hm posq hpos f
    simp only [htake] at hstep
    rw [flatPosScan, hct] at he ⊢
    simp only at he ⊢
    -- the enumeration in front of the children after `c`
    have hpre' : flatPosScan mem total (flatPos mem total m) (pre ++ [c]) posq
        = flatPosScan mem total (flatPos mem total m) pre posq ++
          (if ct.visible then
            [ts_node_make (some c) ((totalSizes mem total pre).foldl ts_length_add posq)]
           else flatPos mem total m c ((totalSizes mem total pre).foldl ts_length_add posq)) := by
      rw [flatPosScan_append]; simp [flatPosScan, hct]
    have hsz' : (totalSizes mem total (pre ++ [c])).foldl ts_length_add posq
        = ts_length_add ((totalSizes mem total pre).foldl ts_length_add posq) (total ct) := by
      rw [totalSizes_append, List.foldl_append]; simp [totalSizes, hct]
    have ihl := ih (pre ++ [c]) (by rw [hsplit]; simp)
    rw [hpre', hsz'] at ihl
    generalize hB : (if ct.visible then
        [ts_node_make (some c) ((totalSizes mem total pre).foldl ts_length_add posq)]
      else flatPos mem total m c ((totalSizes mem total pre).foldl ts_length_add posq))
      = block at he ihl ⊢
    by_cases hi : i < block.length
    · rw [List.getElem?_append_left hi] at he
      rw [List.take_append_of_le_length (by omega)]
      cases hv : ct.visible with
      | true =>
        simp only [hv, if_true] at hB
        subst hB
        have hi0 : i = 0 := by simpa using hi
        subst hi0
        simp only [List.getElem?_cons_zero, Option.some.injEq] at he
        subst he
        refine ⟨c, _, rfl, ?_⟩
        intro f r hr
        simp only [List.take_zero, List.append_nil] at hr
        rw [show f + (m + 1) = (f + m) + 1 by omega, hstep]
        exact prevAfter_mono_le mem total cfuel t q posq _ (by omega) hr
      | false =>
        simp only [hv, Bool.false_eq_true, if_false] at hB
        subst hB
        obtain ⟨x, pos, hx, hclimb⟩ := ihn c ct _ hwc hct hin i e he
        refine ⟨x, pos, hx, ?_⟩
        intro f r hr
        rw [show f + (m + 1) = (f + 1) + m by omega]
        apply hclimb (f + 1) r
        rw [prevAfter_append] at hr
        rw [← hr]
        unfold prevAfter
        cases hl : (List.take i (flatPos mem total m c
            ((totalSizes mem total pre).foldl ts_length_add posq))).getLast? with
        | some e' => rfl
        | none =>
          simp only [hv, Bool.false_eq_true, if_false]
          rw [hstep]
          rfl
    · have hi' : block.length ≤ i := by omega
      rw [List.getElem?_append_right hi'] at he
      obtain ⟨x, pos, hx, hclimb⟩ := ihl (i - block.length) e he
      refine ⟨x, pos, hx, ?_⟩
      intro f r hr
      apply hclimb f r
      rw [List.take_append_eq_append_take, List.take_of_length_le hi', ← List.append_assoc]
        at hr
      exact hr

/-- From the `i`-th node of the flattened enumeration of `q` the loop of
`ts_node_prev_sibling` gives the node in front of it, and for `i = 0` what it gives from `q`. -/
theorem prevLoop_of_flatPos (cfuel n : Nat) : ∀ (q : Nat) (t : TSTree) (posq : TSLength),
    wf mem n q = true → mem q = some t → posq.inRange → n ≤ cfuel →
    ∀ (i : Nat) (e : TSNode), (flatPos mem total n q posq)[i]? = some e →
    ∃ x pos, e = ⟨some x, pos⟩ ∧ ∀ f r,
      prevAfter mem total cfuel t q posq ((flatPos mem total n q posq).take i) f = .ok r →
      prevLoop mem total cfuel (f + n) x pos = .ok r := by
  induction n with
  | zero => intro q t posq h; simp [wf] at h
  | succ n ih =>
    intro q t posq hwf ht hpos hn i e he
    rw [flatPos, ht] at he ⊢
    have h := prevLoop_scan mem total n cfuel q t posq hwf ht (by omega) hpos
      (fun c ct pc hwc hct hpc => ih c ct pc hwc hct hpc (by omega)) t.children [] rfl i e
    simp only [totalSizes, List.filterMap_nil, List.foldl_nil, flatPosScan,
      List.nil_append] at h
    exact h he

end

/-! ## The loop of `ts_node_next_sibling` -/

section
variable (mem : Memory) (total : TSTree → TSLength)

theorem flatScan_visible (f : Nat → List Nat)
    (hf : ∀ c y, y ∈ f c → isVisibleAt mem y = true) (cs : List Nat) :
    ∀ y, y ∈ flatScan mem f cs → isVisibleAt mem y = true := by
  induction cs with
  | nil => intro y h; simp [flatScan] at h
  | cons c rest ih =>
    intro y h
    rw [flatScan] at h
    cases hc : mem c with
    | none => rw [hc] at h; exact ih y h
    | some ct =>
      rw [hc] at h
      simp only [List.mem_append] at h
      rcases h with h | h
      · cases hv : ct.visible with
        | true =>
          simp only [hv, if_true, List.mem_singleton] at h
          subst h
          simp [isVisibleAt, hc, ts_tree_is_visible, hv]
        | false =>
          simp only [hv, Bool.false_eq_true, if_false] at h
          exact hf c y h
      · exact ih y h

/-- The flattened enumeration lists visible nodes only. -/
theorem flat_visible (n : Nat) : ∀ p y, y ∈ flat mem n p → isVisibleAt mem y = true := by
  induction n with
  | zero => intro p y h; simp [flat] at h
  | succ n ih =>
    intro p y h
    rw [flat] at h
    cases hp : mem p with
    | none => simp [hp] at h
    | some t =>
      rw [hp] at h
      exact flatScan_visible mem _ ih _ y h

theorem flatScan_cons_of_mem (f : Nat → List Nat) (c : Nat) (rest : List Nat) (ct : TSTree)
    (hct : mem c = some ct) :
    flatScan mem f (c :: rest)
      = (if ct.visible then [c] else f c) ++ flatScan mem f rest := by
  rw [flatScan, hct]

/-- The scan of `ts_node_next_sibling` over the children from index `i` on: it runs to the end
when they list no visible node, and returns a handle to the first node they list otherwise. -/
theorem nextScan_cases (m cfuel : Nat) (cs : List Nat)
    (hwf : ∀ c ∈ cs, wf mem m c = true) (hm : m ≤ cfuel) (hlen : cs.length < SIZE_MOD) :
    ∀ (steps i : Nat) (pos : TSLength), 1 ≤ i → i + steps = cs.length →
      (∃ pos', nextScan mem total cfuel cs steps i pos = .ok (.finished pos') ∧
        flatScan mem (flat mem m) (cs.drop i) = []) ∨
      (∃ e x, nextScan mem total cfuel cs steps i pos = .ok (.returned (.ok e)) ∧
        e.data = some x ∧ (flatScan mem (flat mem m) (cs.drop i)).head? = some x) := by
  intro steps
  induction steps with
  | zero =>
    intro i pos _ hi
    left
    refine ⟨pos, by simp [nextScan], ?_⟩
    rw [List.drop_of_length_le (by omega)]
    simp [flatScan]
  | succ steps ih =>
    intro i pos hi1 hi
    have hilt : i < cs.length := by omega
    have hc : cs[i]? = some cs[i] := List.getElem?_eq_getElem hilt
    have hpred : sizePred i = i - 1 := by
      simp only [sizePred]
      split <;> omega
    have hb : cs[i - 1]? = some cs[i - 1] := List.getElem?_eq_getElem (by omega)
    obtain ⟨bt, hbt, _⟩ := wf_node mem (hwf cs[i - 1] (List.getElem_mem _))
    have hwc := hwf cs[i] (List.getElem_mem _)
    obtain ⟨ct, hct, hvcc, hlt, _⟩ := wf_node mem hwc
    have hdrop : cs.drop i = cs[i] :: cs.drop (i + 1) := List.drop_eq_getElem_cons hilt
    rw [nextScan]
    simp only [hc, hpred, hb, hbt, hct]
    rw [hdrop, flatScan_cons_of_mem mem _ _ _ ct hct]
    cases hv : ct.visible with
    | true =>
      right
      exact ⟨ts_node_make (some cs[i]) (ts_length_add pos (total bt)), cs[i],
        by simp [ts_tree_is_visible, hv], rfl, by simp⟩
    | false =>
      simp only [ts_tree_is_visible, hv, Bool.false_eq_true, if_false]
      by_cases hz : ct.visible_child_count > 0
      · right
        simp only [hz, if_true]
        have hlen0 : 0 < (flat mem m cs[i]).length := by omega
        have h0 : (flat mem m cs[i])[0]? = some ((flat mem m cs[i])[0]) :=
          List.getElem?_eq_getElem hlen0
        obtain ⟨q, hq⟩ := flatPos_getElem?_data mem total
          (ts_length_add pos (total bt)) h0
        refine ⟨⟨some ((flat mem m cs[i])[0]), q⟩, (flat mem m cs[i])[0], ?_, rfl, ?_⟩
        · rw [ts_node_child, ts_node_make,
            childLoop_eq mem total m _ _ _ cfuel hwc hm (by simp [SIZE_MOD]), hq]
          rfl
        · rw [List.head?_append_of_ne_nil _ (by intro h; rw [h] at hlen0; simp at hlen0)]
          rw [List.head?_eq_getElem?, h0]
      · simp only [hz, if_false]
        have hnil : flat mem m cs[i] = [] := by
          apply List.eq_nil_of_length_eq_zero; omega
        rw [hnil, List.nil_append]
        have hsucc : (i + 1) % SIZE_MOD = i + 1 := Nat.mod_eq_of_lt (by omega)
        rw [hsucc]
        exact ih (i + 1) _ (by omega) (by omega)

theorem nextLoop_mono (cfuel f : Nat) : ∀ (x : Nat) (pos : TSLength) (r : TSNode),
    nextLoop mem total cfuel f x pos = .ok r →
    nextLoop mem total cfuel (f + 1) x pos = .ok r := by
  induction f with
  | zero => intro x pos r h; simp [nextLoop] at h
  | succ f ih =>
    intro x pos r h
    rw [nextLoop] at h ⊢
    cases hx : mem x with
    | none => simp [hx] at h
    | some t =>
      simp only [hx] at h ⊢
      cases hp : t.context.parent with
      | none => simpa [hp] using h
      | some q =>
        simp only [hp] at h ⊢
        cases hq : mem q with
        | none => simp [hq] at h
        | some par =>
          simp only [hq] at h ⊢
          cases hs : nextScan mem total cfuel par.children
              (par.child_count - (t.context.index + 1) % SIZE_MOD)
              ((t.context.index + 1) % SIZE_MOD) pos with
          | fault => simp [hs] at h
          | timeout => simp [hs] at h
          | ok res =>
            simp only [hs] at h ⊢
            cases res with
            | returned r' => exact h
            | finished pos' =>
              simp only at h ⊢
              by_cases hv : ts_tree_is_visible par = true
              · simpa [hv] using h
              · simp only [hv, if_false] at h ⊢
                exact ih _ _ _ h

theorem nextLoop_mono_le (cfuel : Nat) {f f' : Nat} (hle : f ≤ f') {x : Nat} {pos : TSLength}
    {r : TSNode} (h : nextLoop mem total cfuel f x pos = .ok r) :
    nextLoop mem total cfuel f' x pos = .ok r := by
  induction hle with
  | refl => exact h
  | step _ ih => exact nextLoop_mono mem total cfuel _ _ _ _ ih

/-- One round of the loop of `ts_node_next_sibling`, started at the `k`-th child of `q` at any
position: it returns a handle to the first node the later children list, and goes on from `q`
when they list none. -/
theorem nextLoop_step_cases {m q k c : Nat} {t : TSTree} (cfuel : Nat)
    (hwf : wf mem (m + 1) q = true) (ht : mem q = some t) (hk : t.children[k]? = some c)
    (hm : m ≤ cfuel) (P : TSNode → Prop) (f : Nat)
    (hcont : if t.visible then P ts_node_null
      else ∀ pos', ∃ e, nextLoop mem total cfuel f q pos' = .ok e ∧ P e)
    (g : Nat) (hg : f ≤ g) (pos : TSLength) :
    ∃ e, nextLoop mem total cfuel (g + 1) c pos = .ok e ∧
      (match (flatScan mem (flat mem m) (t.children.drop (k + 1))).head? with
       | some y => e.data = some y
       | none => P e) := by
  obtain ⟨ct, hct, hctx⟩ := wf_child_context mem hwf ht hk
  obtain ⟨t', ht', _, _, hlen⟩ := wf_node mem hwf
  rw [ht] at ht'; cases ht'
  have hklt : k < t.children.length := (List.getElem?_eq_some_iff.1 hk).1
  have hidx : (k + 1) % SIZE_MOD = k + 1 := Nat.mod_eq_of_lt (by omega)
  rw [nextLoop, hct]
  simp only [hctx, ht, hidx, TSTree.child_count]
  rcases nextScan_cases mem total m cfuel t.children (wf_children mem hwf ht) hm hlen
    (t.children.length - (k + 1)) (k + 1) pos (by omega) (by omega) with
    ⟨pos', hscan, hnil⟩ | ⟨e, x, hscan, hex, hhead⟩
  · rw [hscan, hnil]
    simp only [List.head?_nil]
    cases hv : t.visible with
    | true =>
      simp only [hv, if_true] at hcont
      exact ⟨ts_node_null, by simp [ts_tree_is_visible, hv], hcont⟩
    | false =>
      simp only [hv, Bool.false_eq_true, if_false] at hcont
      obtain ⟨e, he, hP⟩ := hcont pos'
      refine ⟨e, ?_, hP⟩
      simp only [ts_tree_is_visible, hv, Bool.false_eq_true, if_false]
      exact nextLoop_mono_le mem total cfuel hg he
  · rw [hscan, hhead]
    exact ⟨e, rfl, hex⟩

theorem nextLoop_scan (m cfuel q : Nat) (t : TSTree)
    (hwf : wf mem (m + 1) q = true) (ht : mem q = some t) (hm : m ≤ cfuel)
    (ihn : ∀ (c : Nat) (ct : TSTree), wf mem m c = true → mem c = some ct →
      ∀ (i x : Nat), (flat mem m c)[i]? = some x → ∀ (P : TSNode → Prop) (f : Nat),
      (if ct.visible then P ts_node_null
        else ∀ pos', ∃ e, nextLoop mem total cfuel f c pos' = .ok e ∧ P e) →
      ∀ pos, ∃ e, nextLoop mem total cfuel (f + m) x pos = .ok e ∧
        (match ((flat mem m c).drop (i + 1)).head? with
         | some y => e.data = some y
         | none => P e))
    (suf : List Nat) :
    ∀ pre, t.children = pre ++ suf → ∀ (i x : Nat),
      (flatScan mem (flat mem m) suf)[i]? = some x → ∀ (P : TSNode → Prop) (f : Nat),
      (if t.visible then P ts_node_null
        else ∀ pos', ∃ e, nextLoop mem total cfuel f q pos' = .ok e ∧ P e) →
      ∀ pos, ∃ e, nextLoop mem total cfuel (f + (m + 1)) x pos = .ok e ∧
        (match ((flatScan mem (flat mem m) suf).drop (i + 1)).head? with
         | some y => e.data = some y
         | none => P e) := by
  induction suf with
  | nil => intro pre _ i x hx; simp [flatScan] at hx
  | cons c rest ih =>
    intro pre hsplit i x hx P f hcont pos
    have hk : t.children[pre.length]? = some c := by
      rw [hsplit, List.getElem?_append_right (le_refl _)]; simp
    have hdrop : t.children.drop (pre.length + 1) = rest := by
      rw [hsplit, List.drop_append_eq_append_drop]
      simp
    have hwc : wf mem m c = true :=
      wf_children mem hwf ht c (List.mem_iff_getElem?.2 ⟨_, hk⟩)
    obtain ⟨ct, hct, hvcc, hlt, _⟩ := wf_node mem hwc
    have hstep := fun g hg pos' =>
      nextLoop_step_cases mem total cfuel hwf ht hk hm P f hcont g hg pos'
    simp only [hdrop] at hstep
    rw [flatScan_cons_of_mem mem _ _ _ ct hct] at hx ⊢
    generalize hB : (if ct.visible then [c] else flat mem m c) = block at hx ⊢
    by_cases hi : i < block.length
    · rw [List.getElem?_append_left hi] at hx
      rw [List.drop_append_of_le_length (by omega), List.head?_append]
      cases hv : ct.visible with
      | true =>
        simp only [hv, if_true] at hB
        subst hB
        have hi0 : i = 0 := by simpa using hi
        subst hi0
        simp only [List.getElem?_cons_zero, Option.some.injEq] at hx
        subst hx
        simpa using hstep (f + m) (by omega) pos
      | false =>
        simp only [hv, Bool.false_eq_true, if_false] at hB
        subst hB
        have h := ihn c ct hwc hct i x hx
          (fun e => match (flatScan mem (flat mem m) rest).head? with
            | some y => e.data = some y
            | none => P e) (f + 1)
          (by
            simp only [hv, Bool.false_eq_true, if_false]
            intro pos'
            exact hstep f (le_refl _) pos') pos
        obtain ⟨e, he, hmatch⟩ := h
        refine ⟨e, by rw [show f + (m + 1) = f + 1 + m by omega]; exact he, ?_⟩
        cases hd : (List.drop (i + 1) (flat mem m c)).head? with
        | some y => simpa [hd] using hmatch
        | none => simpa [hd] using hmatch
    · have hi' : block.length ≤ i := by omega
      rw [List.getElem?_append_right hi'] at hx
      have h := ih (pre ++ [c]) (by rw [hsplit]; simp) (i - block.length) x hx P f hcont pos
      rw [List.drop_append_eq_append_drop, List.drop_of_length_le (by omega), List.nil_append,
        show i + 1 - block.length = i - block.length + 1 by omega]
      exact h

/-- From the `i`-th node of the flattened enumeration of `q`, at any position, the loop of
`ts_node_next_sibling` gives a handle to the node listed next, and after the last one what it
gives from `q`. -/
theorem nextLoop_of_flat (cfuel n : Nat) : ∀ (q : Nat) (t : TSTree),
    wf mem n q = true → mem q = some t → n ≤ cfuel →
    ∀ (i x : Nat), (flat mem n q)[i]? = some x → ∀ (P : TSNode → Prop) (f : Nat),
    (if t.visible then P ts_node_null
      else ∀ pos', ∃ e, nextLoop mem total cfuel f q pos' = .ok e ∧ P e) →
    ∀ pos, ∃ e, nextLoop mem total cfuel (f + n) x pos = .ok e ∧
      (match ((flat mem n q).drop (i + 1)).head? with
       | some y => e.data = some y
       | none => P e) := by
  induction n with
  | zero => intro q t h; simp [wf] at h
  | succ n ih =>
    intro q t hwf ht hn i x hx
    rw [flat, ht] at hx ⊢
    exact nextLoop_scan mem total n cfuel q t hwf ht (by omega)
      (fun c ct hwc hct => ih c ct hwc hct (by omega)) t.children [] rfl i x hx

end

/-! ## Siblings of a child -/

section
variable (mem : Memory) (total : TSTree → TSLength)

theorem getLast?_take_succ {α : Type} (l : List α) (i : Nat) (hi : i < l.length) :
    (l.take (i + 1)).getLast? = l[i]? := by
  rw [List.getLast?_eq_getElem?, List.length_take, List.getElem?_take]
  have h1 : (i + 1) ⊓ l.length - 1 = i := by
    rw [Nat.min_eq_left (by omega)]; omega
  rw [h1, if_pos (by omega)]

/-- What the three navigation functions give around the child at index `i` of a visible node
of a well-formed tree. -/
theorem siblings_of_child (n p : Nat) (t : TSTree) (pos : TSLength) (i fuel : Nat)
    (hwf : wf mem n p = true) (ht : mem p = some t) (hv : t.visible = true)
    (hpos : pos.inRange) (hfuel : n ≤ fuel) (hi : i < t.visible_child_count) :
    ∃ c, (flatPos mem total n p pos)[i]? = some c ∧
      ts_node_child mem total fuel ⟨some p, pos⟩ i = .ok c ∧
      ts_node_prev_sibling mem total fuel c =
        .ok (match i with
          | 0 => ts_node_null
          | j + 1 => (flatPos mem total n p pos)[j]?.getD ts_node_null) ∧
      ∃ rn, ts_node_next_sibling mem total fuel c = .ok rn ∧
        (match (flat mem n p)[i + 1]? with
         | some y => rn.data = some y
         | none => rn = ts_node_null) := by
  obtain ⟨t', ht', hvcc, hlt, _⟩ := wf_node mem hwf
  rw [ht] at ht'; cases ht'
  have hlen : i < (flatPos mem total n p pos).length := by rw [flatPos_length]; omega
  have he : (flatPos mem total n p pos)[i]? = some ((flatPos mem total n p pos)[i]) :=
    List.getElem?_eq_getElem hlen
  refine ⟨_, he, ?_, ?_, ?_⟩
  · rw [ts_node_child, childLoop_eq mem total n p pos i fuel hwf hfuel (by omega), he]
    rfl
  · obtain ⟨x, px, hx, hclimb⟩ :=
      prevLoop_of_flatPos mem total fuel n p t pos hwf ht hpos hfuel i _ he
    rw [hx, ts_node_prev_sibling]
    simp only [get_tree]
    apply prevLoop_mono_le mem total fuel (show 0 + n ≤ fuel by omega)
    apply hclimb 0
    cases i with
    | zero => simp [prevAfter, hv]
    | succ j =>
      have hj : j < (flatPos mem total n p pos).length := by omega
      simp only [prevAfter, getLast?_take_succ _ j hj, List.getElem?_eq_getElem hj]
      rfl
  · have hlen' : i < (flat mem n p).length := by omega
    have hx : (flat mem n p)[i]? = some ((flat mem n p)[i]) := List.getElem?_eq_getElem hlen'
    obtain ⟨q, hq⟩ := flatPos_getElem?_data mem total pos hx
    rw [he] at hq
    simp only [Option.some.injEq] at hq
    obtain ⟨e, hnext, hmatch⟩ :=
      nextLoop_of_flat mem total fuel n p t hwf ht hfuel i _ hx (fun e => e = ts_node_null) 0
        (by simp [hv]) q
    refine ⟨e, ?_, ?_⟩
    · rw [hq, ts_node_next_sibling]
      simp only [get_tree]
      exact nextLoop_mono_le mem total fuel (show 0 + n ≤ fuel by omega) hnext
    · rw [List.head?_drop] at hmatch
      exact hmatch

end

/-! ## Only visible nodes are returned -/

section
variable (mem : Memory) (total : TSTree → TSLength)

theorem childScan_returned_visible (cs : List Nat) :
    ∀ (idx ci : Nat) (pos : TSLength) (did : Bool) (node n : TSNode),
      childScan mem total cs idx ci pos did node = .ok (.returned n) →
      ∃ y, n.data = some y ∧ isVisibleAt mem y = true := by
  induction cs with
  | nil => intro idx ci pos did node n h; simp [childScan] at h
  | cons c rest ih =>
    intro idx ci pos did node n h
    rw [childScan] at h
    cases hc : mem c with
    | none => simp [hc] at h
    | some ct =>
      simp only [hc] at h
      cases hv : ts_tree_is_visible ct with
      | true =>
        simp only [hv, if_true] at h
        by_cases he : idx = ci
        · simp only [he, if_true, Outcome.ok.injEq, ChildScan.returned.injEq] at h
          subst h
          exact ⟨c, rfl, by simp [isVisibleAt, hc, hv]⟩
        · simp only [he, if_false] at h
          exact ih _ _ _ _ _ _ h
      | false =>
        simp only [hv, Bool.false_eq_true, if_false] at h
        split at h
        · exact ih _ _ _ _ _ _ h
        · exact ih _ _ _ _ _ _ h

/-- Whatever `ts_node_child` returns is the null handle or a handle to a visible node. -/
theorem childLoop_visible (fuel : Nat) : ∀ (node : TSNode) (ci : Nat) (r : TSNode),
    childLoop mem total fuel node ci = .ok r →
    r = ts_node_null ∨ ∃ y, r.data = some y ∧ isVisibleAt mem y = true := by
  induction fuel with
  | zero => intro node ci r h; simp [childLoop] at h
  | succ fuel ih =>
    intro node ci r h
    rw [childLoop] at h
    cases hd : get_tree node with
    | none => simp [hd] at h
    | some p =>
      simp only [hd] at h
      cases hp : mem p with
      | none => simp [hp] at h
      | some t =>
        simp only [hp] at h
        cases hs : childScan mem total t.children 0 ci node.position false node with
        | fault => simp [hs] at h
        | timeout => simp [hs] at h
        | ok res =>
          simp only [hs] at h
          cases res with
          | returned n =>
            simp only [Outcome.ok.injEq] at h
            subst h
            exact Or.inr (childScan_returned_visible mem total _ _ _ _ _ _ _ hs)
          | finished did node' ci' =>
            cases did with
            | true => exact ih _ _ _ h
            | false =>
              simp only [Outcome.ok.injEq] at h
              exact Or.inl h.symm

/-- Whatever `ts_node_parent` returns is the null handle or a handle to a visible node. -/
theorem parentLoop_visible (fuel : Nat) : ∀ (x : Nat) (pos : TSLength) (r : TSNode),
    parentLoop mem total fuel x pos = .ok r →
    r = ts_node_null ∨ ∃ y, r.data = some y ∧ isVisibleAt mem y = true := by
  induction fuel with
  | zero => intro x pos r h; simp [parentLoop] at h
  | succ fuel ih =>
    intro x pos r h
    rw [parentLoop] at h
    cases hx : mem x with
    | none => simp [hx] at h
    | some t =>
      simp only [hx] at h
      cases hp : t.context.parent with
      | none =>
        simp only [hp, Outcome.ok.injEq] at h
        exact Or.inl h.symm
      | some q =>
        simp only [hp] at h
        cases hq : mem q with
        | none => simp [hq] at h
        | some par =>
          simp only [hq] at h
          cases hs : parentScan mem total x par.children pos with
          | fault => simp [hs] at h
          | timeout => simp [hs] at h
          | ok pos' =>
            simp only [hs] at h
            cases hv : ts_tree_is_visible par with
            | true =>
              simp only [hv, if_true, Outcome.ok.injEq] at h
              subst h
              exact Or.inr ⟨q, rfl, by simp [isVisibleAt, hq, hv]⟩
            | false =>
              simp only [hv, Bool.false_eq_true, if_false] at h
              exact ih _ _ _ h

theorem prevScan_visible (cfuel : Nat) (cs : List Nat) :
    ∀ (k : Nat) (pos : TSLength) (r : TSNode),
      prevScan mem total cfuel cs k pos = .ok (.returned (.ok r)) →
      r = ts_node_null ∨ ∃ y, r.data = some y ∧ isVisibleAt mem y = true := by
  intro k
  induction k with
  | zero => intro pos r h; simp [prevScan] at h
  | succ k ih =>
    intro pos r h
    rw [prevScan] at h
    cases hc : cs[k]? with
    | none => simp [hc] at h
    | some c =>
      simp only [hc] at h
      cases hm : mem c with
      | none => simp [hm] at h
      | some ct =>
        simp only [hm] at h
        cases hv : ts_tree_is_visible ct with
        | true =>
          simp only [hv, if_true, Outcome.ok.injEq, SiblingScan.returned.injEq] at h
          subst h
          exact Or.inr ⟨c, rfl, by simp [isVisibleAt, hm, hv]⟩
        | false =>
          simp only [hv, Bool.false_eq_true, if_false] at h
          split at h
          · simp only [Outcome.ok.injEq, SiblingScan.returned.injEq] at h
            exact childLoop_visible mem total _ _ _ _ h
          · exact ih _ _ h

theorem nextScan_visible (cfuel : Nat) (cs : List Nat) :
    ∀ (steps i : Nat) (pos : TSLength) (r : TSNode),
      nextScan mem total cfuel cs steps i pos = .ok (.returned (.ok r)) →
      r = ts_node_null ∨ ∃ y, r.data = some y ∧ isVisibleAt mem y = true := by
  intro steps
  induction steps with
  | zero => intro i pos r h; simp [nextScan] at h
  | succ steps ih =>
    intro i pos r h
    rw [nextScan] at h
    cases hc : cs[i]? with
    | none => simp [hc] at h
    | some c =>
      simp only [hc] at h
      cases hb : cs[sizePred i]? with
      | none => simp [hb] at h
      | some b =>
        simp only [hb] at h
        cases hmb : mem b with
        | none => simp [hmb] at h
        | some bt =>
          simp only [hmb] at h
          cases hm : mem c with
          | none => simp [hm] at h
          | some ct =>
            simp only [hm] at h
            cases hv : ts_tree_is_visible ct with
            | true =>
              simp only [hv, if_true, Outcome.ok.injEq, SiblingScan.returned.injEq] at h
              subst h
              exact Or.inr ⟨c, rfl, by simp [isVisibleAt, hm, hv]⟩
            | false =>
              simp only [hv, Bool.false_eq_true, if_false] at h
              split at h
              · simp only [Outcome.ok.injEq, SiblingScan.returned.injEq] at h
                exact childLoop_visible mem total _ _ _ _ h
              · exact ih _ _ _ h

/-- Whatever `ts_node_prev_sibling` returns is the null handle or a handle to a visible
node. -/
theorem prevLoop_visible (cfuel fuel : Nat) : ∀ (x : Nat) (pos : TSLength) (r : TSNode),
    prevLoop mem total cfuel fuel x pos = .ok r →
    r = ts_node_null ∨ ∃ y, r.data = some y ∧ isVisibleAt mem y = true := by
  induction fuel with
  | zero => intro x pos r h; simp [prevLoop] at h
  | succ fuel ih =>
    intro x pos r h
    rw [prevLoop] at h
    cases hx : mem x with
    | none => simp [hx] at h
    | some t =>
      simp only [hx] at h
      cases hp : t.context.parent with
      | none =>
        simp only [hp, Outcome.ok.injEq] at h
        exact Or.inl h.symm
      | some q =>
        simp only [hp] at h
        cases hq : mem q with
        | none => simp [hq] at h
        | some par =>
          simp only [hq] at h
          cases hs : prevScan mem total cfuel par.children
              ((sizePred t.context.index + 1) % SIZE_MOD) pos with
          | fault => simp [hs] at h
          | timeout => simp [hs] at h
          | ok res =>
            simp only [hs] at h
            cases res with
            | returned rr =>
              simp only at h
              subst h
              exact prevScan_visible mem total cfuel _ _ _ _ hs
            | finished pos' =>
              simp only at h
              cases hv : ts_tree_is_visible par with
              | true =>
                simp only [hv, if_true, Outcome.ok.injEq] at h
                exact Or.inl h.symm
              | false =>
                simp only [hv, Bool.false_eq_true, if_false] at h
                exact ih _ _ _ h

/-- Whatever `ts_node_next_sibling` returns is the null handle or a handle to a visible
node. -/
theorem nextLoop_visible (cfuel fuel : Nat) : ∀ (x : Nat) (pos : TSLength) (r : TSNode),
    nextLoop mem total cfuel fuel x pos = .ok r →
    r = ts_node_null ∨ ∃ y, r.data = some y ∧ isVisibleAt mem y = true := by
  induction fuel with
  | zero => intro x pos r h; simp [nextLoop] at h
  | succ fuel ih =>
    intro x pos r h
    rw [nextLoop] at h
    cases hx : mem x with
    | none => simp [hx] at h
    | some t =>
      simp only [hx] at h
      cases hp : t.context.parent with
      | none =>
        simp only [hp, Outcome.ok.injEq] at h
        exact Or.inl h.symm
      | some q =>
        simp only [hp] at h
        cases hq : mem q with
        | none => simp [hq] at h
        | some par =>
          simp only [hq] at h
          cases hs : nextScan mem total cfuel par.children
              (par.child_count - (t.context.index + 1) % SIZE_MOD)
              ((t.context.index + 1) % SIZE_MOD) pos with
          | fault => simp [hs] at h
          | timeout => simp [hs] at h
          | ok res =>
            simp only [hs] at h
            cases res with
            | returned rr =>
              simp only at h
              subst h
              exact nextScan_visible mem total cfuel _ _ _ _ _ hs
            | finished pos' =>
              simp only at h
              cases hv : ts_tree_is_visible par with
              | true =>
                simp only [hv, if_true, Outcome.ok.injEq] at h
                exact Or.inl h.symm
              | false =>
                simp only [hv, Bool.false_eq_true, if_false] at h
                exact ih _ _ _ h

theorem prevScan_total (m cfuel : Nat) (cs : List Nat)
    (hwf : ∀ c ∈ cs, wf mem m c = true) (hm : m ≤ cfuel) :
    ∀ k, k ≤ cs.length → ∀ pos : TSLength,
      (∃ pos', prevScan mem total cfuel cs k pos = .ok (.finished pos')) ∨
      (∃ e, prevScan mem total cfuel cs k pos = .ok (.returned (.ok e))) := by
  intro k
  induction k with
  | zero => intro _ pos; exact Or.inl ⟨pos, by simp [prevScan]⟩
  | succ k ih =>
    intro hk pos
    have hc : cs[k]? = some cs[k] := List.getElem?_eq_getElem (by omega)
    have hwc := hwf cs[k] (List.getElem_mem _)
    obtain ⟨ct, hct, hvcc, hlt, _⟩ := wf_node mem hwc
    rw [prevScan]
    simp only [hc, hct]
    cases hv : ts_tree_is_visible ct with
    | true => exact Or.inr ⟨ts_node_make (some cs[k]) (ts_length_sub pos (total ct)), by simp⟩
    | false =>
      simp only [Bool.false_eq_true, if_false]
      by_cases hz : ct.visible_child_count > 0
      · simp only [hz, if_true]
        rw [ts_node_child, ts_node_make, childLoop_eq mem total m _ _ _ cfuel hwc hm (by omega)]
        exact Or.inr ⟨_, rfl⟩
      · simp only [hz, if_false]
        exact ih (by omega) _

/-- In a well-formed tree whose root has no parent the loop of `ts_node_prev_sibling` ends,
from every node and position. -/
theorem prevLoop_total {r N : Nat} {rt : TSTree} (hwf : wf mem N r = true)
    (hr : mem r = some rt) (hnone : rt.context.parent = none) (cfuel : Nat) (hc : N ≤ cfuel)
    {d x : Nat} (h : InTree mem r d x) :
    ∀ (pos : TSLength) (f : Nat), d + 1 ≤ f →
      ∃ e, prevLoop mem total cfuel f x pos = .ok e := by
  induction h with
  | root =>
    intro pos f hf
    obtain ⟨f, rfl⟩ : ∃ g, f = g + 1 := ⟨f - 1, by omega⟩
    rw [prevLoop, hr]
    simp [hnone]
  | @child d q x i t hq ht hi ih =>
    intro pos f hf
    obtain ⟨f, rfl⟩ : ∃ g, f = g + 1 := ⟨f - 1, by omega⟩
    have hwq := hq.node_wf mem hwf
    obtain ⟨m, rfl⟩ : ∃ m, N = m + 1 := by
      cases N with
      | zero => simp [wf] at hwf
      | succ m => exact ⟨m, rfl⟩
    obtain ⟨ct, hct, hctx⟩ := wf_child_context mem hwq ht hi
    obtain ⟨t', ht', _, _, hlen⟩ := wf_node mem hwq
    rw [ht] at ht'; cases ht'
    have hilt : i < t.children.length := (List.getElem?_eq_some_iff.1 hi).1
    have hidx : (sizePred i + 1) % SIZE_MOD = i := by
      simp only [sizePred, SIZE_MOD] at hlen ⊢
      split <;> omega
    rw [prevLoop, hct]
    simp only [hctx, ht, hidx]
    rcases prevScan_total mem total m cfuel t.children (wf_children mem hwq ht) (by omega)
      i (by omega) pos with ⟨pos', hs⟩ | ⟨e, hs⟩
    · rw [hs]
      simp only
      cases hv : ts_tree_is_visible t with
      | true => exact ⟨ts_node_null, by simp⟩
      | false =>
        simp only [Bool.false_eq_true, if_false]
        exact ih pos' f (by omega)
    · rw [hs]
      exact ⟨e, rfl⟩

/-- In a well-formed tree whose root has no parent the loop of `ts_node_next_sibling` ends,
from every node and position. -/
theorem nextLoop_total {r N : Nat} {rt : TSTree} (hwf : wf mem N r = true)
    (hr : mem r = some rt) (hnone : rt.context.parent = none) (cfuel : Nat) (hc : N ≤ cfuel)
    {d x : Nat} (h : InTree mem r d x) :
    ∀ (pos : TSLength) (f : Nat), d + 1 ≤ f →
      ∃ e, nextLoop mem total cfuel f x pos = .ok e := by
  induction h with
  | root =>
    intro pos f hf
    obtain ⟨f, rfl⟩ : ∃ g, f = g + 1 := ⟨f - 1, by omega⟩
    rw [nextLoop, hr]
    simp [hnone]
  | @child d q x i t hq ht hi ih =>
    intro pos f hf
    obtain ⟨f, rfl⟩ : ∃ g, f = g + 1 := ⟨f - 1, by omega⟩
    have hwq := hq.node_wf mem hwf
    obtain ⟨m, rfl⟩ : ∃ m, N = m + 1 := by
      cases N with
      | zero => simp [wf] at hwf
      | succ m => exact ⟨m, rfl⟩
    obtain ⟨e, he, _⟩ := nextLoop_step_cases mem total cfuel hwq ht hi (by omega)
      (fun _ => True) f
      (by
        cases hv : t.visible with
        | true => simp
        | false =>
          simp only [Bool.false_eq_true, if_false, and_true]
          intro pos'
          exact ih pos' f (by omega))
      f (le_refl _) pos
    exact ⟨e, he⟩

end

/-! ## Range lookup -/

section
variable (mem : Memory) (total : TSTree → TSLength)

theorem coversRange_make {min max c : Nat} {ct : TSTree} {pos : TSLength}
    (hct : mem c = some ct)
    (h1 : ¬ (pos.chars + ct.padding.chars) % SIZE_MOD > min)
    (h2 : (pos.chars + ct.padding.chars + ct.size.chars) % SIZE_MOD > max) :
    coversRange mem min max (ts_node_make (some c) pos) := by
  refine ⟨ts_length_add pos ct.padding, ct.size, ?_, ?_, ?_, ?_⟩
  · simp [ts_node_pos, get_tree, ts_node_make, hct]
  · simp [ts_node_size, get_tree, ts_node_make, hct]
  · simp only [ts_length_add]; omega
  · simp only [ts_length_add, SIZE_MOD] at h2 ⊢
    omega

/-- The inner loop of `ts_node_find_for_range` keeps: the last visible node is the handle the
search began with or covers the range, and the node to descend into is a child. -/
theorem rangeScan_inv (m min max : Nat) (this : TSNode) (cs : List Nat) :
    ∀ (pos : TSLength) (s : RangeScan), (∀ c ∈ cs, wf mem m c = true) →
      (s.last_visible_node = this ∨ coversRange mem min max s.last_visible_node) →
      (s.did_descend = true → ∃ c, s.node.data = some c ∧ wf mem m c = true) →
      ∃ s', rangeScan mem total min max cs pos s = .ok s' ∧
        (s'.last_visible_node = this ∨ coversRange mem min max s'.last_visible_node) ∧
        (s'.did_descend = true → ∃ c, s'.node.data = some c ∧ wf mem m c = true) := by
  induction cs with
  | nil => intro pos s _ h1 h2; exact ⟨s, by simp [rangeScan], h1, h2⟩
  | cons c rest ih =>
    intro pos s hwf h1 h2
    have hwc := hwf c (by simp)
    obtain ⟨ct, hct, _⟩ := wf_node mem hwc
    have hrest : ∀ c ∈ rest, wf mem m c = true := fun c hc => hwf c (by simp [hc])
    rw [rangeScan, hct]
    simp only
    by_cases hb : (pos.chars + ct.padding.chars) % SIZE_MOD > min
    · simp only [hb, if_true]
      exact ⟨s, rfl, h1, h2⟩
    · simp only [hb, if_false]
      by_cases hd : (pos.chars + ct.padding.chars + ct.size.chars) % SIZE_MOD > max
      · simp only [hd, if_true]
        apply ih _ _ hrest
        · simp only
          cases hv : ts_tree_is_visible ct with
          | true =>
            right
            simpa using coversRange_make mem hct hb hd
          | false => simpa using h1
        · intro _
          exact ⟨c, rfl, hwc⟩
      · simp only [hd, if_false]
        exact ih _ _ hrest h1 h2

/-- The loop of `ts_node_find_for_range` ends on a well-formed tree, with the handle the search
began with or with a handle that covers the range. -/
theorem rangeLoop_inv (min max : Nat) (this : TSNode) (n : Nat) :
    ∀ (p : Nat) (node lv : TSNode) (fuel : Nat), wf mem n p = true → node.data = some p →
      (lv = this ∨ coversRange mem min max lv) → n ≤ fuel →
      ∃ r, rangeLoop mem total min max fuel node lv = .ok r ∧
        (r = this ∨ coversRange mem min max r) := by
  induction n with
  | zero => intro p node lv fuel h; simp [wf] at h
  | succ n ih =>
    intro p node lv fuel hwf hnode hlv hfuel
    obtain ⟨f, rfl⟩ : ∃ g, fuel = g + 1 := ⟨fuel - 1, by omega⟩
    obtain ⟨t, ht, _⟩ := wf_node mem hwf
    rw [rangeLoop]
    simp only [get_tree, hnode, ht]
    obtain ⟨s', hs', hq, hdesc⟩ := rangeScan_inv mem total n min max this t.children
      node.position { node := node, last_visible_node := lv, did_descend := false }
      (wf_children mem hwf ht) hlv (by simp)
    rw [hs']
    simp only
    cases hd : s'.did_descend with
    | true =>
      simp only [if_true]
      obtain ⟨c, hc, hwc⟩ := hdesc hd
      exact ih c s'.node s'.last_visible_node f hwc hc hq (by omega)
    | false =>
      simp only [Bool.false_eq_true, if_false]
      exact ⟨_, rfl, hq⟩

end

/-! ## The scan of `ts_node_child` with a `break` -/

section
variable (mem : Memory) (total : TSTree → TSLength)

theorem childLoopBreak_succ (fuel p : Nat) (t : TSTree) (node : TSNode) (ci : Nat)
    (hp : node.data = some p) (ht : mem p = some t) :
    childLoopBreak mem total (fuel + 1) node ci =
      resume (childLoopBreak mem total fuel)
        (childScanBreak mem total t.children 0 ci node.position node) := by
  rw [childLoopBreak]
  simp only [get_tree, hp, ht]
  split <;> simp_all [resume]

/-- Before a descent is decided, the scan of `ts_node_child` and the scan with the `break` lead
the loop to the same outcome. -/
theorem childScan_resume_break (m : Nat) (k1 k2 : TSNode → Nat → Outcome TSNode)
    (hk : ∀ c pos g, wf mem m c = true → g < SIZE_MOD → k1 ⟨some c, pos⟩ g = k2 ⟨some c, pos⟩ g)
    (cs : List Nat) :
    ∀ (idx ci : Nat) (pos : TSLength) (node : TSNode),
      (∀ c ∈ cs, wf mem m c = true) → idx ≤ ci → ci < SIZE_MOD →
      idx + (flatScan mem (flat mem m) cs).length < SIZE_MOD →
      resume k1 (childScan mem total cs idx ci pos false node)
        = resume k2 (childScanBreak mem total cs idx ci pos node) := by
  induction cs with
  | nil => intro idx ci pos node _ _ _ _; simp [childScan, childScanBreak, resume]
  | cons c rest ih =>
    intro idx ci pos node hwf hle hci hlen
    have hwc := hwf c (by simp)
    obtain ⟨ct, hct, hvcc, hlt, _⟩ := wf_node mem hwc
    have hrest : ∀ c ∈ rest, wf mem m c = true := fun c hc => hwf c (by simp [hc])
    rw [flatScan, hct] at hlen
    simp only [List.length_append] at hlen
    rw [childScan, childScanBreak, hct]
    cases hv : ct.visible with
    | true =>
      simp only [hv, if_true, List.length_singleton] at hlen
      simp only [ts_tree_is_visible, hv, if_true]
      by_cases he : idx = ci
      · simp [he, resume]
      · simp only [he, if_false]
        have h1 : (idx + 1) % SIZE_MOD = idx + 1 := Nat.mod_eq_of_lt (by omega)
        rw [h1]
        exact ih _ _ _ _ hrest (by omega) hci (by omega)
    | false =>
      simp only [hv, Bool.false_eq_true, if_false] at hlen
      simp only [ts_tree_is_visible, hv, Bool.false_eq_true, if_false]
      rw [← hvcc] at hlen
      have h1 : (idx + ct.visible_child_count) % SIZE_MOD = idx + ct.visible_child_count :=
        Nat.mod_eq_of_lt (by omega)
      have h3 : idx % SIZE_MOD = idx := Nat.mod_eq_of_lt (by omega)
      have h4 : (ci + (SIZE_MOD - idx)) % SIZE_MOD = ci - idx := by
        have : ci + (SIZE_MOD - idx) = (ci - idx) + SIZE_MOD := by omega
        rw [this, Nat.add_mod_right]
        exact Nat.mod_eq_of_lt (by omega)
      rw [h3, h4, h1]
      by_cases hg : ci - idx < ct.visible_child_count
      · simp only [hg, if_true]
        rw [childScan_after mem total m rest _ _ _ _ hrest (by omega) (by omega)]
        simp only [resume, ts_node_make]
        exact hk c pos _ hwc (by omega)
      · simp only [hg, if_false]
        exact ih _ _ _ _ hrest (by omega) hci (by omega)

theorem childLoop_eq_break (n : Nat) : ∀ (p : Nat) (pos : TSLength) (ci fuel : Nat),
    wf mem n p = true → ci < SIZE_MOD →
    childLoop mem total fuel ⟨some p, pos⟩ ci = childLoopBreak mem total fuel ⟨some p, pos⟩ ci := by
  induction n with
  | zero => intro p pos ci fuel h; simp [wf] at h
  | succ n ih =>
    intro p pos ci fuel hwf hci
    cases fuel with
    | zero => rfl
    | succ f =>
      obtain ⟨t, ht, hvcc, hlt, _⟩ := wf_node mem hwf
      rw [childLoop_succ mem total f p t _ ci rfl ht,
        childLoopBreak_succ mem total f p t _ ci rfl ht]
      have hfl : flat mem (n + 1) p = flatScan mem (flat mem n) t.children := by
        rw [flat, ht]
      exact childScan_resume_break mem total n _ _
        (fun c pos g hc hg => ih c pos g f hc hg) t.children 0 ci pos _
        (wf_children mem hwf ht) (by omega) hci (by rw [← hfl, ← hvcc]; omega)

end

/-! ## One sibling step inside a parent -/

theorem ts_length_sub_sub_comm (a b c : TSLength) :
    ts_length_sub (ts_length_sub a b) c = ts_length_sub (ts_length_sub a c) b := by
  obtain ⟨a1, a2⟩ := a
  obtain ⟨b1, b2⟩ := b
  obtain ⟨c1, c2⟩ := c
  simp only [ts_length_sub, SIZE_MOD, TSLength.mk.injEq]
  omega

theorem foldl_sub_of_sub (l : List TSLength) : ∀ a x : TSLength,
    l.foldl ts_length_sub (ts_length_sub a x) = ts_length_sub (l.foldl ts_length_sub a) x := by
  induction l with
  | nil => intro a x; rfl
  | cons y l ih =>
    intro a x
    simp only [List.foldl_cons]
    rw [ts_length_sub_sub_comm a x y, ih]

/-- Subtracting a list of extents back to front gives what subtracting it front to back
gives. -/
theorem foldl_sub_reverse (l : List TSLength) : ∀ a : TSLength,
    l.reverse.foldl ts_length_sub a = l.foldl ts_length_sub a := by
  induction l with
  | nil => intro a; rfl
  | cons x l ih =>
    intro a
    rw [List.reverse_cons, List.foldl_append]
    simp only [List.foldl_cons, List.foldl_nil]
    rw [ih, foldl_sub_of_sub]

section
variable (mem : Memory) (total : TSTree → TSLength)

theorem drop_take_succ {α : Type} (cs : List α) (k m : Nat) (c : α) (hkm : k ≤ m)
    (hc : cs[m]? = some c) :
    (cs.drop k).take (m + 1 - k) = (cs.drop k).take (m - k) ++ [c] := by
  have h : (cs.drop k)[m - k]? = some c := by
    rw [List.getElem?_drop, ← hc]; congr 1; omega
  rw [show m + 1 - k = (m - k) + 1 by omega]
  exact take_succ_of_getElem? _ _ _ h

theorem drop_take_pred {α : Type} (cs : List α) (i k : Nat) (c : α) (hik : i < k)
    (hc : cs[i]? = some c) :
    (cs.drop i).take (k - i) = c :: (cs.drop (i + 1)).take (k - (i + 1)) := by
  have hlt : i < cs.length := (List.getElem?_eq_some_iff.1 hc).1
  have hci : cs[i] = c := by
    have := List.getElem?_eq_getElem hlt
    rw [hc] at this
    exact (Option.some.inj this).symm
  rw [List.drop_eq_getElem_cons hlt, show k - i = (k - (i + 1)) + 1 by omega, List.take_succ_cons,
    hci]

/-- The scan of `ts_node_next_sibling` from index `i` up to the first index `j` whose child is
visible or has visible descendants. -/
theorem nextScan_to (cfuel : Nat) (cs : List Nat) (pos : TSLength) (k j cj : Nat)
    (ct : TSTree) (hlen : cs.length < SIZE_MOD) (hj : cs[j]? = some cj)
    (hct : mem cj = some ct) (hgood : ct.visible = true ∨ ct.visible_child_count > 0)
    (hmem : ∀ i, k ≤ i → i < j → ∃ c t', cs[i]? = some c ∧ mem c = some t')
    (hskip : ∀ i, k < i → i < j → ∃ c t', cs[i]? = some c ∧ mem c = some t' ∧
      t'.visible = false ∧ t'.visible_child_count = 0) :
    ∀ (d i : Nat), i + d = j → k < i →
      nextScan mem total cfuel cs (cs.length - i) i
          ((totalSizes mem total ((cs.drop k).take (i - 1 - k))).foldl ts_length_add pos)
        = .ok (.returned
            (if ct.visible then
              .ok ⟨some cj, (totalSizes mem total ((cs.drop k).take (j - k))).foldl
                ts_length_add pos⟩
             else ts_node_child mem total cfuel
              ⟨some cj, (totalSizes mem total ((cs.drop k).take (j - k))).foldl
                ts_length_add pos⟩ 0)) := by
  have hjlt : j < cs.length := (List.getElem?_eq_some_iff.1 hj).1
  intro d
  induction d with
  | zero =>
    intro i hi hki
    have hij : i = j := by omega
    subst hij
    obtain ⟨b, bt, hb, hbt⟩ := hmem (i - 1) (by omega) (by omega)
    obtain ⟨n, hn⟩ : ∃ n, cs.length - i = n + 1 := ⟨cs.length - i - 1, by omega⟩
    have hpred : sizePred i = i - 1 := by
      simp only [sizePred]; split <;> omega
    have hsz : totalSizes mem total ((cs.drop k).take (i - k))
        = totalSizes mem total ((cs.drop k).take (i - 1 - k)) ++ [total bt] := by
      have := drop_take_succ cs k (i - 1) b (by omega) hb
      rw [show i - 1 + 1 - k = i - k by omega] at this
      rw [this, totalSizes_append]
      simp [totalSizes, hbt]
    rw [hn, nextScan]
    simp only [hj, hpred, hb, hbt, hct]
    rw [hsz, List.foldl_append]
    simp only [List.foldl_cons, List.foldl_nil]
    cases hv : ct.visible with
    | true => simp [ts_tree_is_visible, hv, ts_node_make]
    | false =>
      have hz : ct.visible_child_count > 0 := by
        rcases hgood with h | h
        · rw [hv] at h; cases h
        · exact h
      simp [ts_tree_is_visible, hv, hz, ts_node_make]
  | succ d ih =>
    intro i hi hki
    obtain ⟨c, t', hc, ht', hv, hz⟩ := hskip i hki (by omega)
    obtain ⟨b, bt, hb, hbt⟩ := hmem (i - 1) (by omega) (by omega)
    obtain ⟨n, hn⟩ : ∃ n, cs.length - i = n + 1 := ⟨cs.length - i - 1, by omega⟩
    have hpred : sizePred i = i - 1 := by
      simp only [sizePred]; split <;> omega
    have hsz : totalSizes mem total ((cs.drop k).take (i - k))
        = totalSizes mem total ((cs.drop k).take (i - 1 - k)) ++ [total bt] := by
      have := drop_take_succ cs k (i - 1) b (by omega) hb
      rw [show i - 1 + 1 - k = i - k by omega] at this
      rw [this, totalSizes_append]
      simp [totalSizes, hbt]
    have hsucc : (i + 1) % SIZE_MOD = i + 1 := Nat.mod_eq_of_lt (by omega)
    rw [hn, nextScan]
    simp only [hc, hpred, hb, hbt, ht', ts_tree_is_visible, hv, hz, hsucc,
      Bool.false_eq_true, if_false, gt_iff_lt, lt_self_iff_false]
    have h := ih (i + 1) (by omega) (by omega)
    rw [show i + 1 - 1 - k = i - k by omega, hsz, List.foldl_append,
      show cs.length - (i + 1) = n by omega] at h
    simpa using h

/-- The scan of `ts_node_prev_sibling` from index `i - 1` down to the last index `j` whose
child is visible or has visible descendants. -/
theorem prevScan_to (cfuel : Nat) (cs : List Nat) (pos : TSLength) (k j cj : Nat)
    (ct : TSTree) (hj : cs[j]? = some cj)
    (hct : mem cj = some ct) (hgood : ct.visible = true ∨ ct.visible_child_count > 0)
    (hskip : ∀ i, j < i → i < k → ∃ c t', cs[i]? = some c ∧ mem c = some t' ∧
      t'.visible = false ∧ t'.visible_child_count = 0) :
    ∀ (d i : Nat), i = j + 1 + d → i ≤ k →
      prevScan mem total cfuel cs i
          ((totalSizes mem total ((cs.drop i).take (k - i))).reverse.foldl ts_length_sub pos)
        = .ok (.returned
            (if ct.visible then
              .ok ⟨some cj, (totalSizes mem total ((cs.drop j).take (k - j))).reverse.foldl
                ts_length_sub pos⟩
             else ts_node_child mem total cfuel
              ⟨some cj, (totalSizes mem total ((cs.drop j).take (k - j))).reverse.foldl
                ts_length_sub pos⟩ (ct.visible_child_count - 1))) := by
  intro d
  induction d with
  | zero =>
    intro i hi hik
    subst hi
    have hsz : totalSizes mem total ((cs.drop j).take (k - j))
        = total ct :: totalSizes mem total ((cs.drop (j + 1)).take (k - (j + 1))) := by
      rw [drop_take_pred cs j k cj (by omega) hj]
      simp [totalSizes, hct]
    rw [prevScan]
    simp only [hj, hct]
    rw [hsz, List.reverse_cons, List.foldl_append]
    simp only [List.foldl_cons, List.foldl_nil]
    cases hv : ct.visible with
    | true => simp [ts_tree_is_visible, hv, ts_node_make]
    | false =>
      have hz : ct.visible_child_count > 0 := by
        rcases hgood with h | h
        · rw [hv] at h; cases h
        · exact h
      simp [ts_tree_is_visible, hv, hz, ts_node_make]
  | succ d ih =>
    intro i hi hik
    obtain ⟨i', rfl⟩ : ∃ i', i = i' + 1 := ⟨i - 1, by omega⟩
    obtain ⟨c, t', hc, ht', hv, hz⟩ := hskip i' (by omega) (by omega)
    have hsz : totalSizes mem total ((cs.drop i').take (k - i'))
        = total t' :: totalSizes mem total ((cs.drop (i' + 1)).take (k - (i' + 1))) := by
      rw [drop_take_pred cs i' k c (by omega) hc]
      simp [totalSizes, ht']
    rw [prevScan]
    simp only [hc, ht', ts_tree_is_visible, hv, hz, Bool.false_eq_true, if_false, gt_iff_lt,
      lt_self_iff_false]
    have h := ih i' (by omega) (by omega)
    rw [hsz, List.reverse_cons, List.foldl_append] at h
    simpa using h

end

/-! ## The position of a descended handle -/

section
variable (mem : Memory) (total : TSTree → TSLength)

/-- Every handle of the flattened enumeration of `p` sits at the end of a path of hidden nodes
below `p`, at the position of `p` plus the total sizes of the siblings before each node of the
path. -/
theorem flatPos_path (n : Nat) : ∀ (p : Nat) (pos : TSLength) (e : TSNode),
    wf mem n p = true → e ∈ flatPos mem total n p pos →
    ∃ c q path, e = ⟨some c, q⟩ ∧ isChildPath mem p path ∧ path.getLast? = some c ∧
      (∀ y ∈ path.dropLast, isVisibleAt mem y = false) ∧ isVisibleAt mem c = true ∧
      q = ((path.map (sizesBefore mem total)).flatten).foldl ts_length_add pos := by
  induction n with
  | zero => intro p pos e h; simp [wf] at h
  | succ n ih =>
    intro p pos e hwf he
    obtain ⟨t, ht, _⟩ := wf_node mem hwf
    rw [flatPos, ht] at he
    obtain ⟨k, c, ct, hk, hct, hcase⟩ := flatPosScan_mem mem total _ _ _ _ he
    have hcmem : c ∈ t.children := List.mem_iff_getElem?.2 ⟨k, hk⟩
    have hwc : wf mem n c = true := wf_children mem hwf ht c hcmem
    obtain ⟨ct', hct', hctx⟩ := wf_child_context mem hwf ht hk
    rw [hct] at hct'; cases hct'
    have hsz : sizesBefore mem total c = totalSizes mem total (t.children.take k) := by
      simp [sizesBefore, precedingSiblings, hct, hctx, ht]
    rcases hcase with ⟨hv, rfl⟩ | ⟨hv, hmem⟩
    · refine ⟨c, _, [c], rfl, ⟨⟨t, ht, hcmem⟩, trivial⟩, rfl, ?_, ?_, ?_⟩
      · intro y hy; simp at hy
      · simp [isVisibleAt, hct, ts_tree_is_visible, hv]
      · simp [hsz]
    · obtain ⟨c', q, path, he', hpath, hlast, hhid, hvis, hq⟩ := ih c _ e hwc hmem
      have hne : path ≠ [] := by intro h; rw [h] at hlast; simp at hlast
      obtain ⟨y0, ys, rfl⟩ := List.exists_cons_of_ne_nil hne
      refine ⟨c', q, c :: y0 :: ys, he', ⟨⟨t, ht, hcmem⟩, hpath⟩, ?_, ?_, hvis, ?_⟩
      · rw [List.getLast?_cons_cons]; exact hlast
      · intro y hy
        rw [List.dropLast_cons₂] at hy
        rcases List.mem_cons.1 hy with rfl | hy
        · simp [isVisibleAt, hct, ts_tree_is_visible, hv]
        · exact hhid y hy
      · rw [hq]
        simp [hsz, List.foldl_append]

end
/-! ## Bounds of the loops -/


section
variable (mem : Memory) (total : TSTree → TSLength)

/-- When the scan of `ts_node_child` ends with a descent, the node to descend into is one of
the children scanned. -/
theorem childScan_descends_to_child (cs : List Nat) :
    ∀ (idx ci : Nat) (pos : TSLength) (did : Bool) (node node' : TSNode) (ci' : Nat),
      childScan mem total cs idx ci pos did node = .ok (.finished true node' ci') →
      (did = true ∧ node' = node) ∨ ∃ c ∈ cs, node'.data = some c := by
  induction cs with
  | nil =>
    intro idx ci pos did node node' ci' h
    simp only [childScan, Outcome.ok.injEq, ChildScan.finished.injEq] at h
    exact Or.inl ⟨h.1, h.2.1.symm⟩
  | cons c rest ih =>
    intro idx ci pos did node node' ci' h
    rw [childScan] at h
    cases hc : mem c with
    | none => simp [hc] at h
    | some ct =>
      simp only [hc] at h
      cases hv : ts_tree_is_visible ct with
      | true =>
        simp only [hv, if_true] at h
        by_cases he : idx = ci
        · simp [he] at h
        · simp only [he, if_false] at h
          rcases ih _ _ _ _ _ _ _ h with h' | ⟨c', hc', hd⟩
          · exact Or.inl h'
          · exact Or.inr ⟨c', by simp [hc'], hd⟩
      | false =>
        simp only [hv, Bool.false_eq_true, if_false] at h
        split at h
        · rcases ih _ _ _ _ _ _ _ h with ⟨_, h'⟩ | ⟨c', hc', hd⟩
          · exact Or.inr ⟨c, by simp, by rw [h']; rfl⟩
          · exact Or.inr ⟨c', by simp [hc'], hd⟩
        · rcases ih _ _ _ _ _ _ _ h with h' | ⟨c', hc', hd⟩
          · exact Or.inl h'
          · exact Or.inr ⟨c', by simp [hc'], hd⟩

/-- When the scan of `ts_node_find_for_range` ends with a descent, the node to descend into is
one of the children scanned. -/
theorem rangeScan_descends_to_child (min max : Nat) (cs : List Nat) :
    ∀ (pos : TSLength) (s s' : RangeScan),
      rangeScan mem total min max cs pos s = .ok s' → s'.did_descend = true →
      (s.did_descend = true ∧ s'.node = s.node) ∨ ∃ c ∈ cs, s'.node.data = some c := by
  induction cs with
  | nil =>
    intro pos s s' h hd
    simp only [rangeScan, Outcome.ok.injEq] at h
    subst h
    exact Or.inl ⟨hd, rfl⟩
  | cons c rest ih =>
    intro pos s s' h hd
    rw [rangeScan] at h
    cases hc : mem c with
    | none => simp [hc] at h
    | some ct =>
      simp only [hc] at h
      by_cases hb : (pos.chars + ct.padding.chars) % SIZE_MOD > min
      · simp only [hb, if_true, Outcome.ok.injEq] at h
        subst h
        exact Or.inl ⟨hd, rfl⟩
      · simp only [hb, if_false] at h
        by_cases hm : (pos.chars + ct.padding.chars + ct.size.chars) % SIZE_MOD > max
        · simp only [hm, if_true] at h
          rcases ih _ _ _ h hd with ⟨_, h'⟩ | ⟨c', hc', hd'⟩
          · exact Or.inr ⟨c, by simp, by rw [h']; rfl⟩
          · exact Or.inr ⟨c', by simp [hc'], hd'⟩
        · simp only [hm, if_false] at h
          rcases ih _ _ _ h hd with h' | ⟨c', hc', hd'⟩
          · exact Or.inl h'
          · exact Or.inr ⟨c', by simp [hc'], hd'⟩

theorem ancestors_succ_of_child {n q i x : Nat} {t : TSTree} (d : Nat)
    (hwf : wf mem n q = true) (ht : mem q = some t) (hi : t.children[i]? = some x) :
    ancestors mem (d + 1) x = q :: ancestors mem d q := by
  obtain ⟨ct, hct, hctx⟩ := wf_child_context mem hwf ht hi
  rw [ancestors, hct]; simp [hctx]

/-- The loop of `ts_node_parent` from a node `d` levels deep enters its body at most `d + 1`
times, and at most `d` times unless every strict ancestor is hidden and the result is null. -/
theorem parentLoop_bound {r N : Nat} {rt : TSTree} (hwf : wf mem N r = true)
    (hr : mem r = some rt) (hnone : rt.context.parent = none) {d x : Nat}
    (h : InTree mem r d x) :
    ∀ pos : TSLength, ∃ e, parentLoop mem total (d + 1) x pos = .ok e ∧
      (parentLoop mem total d x pos = .ok e ∨
        (e = ts_node_null ∧ ∀ a ∈ ancestors mem d x, isVisibleAt mem a = false)) := by
  induction h with
  | root =>
    intro pos
    refine ⟨ts_node_null, ?_, Or.inr ⟨rfl, by simp [ancestors]⟩⟩
    rw [parentLoop, hr]; simp [hnone]
  | @child d q x i t hq ht hi ih =>
    intro pos
    have hwq := hq.node_wf mem hwf
    rw [parentLoop_step mem total hwq ht hi, ancestors_succ_of_child mem d hwq ht hi]
    cases hv : t.visible with
    | true =>
      refine ⟨⟨some q, (totalSizes mem total (t.children.take i)).foldl ts_length_sub pos⟩,
        by simp, Or.inl ?_⟩
      rw [parentLoop_step mem total hwq ht hi]; simp [hv]
    | false =>
      simp only [Bool.false_eq_true, if_false]
      obtain ⟨e, he, hor⟩ := ih ((totalSizes mem total (t.children.take i)).foldl
        ts_length_sub pos)
      refine ⟨e, he, ?_⟩
      rcases hor with hd | ⟨hnull, hall⟩
      · left
        rw [parentLoop_step mem total hwq ht hi]
        simpa [hv] using hd
      · right
        refine ⟨hnull, ?_⟩
        intro a ha
        rcases List.mem_cons.1 ha with rfl | ha
        · simp [isVisibleAt, ht, ts_tree_is_visible, hv]
        · exact hall a ha

theorem prevLoop_unfold {n q i x : Nat} {t : TSTree} (cfuel : Nat)
    (hwf : wf mem n q = true) (ht : mem q = some t) (hi : t.children[i]? = some x)
    (pos : TSLength) (f : Nat) :
    prevLoop mem total cfuel (f + 1) x pos =
      match prevScan mem total cfuel t.children i pos with
      | .ok (.returned r) => r
      | .ok (.finished pos') =>
        if t.visible then .ok ts_node_null else prevLoop mem total cfuel f q pos'
      | .fault => .fault
      | .timeout => .timeout := by
  obtain ⟨ct, hct, hctx⟩ := wf_child_context mem hwf ht hi
  obtain ⟨t', ht', _, _, hlen⟩ := wf_node mem hwf
  rw [ht] at ht'; cases ht'
  have hilt : i < t.children.length := (List.getElem?_eq_some_iff.1 hi).1
  have hidx : (sizePred i + 1) % SIZE_MOD = i := by
    simp only [sizePred, SIZE_MOD] at hlen ⊢
    split <;> omega
  rw [prevLoop, hct]
  simp only [hctx, ht, hidx, ts_tree_is_visible]

theorem nextLoop_unfold {n q i x : Nat} {t : TSTree} (cfuel : Nat)
    (hwf : wf mem n q = true) (ht : mem q = some t) (hi : t.children[i]? = some x)
    (pos : TSLength) (f : Nat) :
    nextLoop mem total cfuel (f + 1) x pos =
      match nextScan mem total cfuel t.children (t.children.length - (i + 1)) (i + 1) pos with
      | .ok (.returned r) => r
      | .ok (.finished pos') =>
        if t.visible then .ok ts_node_null else nextLoop mem total cfuel f q pos'
      | .fault => .fault
      | .timeout => .timeout := by
  obtain ⟨ct, hct, hctx⟩ := wf_child_context mem hwf ht hi
  obtain ⟨t', ht', _, _, hlen⟩ := wf_node mem hwf
  rw [ht] at ht'; cases ht'
  have hilt : i < t.children.length := (List.getElem?_eq_some_iff.1 hi).1
  have hidx : (i + 1) % SIZE_MOD = i + 1 := Nat.mod_eq_of_lt (by omega)
  rw [nextLoop, hct]
  simp only [hctx, ht, hidx, ts_tree_is_visible, TSTree.child_count]

/-- The loop of `ts_node_prev_sibling` from a node `d` levels deep enters its body at most
`d + 1` times, and at most `d` times unless every strict ancestor is hidden and the result is
null. -/
theorem prevLoop_bound {r N : Nat} {rt : TSTree} (hwf : wf mem N r = true)
    (hr : mem r = some rt) (hnone : rt.context.parent = none) (cfuel : Nat) (hc : N ≤ cfuel)
    {d x : Nat} (h : InTree mem r d x) :
    ∀ pos : TSLength, ∃ e, prevLoop mem total cfuel (d + 1) x pos = .ok e ∧
      (prevLoop mem total cfuel d x pos = .ok e ∨
        (e = ts_node_null ∧ ∀ a ∈ ancestors mem d x, isVisibleAt mem a = false)) := by
  induction h with
  | root =>
    intro pos
    refine ⟨ts_node_null, ?_, Or.inr ⟨rfl, by simp [ancestors]⟩⟩
    rw [prevLoop, hr]; simp [hnone]
  | @child d q x i t hq ht hi ih =>
    intro pos
    have hwq := hq.node_wf mem hwf
    obtain ⟨m, rfl⟩ : ∃ m, N = m + 1 := by
      cases N with
      | zero => simp [wf] at hwf
      | succ m => exact ⟨m, rfl⟩
    have hilt : i < t.children.length := (List.getElem?_eq_some_iff.1 hi).1
    rw [prevLoop_unfold mem total cfuel hwq ht hi, prevLoop_unfold mem total cfuel hwq ht hi,
      ancestors_succ_of_child mem d hwq ht hi]
    rcases prevScan_total mem total m cfuel t.children (wf_children mem hwq ht) (by omega)
      i (by omega) pos with ⟨pos', hs⟩ | ⟨e, hs⟩
    · rw [hs]
      simp only
      cases hv : t.visible with
      | true => exact ⟨ts_node_null, by simp, Or.inl (by simp)⟩
      | false =>
        simp only [Bool.false_eq_true, if_false]
        obtain ⟨e, he, hor⟩ := ih pos'
        refine ⟨e, he, ?_⟩
        rcases hor with hd | ⟨hnull, hall⟩
        · exact Or.inl hd
        · right
          refine ⟨hnull, ?_⟩
          intro a ha
          rcases List.mem_cons.1 ha with rfl | ha
          · simp [isVisibleAt, ht, ts_tree_is_visible, hv]
          · exact hall a ha
    · rw [hs]
      exact ⟨e, rfl, Or.inl rfl⟩

/-- The loop of `ts_node_next_sibling` from a node `d` levels deep enters its body at most
`d + 1` times, and at most `d` times unless every strict ancestor is hidden and the result is
null. -/
theorem nextLoop_bound {r N : Nat} {rt : TSTree} (hwf : wf mem N r = true)
    (hr : mem r = some rt) (hnone : rt.context.parent = none) (cfuel : Nat) (hc : N ≤ cfuel)
    {d x : Nat} (h : InTree mem r d x) :
    ∀ pos : TSLength, ∃ e, nextLoop mem total cfuel (d + 1) x pos = .ok e ∧
      (nextLoop mem total cfuel d x pos = .ok e ∨
        (e = ts_node_null ∧ ∀ a ∈ ancestors mem d x, isVisibleAt mem a = false)) := by
  induction h with
  | root =>
    intro pos
    refine ⟨ts_node_null, ?_, Or.inr ⟨rfl, by simp [ancestors]⟩⟩
    rw [nextLoop, hr]; simp [hnone]
  | @child d q x i t hq ht hi ih =>
    intro pos
    have hwq := hq.node_wf mem hwf
    obtain ⟨m, rfl⟩ : ∃ m, N = m + 1 := by
      cases N with
      | zero => simp [wf] at hwf
      | succ m => exact ⟨m, rfl⟩
    obtain ⟨t', ht', _, _, hlen⟩ := wf_node mem hwq
    rw [ht] at ht'; cases ht'
    have hilt : i < t.children.length := (List.getElem?_eq_some_iff.1 hi).1
    rw [nextLoop_unfold mem total cfuel hwq ht hi, nextLoop_unfold mem total cfuel hwq ht hi,
      ancestors_succ_of_child mem d hwq ht hi]
    rcases nextScan_cases mem total m cfuel t.children (wf_children mem hwq ht) (by omega) hlen
      (t.children.length - (i + 1)) (i + 1) pos (by omega) (by omega) with
      ⟨pos', hs, _⟩ | ⟨e, y, hs, _, _⟩
    · rw [hs]
      simp only
      cases hv : t.visible with
      | true => exact ⟨ts_node_null, by simp, Or.inl (by simp)⟩
      | false =>
        simp only [Bool.false_eq_true, if_false]
        obtain ⟨e, he, hor⟩ := ih pos'
        refine ⟨e, he, ?_⟩
        rcases hor with hd | ⟨hnull, hall⟩
        · exact Or.inl hd
        · right
          refine ⟨hnull, ?_⟩
          intro a ha
          rcases List.mem_cons.1 ha with rfl | ha
          · simp [isVisibleAt, ht, ts_tree_is_visible, hv]
          · exact hall a ha
    · rw [hs]
      exact ⟨e, rfl, Or.inl rfl⟩

end


section
variable (mem : Memory) (total : TSTree → TSLength)

theorem finiteTree_succ {n p : Nat} (h : finiteTree mem (n + 1) p = true) :
    ∃ t, mem p = some t ∧ ∀ c ∈ t.children, finiteTree mem n c = true := by
  rw [finiteTree] at h
  cases hp : mem p with
  | none => simp [hp] at h
  | some t => exact ⟨t, rfl, by simpa [hp] using h⟩

theorem finiteTree_mem {n p : Nat} (h : finiteTree mem n p = true) : ∃ t, mem p = some t := by
  cases n with
  | zero => simp [finiteTree] at h
  | succ n =>
    obtain ⟨t, ht, _⟩ := finiteTree_succ mem h
    exact ⟨t, ht⟩

/-- The scan of `ts_node_child` ends when the children are in memory. -/
theorem childScan_total (cs : List Nat) :
    ∀ (idx ci : Nat) (pos : TSLength) (did : Bool) (node : TSNode),
      (∀ c ∈ cs, ∃ ct, mem c = some ct) →
      ∃ res, childScan mem total cs idx ci pos did node = .ok res := by
  induction cs with
  | nil => intro idx ci pos did node _; exact ⟨_, by rw [childScan]⟩
  | cons c rest ih =>
    intro idx ci pos did node hmem
    obtain ⟨ct, hct⟩ := hmem c (by simp)
    have hrest : ∀ c ∈ rest, ∃ ct, mem c = some ct := fun c hc => hmem c (by simp [hc])
    rw [childScan]
    simp only [hct]
    split
    · split
      · exact ⟨_, rfl⟩
      · exact ih _ _ _ _ _ hrest
    · split
      · exact ih _ _ _ _ _ hrest
      · exact ih _ _ _ _ _ hrest

/-- The scan of `ts_node_find_for_range` ends when the children are in memory. -/
theorem rangeScan_total (min max : Nat) (cs : List Nat) :
    ∀ (pos : TSLength) (s : RangeScan), (∀ c ∈ cs, ∃ ct, mem c = some ct) →
      ∃ s2, rangeScan mem total min max cs pos s = .ok s2 := by
  induction cs with
  | nil => intro pos s _; exact ⟨_, by rw [rangeScan]⟩
  | cons c rest ih =>
    intro pos s hmem
    obtain ⟨ct, hct⟩ := hmem c (by simp)
    have hrest : ∀ c ∈ rest, ∃ ct, mem c = some ct := fun c hc => hmem c (by simp [hc])
    rw [rangeScan]
    simp only [hct]
    split
    · exact ⟨_, rfl⟩
    · exact ih _ _ hrest

/-- On a finite tree of at most `n` levels the loop of `ts_node_child` returns within `n`
entries. -/
theorem childLoop_total_of_finite (n : Nat) :
    ∀ (p : Nat) (pos : TSLength) (ci fuel : Nat), finiteTree mem n p = true → n ≤ fuel →
      ∃ r, childLoop mem total fuel ⟨some p, pos⟩ ci = .ok r := by
  induction n with
  | zero => intro p pos ci fuel h; simp [finiteTree] at h
  | succ n ih =>
    intro p pos ci fuel hfin hfuel
    obtain ⟨t, ht, hch⟩ := finiteTree_succ mem hfin
    obtain ⟨f, rfl⟩ : ∃ g, fuel = g + 1 := ⟨fuel - 1, by omega⟩
    rw [childLoop]
    simp only [get_tree, ht]
    obtain ⟨res, hres⟩ := childScan_total mem total t.children 0 ci pos false ⟨some p, pos⟩
      (fun c hc => finiteTree_mem mem (hch c hc))
    rw [hres]
    cases res with
    | returned e => exact ⟨e, rfl⟩
    | finished did node2 ci2 =>
      cases did with
      | false => exact ⟨_, rfl⟩
      | true =>
        simp only []
        rcases childScan_descends_to_child mem total _ _ _ _ _ _ _ _ hres with ⟨h1, _⟩ | h1
        · cases h1
        · obtain ⟨c, hc, hd⟩ := h1
          obtain ⟨d, q⟩ := node2
          simp only at hd
          subst hd
          exact ih c q ci2 f (hch c hc) (by omega)

/-- On a finite tree of at most `n` levels the loop of `ts_node_find_for_range` returns within
`n` entries. -/
theorem rangeLoop_total_of_finite (min max : Nat) (n : Nat) :
    ∀ (p : Nat) (pos : TSLength) (lv : TSNode) (fuel : Nat), finiteTree mem n p = true →
      n ≤ fuel → ∃ r, rangeLoop mem total min max fuel ⟨some p, pos⟩ lv = .ok r := by
  induction n with
  | zero => intro p pos lv fuel h; simp [finiteTree] at h
  | succ n ih =>
    intro p pos lv fuel hfin hfuel
    obtain ⟨t, ht, hch⟩ := finiteTree_succ mem hfin
    obtain ⟨f, rfl⟩ : ∃ g, fuel = g + 1 := ⟨fuel - 1, by omega⟩
    rw [rangeLoop]
    simp only [get_tree, ht]
    obtain ⟨s, hs⟩ := rangeScan_total mem total min max t.children pos
      ⟨⟨some p, pos⟩, lv, false⟩ (fun c hc => finiteTree_mem mem (hch c hc))
    rw [hs]
    simp only []
    cases hd : s.did_descend with
    | false => exact ⟨s.last_visible_node, by simp⟩
    | true =>
      simp only [if_true]
      rcases rangeScan_descends_to_child mem total min max _ _ _ _ hs hd with ⟨h1, _⟩ | h1
      · simp at h1
      · obtain ⟨c, hc, hdc⟩ := h1
        obtain ⟨node, lv2, did⟩ := s
        obtain ⟨d, q⟩ := node
        simp only at hdc
        subst hdc
        exact ih c q lv2 f (hch c hc) (by omega)

/-- A well-formed subtree is a finite tree with all its nodes in memory. -/
theorem finiteTree_of_wf (n : Nat) : ∀ p, wf mem n p = true → finiteTree mem n p = true := by
  induction n with
  | zero => intro p h; simp [wf] at h
  | succ n ih =>
    intro p h
    obtain ⟨t, ht, _⟩ := wf_node mem h
    rw [finiteTree]
    simp only [ht, List.all_eq_true]
    intro c hc
    exact ih c (wf_children mem h ht c hc)

end

/-! ## The scan of the range lookup -/

section
variable (mem : Memory) (total : TSTree → TSLength)

/-- The scan of `ts_node_find_for_range` updates its state once for each candidate, in order. -/
theorem rangeScan_fold (min max : Nat) (cs : List Nat) :
    ∀ (pos : TSLength) (s : RangeScan), (∀ c ∈ cs, ∃ ct, mem c = some ct) →
      rangeScan mem total min max cs pos s
        = .ok ((rangeCandidates mem total min max cs pos).foldl
            (fun s e => ⟨e.1, if e.2.visible then e.1 else s.last_visible_node, true⟩) s) := by
  induction cs with
  | nil => intro pos s _; simp [rangeScan, rangeCandidates, childHandles]
  | cons c rest ih =>
    intro pos s hmem
    obtain ⟨ct, hct⟩ := hmem c (by simp)
    have hrest : ∀ c ∈ rest, ∃ ct, mem c = some ct := fun c hc => hmem c (by simp [hc])
    rw [rangeScan]
    simp only [hct, rangeCandidates, childHandles]
    by_cases hb : (pos.chars + ct.padding.chars) % SIZE_MOD > min
    · simp [hb, startsAfter, ts_node_make]
    · have hb' : startsAfter min (ts_node_make (some c) pos, ct) = false := by
        simp [startsAfter, ts_node_make, hb]
      rw [List.takeWhile_cons]
      simp only [hb, if_false, hb', Bool.not_false, if_true]
      rw [ih _ _ hrest, List.filter_cons]
      by_cases hm : (pos.chars + ct.padding.chars + ct.size.chars) % SIZE_MOD > max
      · have hm' : endsAfter max (ts_node_make (some c) pos, ct) = true := by
          simp [endsAfter, ts_node_make, hm]
        simp [hm, hm', rangeCandidates, ts_tree_is_visible]
      · have hm' : endsAfter max (ts_node_make (some c) pos, ct) = false := by
          simp [endsAfter, ts_node_make, hm]
        simp [hm, hm', rangeCandidates]

/-- Updating the state once for each candidate leaves the last candidate as the node to descend
into, and the last visible candidate as the last visible node. -/
theorem foldl_select_getLast (l : List (TSNode × TSTree)) (s : RangeScan) :
    l.foldl (fun s e => (⟨e.1, if e.2.visible then e.1 else s.last_visible_node, true⟩ :
        RangeScan)) s
      = match l.getLast? with
        | none => s
        | some e =>
          ⟨e.1, match (l.filter fun e => e.2.visible).getLast? with
                | none => s.last_visible_node
                | some v => v.1, true⟩ := by
  induction l using List.reverseRecOn with
  | nil => simp
  | append_singleton l a ih =>
    rw [List.foldl_append, ih]
    simp only [List.foldl_cons, List.foldl_nil, List.getLast?_append, List.getLast?_singleton,
      List.filter_append]
    cases hv : a.2.visible with
    | true => simp [List.filter_cons, hv]
    | false =>
      simp only [List.filter_cons, hv, Bool.false_eq_true, if_false, List.filter_nil,
        List.append_nil]
      cases hl : l.getLast? with
      | none =>
        have : l = [] := by simpa using hl
        subst this
        simp
      | some e => simp

theorem orderedScan_cons {f : Nat → TSLength → Bool} {c : Nat} {rest : List Nat}
    {pos : TSLength} (h : orderedScan mem total f (c :: rest) pos = true) :
    ∃ ct, mem c = some ct ∧
      pos.chars + ct.padding.chars + ct.size.chars ≤ (ts_length_add pos (total ct)).chars ∧
      f c pos = true ∧ orderedScan mem total f rest (ts_length_add pos (total ct)) = true := by
  rw [orderedScan] at h
  cases hc : mem c with
  | none => simp [hc] at h
  | some ct =>
    simp only [hc, Bool.and_eq_true, decide_eq_true_eq] at h
    exact ⟨ct, rfl, h.1.1, h.1.2, h.2⟩

theorem ts_length_add_chars_lt (a b : TSLength) : (ts_length_add a b).chars < SIZE_MOD := by
  simp only [ts_length_add]
  exact Nat.mod_lt _ (by simp [SIZE_MOD])

theorem childPos_cons (c : Nat) (ct : TSTree) (rest : List Nat) (hct : mem c = some ct)
    (pos : TSLength) (k : Nat) :
    (totalSizes mem total ((c :: rest).take (k + 1))).foldl ts_length_add pos
      = (totalSizes mem total (rest.take k)).foldl ts_length_add
          (ts_length_add pos (total ct)) := by
  simp [totalSizes, hct]

/-- In an ordered level the `k`-th child stands at or after the position the scan began at, its
end does not wrap, and its subtree satisfies the condition of the level. -/
theorem orderedScan_get (f : Nat → TSLength → Bool) (cs : List Nat) :
    ∀ (pos : TSLength) (k c : Nat) (ct : TSTree), orderedScan mem total f cs pos = true →
      cs[k]? = some c → mem c = some ct →
      pos.chars ≤ ((totalSizes mem total (cs.take k)).foldl ts_length_add pos).chars ∧
      ((totalSizes mem total (cs.take k)).foldl ts_length_add pos).chars
        + ct.padding.chars + ct.size.chars < SIZE_MOD ∧
      f c ((totalSizes mem total (cs.take k)).foldl ts_length_add pos) = true := by
  induction cs with
  | nil => intro pos k c ct _ hk; simp at hk
  | cons c0 rest ih =>
    intro pos k c ct hord hk hct
    obtain ⟨ct0, hct0, hle, hf, hrest⟩ := orderedScan_cons mem total hord
    have hlt := ts_length_add_chars_lt pos (total ct0)
    cases k with
    | zero =>
      simp only [List.getElem?_cons_zero, Option.some.injEq] at hk
      subst hk
      rw [hct0] at hct
      cases hct
      simp only [List.take_zero, totalSizes, List.filterMap_nil, List.foldl_nil]
      exact ⟨le_rfl, by omega, hf⟩
    | succ k =>
      simp only [List.getElem?_cons_succ] at hk
      rw [childPos_cons mem total c0 ct0 rest hct0]
      obtain ⟨h1, h2, h3⟩ := ih _ k c ct hrest hk hct
      exact ⟨by omega, h2, h3⟩

/-- In an ordered level a scan that begins after `min` stops at once. -/
theorem rangeScan_break_of_lt (f : Nat → TSLength → Bool) (min max : Nat) (cs : List Nat)
    (pos : TSLength) (s : RangeScan) (hord : orderedScan mem total f cs pos = true)
    (hlt : min < pos.chars) : rangeScan mem total min max cs pos s = .ok s := by
  cases cs with
  | nil => simp [rangeScan]
  | cons c rest =>
    obtain ⟨ct, hct, hle, _, _⟩ := orderedScan_cons mem total hord
    have := ts_length_add_chars_lt pos (total ct)
    rw [rangeScan]
    simp only [hct]
    have hmod : (pos.chars + ct.padding.chars) % SIZE_MOD = pos.chars + ct.padding.chars :=
      Nat.mod_eq_of_lt (by omega)
    rw [hmod, if_pos (by omega)]

theorem rangeCandidates_nil_of_lt (f : Nat → TSLength → Bool) (min max : Nat) (cs : List Nat)
    (pos : TSLength) (hord : orderedScan mem total f cs pos = true)
    (hlt : min < pos.chars) : rangeCandidates mem total min max cs pos = [] := by
  cases cs with
  | nil => simp [rangeCandidates, childHandles]
  | cons c rest =>
    obtain ⟨ct, hct, hle, _, _⟩ := orderedScan_cons mem total hord
    have := ts_length_add_chars_lt pos (total ct)
    have hmod : (pos.chars + ct.padding.chars) % SIZE_MOD = pos.chars + ct.padding.chars :=
      Nat.mod_eq_of_lt (by omega)
    have hb : startsAfter min (ts_node_make (some c) pos, ct) = true := by
      simp only [startsAfter, ts_node_make, hmod, decide_eq_true_eq]
      omega
    simp [rangeCandidates, childHandles, hct, List.takeWhile_cons, hb]

/-- In an ordered level, for `min <= max`, at most one child is a candidate. -/
theorem rangeCandidates_length_le_one (f : Nat → TSLength → Bool) (min max : Nat)
    (hmm : min ≤ max) (cs : List Nat) :
    ∀ pos : TSLength, orderedScan mem total f cs pos = true →
      (rangeCandidates mem total min max cs pos).length ≤ 1 := by
  induction cs with
  | nil => intro pos _; simp [rangeCandidates, childHandles]
  | cons c rest ih =>
    intro pos hord
    obtain ⟨ct, hct, hle, _, hrest⟩ := orderedScan_cons mem total hord
    have hlt := ts_length_add_chars_lt pos (total ct)
    have hmod1 : (pos.chars + ct.padding.chars) % SIZE_MOD = pos.chars + ct.padding.chars :=
      Nat.mod_eq_of_lt (by omega)
    have hmod2 : (pos.chars + ct.padding.chars + ct.size.chars) % SIZE_MOD
        = pos.chars + ct.padding.chars + ct.size.chars := Nat.mod_eq_of_lt (by omega)
    simp only [rangeCandidates, childHandles, hct, List.takeWhile_cons]
    by_cases hb : pos.chars + ct.padding.chars > min
    · simp [startsAfter, ts_node_make, hmod1, hb]
    · have hb' : startsAfter min (ts_node_make (some c) pos, ct) = false := by
        simp [startsAfter, ts_node_make, hmod1, hb]
      simp only [hb', Bool.not_false, if_true, List.filter_cons]
      by_cases hm : pos.chars + ct.padding.chars + ct.size.chars > max
      · have hm' : endsAfter max (ts_node_make (some c) pos, ct) = true := by
          simp [endsAfter, ts_node_make, hmod2, hm]
        have hnil := rangeCandidates_nil_of_lt mem total f min max rest _ hrest
          (show min < (ts_length_add pos (total ct)).chars by omega)
        simp only [rangeCandidates] at hnil
        simp [hm', hnil]
      · have hm' : endsAfter max (ts_node_make (some c) pos, ct) = false := by
          simp [endsAfter, ts_node_make, hmod2, hm]
        simp only [hm', Bool.false_eq_true, if_false]
        exact ih _ hrest

/-- In an ordered level, for `min <= max`, the scan of `ts_node_find_for_range` ends in the
state of the scan that stops at the first match. -/
theorem rangeScan_eq_first (f : Nat → TSLength → Bool) (min max : Nat) (hmm : min ≤ max)
    (cs : List Nat) :
    ∀ (pos : TSLength) (s : RangeScan), orderedScan mem total f cs pos = true →
      rangeScan mem total min max cs pos s = rangeScanFirst mem total min max cs pos s := by
  induction cs with
  | nil => intro pos s _; simp [rangeScan, rangeScanFirst]
  | cons c rest ih =>
    intro pos s hord
    obtain ⟨ct, hct, hle, _, hrest⟩ := orderedScan_cons mem total hord
    have hlt := ts_length_add_chars_lt pos (total ct)
    have hmod2 : (pos.chars + ct.padding.chars + ct.size.chars) % SIZE_MOD
        = pos.chars + ct.padding.chars + ct.size.chars := Nat.mod_eq_of_lt (by omega)
    rw [rangeScan, rangeScanFirst]
    simp only [hct]
    by_cases hb : (pos.chars + ct.padding.chars) % SIZE_MOD > min
    · simp [hb]
    · simp only [hb, if_false]
      by_cases hm : (pos.chars + ct.padding.chars + ct.size.chars) % SIZE_MOD > max
      · simp only [hm, if_true]
        exact rangeScan_break_of_lt mem total f min max rest _ _ hrest (by omega)
      · simp only [hm, if_false]
        exact ih _ _ hrest

/-- In an ordered level, for `min <= max`: either no child starts at or before `min` and ends
after `max`, and the scan leaves its state as it is; or exactly one child does, and the scan
ends with the descent into that child. -/
theorem rangeScan_find (f : Nat → TSLength → Bool) (min max : Nat) (hmm : min ≤ max)
    (cs : List Nat) :
    ∀ (pos : TSLength) (s : RangeScan), orderedScan mem total f cs pos = true →
      (rangeScan mem total min max cs pos s = .ok s ∧
        ∀ (j c : Nat) (ct : TSTree), cs[j]? = some c → mem c = some ct →
          ¬ (((totalSizes mem total (cs.take j)).foldl ts_length_add pos).chars
              + ct.padding.chars ≤ min ∧
            max < ((totalSizes mem total (cs.take j)).foldl ts_length_add pos).chars
              + ct.padding.chars + ct.size.chars)) ∨
      ∃ (k c : Nat) (ct : TSTree), cs[k]? = some c ∧ mem c = some ct ∧
        f c ((totalSizes mem total (cs.take k)).foldl ts_length_add pos) = true ∧
        ((totalSizes mem total (cs.take k)).foldl ts_length_add pos).chars
          + ct.padding.chars ≤ min ∧
        max < ((totalSizes mem total (cs.take k)).foldl ts_length_add pos).chars
          + ct.padding.chars + ct.size.chars ∧
        rangeScan mem total min max cs pos s
          = .ok ⟨ts_node_make (some c)
                  ((totalSizes mem total (cs.take k)).foldl ts_length_add pos),
                if ct.visible then ts_node_make (some c)
                  ((totalSizes mem total (cs.take k)).foldl ts_length_add pos)
                else s.last_visible_node, true⟩ ∧
        ∀ (j c2 : Nat) (ct2 : TSTree), cs[j]? = some c2 → mem c2 = some ct2 →
          ((totalSizes mem total (cs.take j)).foldl ts_length_add pos).chars
            + ct2.padding.chars ≤ min →
          max < ((totalSizes mem total (cs.take j)).foldl ts_length_add pos).chars
            + ct2.padding.chars + ct2.size.chars → j = k := by
  induction cs with
  | nil =>
    intro pos s _
    left
    refine ⟨by simp [rangeScan], ?_⟩
    intro j c ct hj
    simp at hj
  | cons c rest ih =>
    intro pos s hord
    obtain ⟨ct, hct, hle, hf, hrest⟩ := orderedScan_cons mem total hord
    have hlt := ts_length_add_chars_lt pos (total ct)
    have hmod1 : (pos.chars + ct.padding.chars) % SIZE_MOD = pos.chars + ct.padding.chars :=
      Nat.mod_eq_of_lt (by omega)
    have hmod2 : (pos.chars + ct.padding.chars + ct.size.chars) % SIZE_MOD
        = pos.chars + ct.padding.chars + ct.size.chars := Nat.mod_eq_of_lt (by omega)
    have hlater : ∀ (j c2 : Nat) (ct2 : TSTree), rest[j]? = some c2 → mem c2 = some ct2 →
        pos.chars + ct.padding.chars + ct.size.chars ≤
          ((totalSizes mem total ((c :: rest).take (j + 1))).foldl ts_length_add pos).chars := by
      intro j c2 ct2 hj hc2
      rw [childPos_cons mem total c ct rest hct]
      have := (orderedScan_get mem total f rest _ j c2 ct2 hrest hj hc2).1
      omega
    rw [rangeScan]
    simp only [hct, hmod1, hmod2]
    by_cases hb : pos.chars + ct.padding.chars > min
    · left
      refine ⟨by simp [hb], ?_⟩
      intro j c2 ct2 hj hc2
      cases j with
      | zero =>
        simp only [List.getElem?_cons_zero, Option.some.injEq] at hj
        subst hj
        rw [hct] at hc2
        cases hc2
        simp only [List.take_zero, totalSizes, List.filterMap_nil, List.foldl_nil]
        omega
      | succ j =>
        simp only [List.getElem?_cons_succ] at hj
        have := hlater j c2 ct2 hj hc2
        omega
    · simp only [hb, if_false]
      by_cases hm : pos.chars + ct.padding.chars + ct.size.chars > max
      · right
        refine ⟨0, c, ct, by simp, hct, by simpa [totalSizes] using hf,
          by simp only [List.take_zero, totalSizes, List.filterMap_nil, List.foldl_nil]; omega,
          by simp only [List.take_zero, totalSizes, List.filterMap_nil, List.foldl_nil]; omega,
          ?_, ?_⟩
        · simp only [hm, if_true]
          rw [rangeScan_break_of_lt mem total f min max rest _ _ hrest (by omega)]
          simp [totalSizes, ts_tree_is_visible]
        · intro j c2 ct2 hj hc2 h1 h2
          cases j with
          | zero => rfl
          | succ j =>
            simp only [List.getElem?_cons_succ] at hj
            have := hlater j c2 ct2 hj hc2
            omega
      · simp only [hm, if_false]
        rcases ih (ts_length_add pos (total ct)) s hrest with ⟨hs, hno⟩ |
          ⟨k, c1, ct1, hk, hc1, hf1, h1, h2, hs, huniq⟩
        · left
          refine ⟨hs, ?_⟩
          intro j c2 ct2 hj hc2
          cases j with
          | zero =>
            simp only [List.getElem?_cons_zero, Option.some.injEq] at hj
            subst hj
            rw [hct] at hc2
            cases hc2
            simp only [List.take_zero, totalSizes, List.filterMap_nil, List.foldl_nil]
            omega
          | succ j =>
            simp only [List.getElem?_cons_succ] at hj
            rw [childPos_cons mem total c ct rest hct]
            exact hno j c2 ct2 hj hc2
        · right
          refine ⟨k + 1, c1, ct1, by simpa using hk, hc1, ?_, ?_, ?_, ?_, ?_⟩
          · rw [childPos_cons mem total c ct rest hct]; exact hf1
          · rw [childPos_cons mem total c ct rest hct]; exact h1
          · rw [childPos_cons mem total c ct rest hct]; exact h2
          · rw [childPos_cons mem total c ct rest hct]; exact hs
          · intro j c2 ct2 hj hc2 hj1 hj2
            cases j with
            | zero =>
              simp only [List.getElem?_cons_zero, Option.some.injEq] at hj
              subst hj
              rw [hct] at hc2
              cases hc2
              simp only [List.take_zero, totalSizes, List.filterMap_nil, List.foldl_nil] at hj2
              omega
            | succ j =>
              simp only [List.getElem?_cons_succ] at hj
              rw [childPos_cons mem total c ct rest hct] at hj1 hj2
              rw [huniq j c2 ct2 hj hc2 hj1 hj2]

end

section
variable (mem : Memory) (total : TSTree → TSLength)

theorem ordered_succ {n p : Nat} {pos : TSLength} (h : ordered mem total (n + 1) p pos = true) :
    ∃ t, mem p = some t ∧ orderedScan mem total (ordered mem total n) t.children pos = true := by
  rw [ordered] at h
  cases hp : mem p with
  | none => simp [hp] at h
  | some t => exact ⟨t, rfl, by simpa [hp] using h⟩

theorem orderedScan_mem (f : Nat → TSLength → Bool) (cs : List Nat) :
    ∀ (pos : TSLength), orderedScan mem total f cs pos = true →
      ∀ c ∈ cs, ∃ ct, mem c = some ct := by
  induction cs with
  | nil => intro pos _ c hc; simp at hc
  | cons c0 rest ih =>
    intro pos hord c hc
    obtain ⟨ct0, hct0, _, _, hrest⟩ := orderedScan_cons mem total hord
    rcases List.mem_cons.1 hc with rfl | hc
    · exact ⟨ct0, hct0⟩
    · exact ih _ hrest c hc

/-- The child handles of an ordered subtree head ordered subtrees. -/
theorem ordered_child {n : Nat} {a b : TSNode} {p : Nat} (ha : a.data = some p)
    (hord : ordered mem total n p a.position = true) (h : isChildHandle mem total a b) :
    ∃ m c, b.data = some c ∧ ordered mem total m c b.position = true := by
  obtain ⟨p2, t, k, c, hp2, ht, hk, rfl⟩ := h
  rw [ha] at hp2
  cases hp2
  cases n with
  | zero => simp [ordered] at hord
  | succ n =>
    obtain ⟨t2, ht2, hscan⟩ := ordered_succ mem total hord
    rw [ht] at ht2
    cases ht2
    obtain ⟨ct, hct⟩ := orderedScan_mem mem total _ _ _ hscan c
      (List.mem_iff_getElem?.2 ⟨k, hk⟩)
    exact ⟨n, c, rfl, (orderedScan_get mem total _ _ _ k c ct hscan hk hct).2.2⟩

/-- The handles below an ordered subtree head ordered subtrees. -/
theorem ordered_below {a b : TSNode} (h : Below mem total a b) :
    ∀ (n p : Nat), a.data = some p → ordered mem total n p a.position = true →
      ∃ m c, b.data = some c ∧ ordered mem total m c b.position = true := by
  induction h with
  | child hc => intro n p ha hord; exact ordered_child mem total ha hord hc
  | step hc _ ih =>
    intro n p ha hord
    obtain ⟨m, c, hb, hordb⟩ := ordered_child mem total ha hord hc
    exact ih m c hb hordb

/-- On an ordered subtree, for `min <= max`, the loop of `ts_node_find_for_range` and the loop
around the scan that stops at the first match agree, whatever the fuel. -/
theorem rangeLoop_eq_first (min max : Nat) (hmm : min ≤ max) (n : Nat) :
    ∀ (p : Nat) (pos : TSLength) (fuel : Nat) (lv : TSNode),
      ordered mem total n p pos = true →
      rangeLoop mem total min max fuel ⟨some p, pos⟩ lv
        = rangeLoopFirst mem total min max fuel ⟨some p, pos⟩ lv := by
  induction n with
  | zero => intro p pos fuel lv h; simp [ordered] at h
  | succ n ih =>
    intro p pos fuel lv hord
    obtain ⟨t, ht, hscan⟩ := ordered_succ mem total hord
    cases fuel with
    | zero => rw [rangeLoop, rangeLoopFirst]
    | succ fuel =>
      rw [rangeLoop, rangeLoopFirst]
      simp only [get_tree, ht]
      rw [← rangeScan_eq_first mem total _ min max hmm _ _ _ hscan]
      rcases rangeScan_find mem total _ min max hmm t.children pos
        ⟨⟨some p, pos⟩, lv, false⟩ hscan with ⟨hs, _⟩ | ⟨k, c, ct, _, _, hf, _, _, hs, _⟩
      · rw [hs]
        simp
      · rw [hs]
        simp only [if_true, ts_node_make]
        exact ih c _ fuel _ hf

end

/-! ## The path of the range lookup -/

section
variable (mem : Memory) (total : TSTree → TSLength)

/-- A property of the state of the scan of `ts_node_find_for_range` that holds at the start and
is kept by the descent into any child, at the position the scan gives it, holds at the end. -/
theorem rangeScan_ind (min max : Nat) (P : RangeScan → Prop) (cs : List Nat) :
    ∀ (pos : TSLength) (s s2 : RangeScan), P s →
      (∀ (s : RangeScan) (k c : Nat) (ct : TSTree), P s → cs[k]? = some c → mem c = some ct →
        P ⟨ts_node_make (some c) ((totalSizes mem total (cs.take k)).foldl ts_length_add pos),
          if ct.visible then
            ts_node_make (some c) ((totalSizes mem total (cs.take k)).foldl ts_length_add pos)
          else s.last_visible_node, true⟩) →
      rangeScan mem total min max cs pos s = .ok s2 → P s2 := by
  induction cs with
  | nil =>
    intro pos s s2 hs _ h
    simp only [rangeScan, Outcome.ok.injEq] at h
    exact h ▸ hs
  | cons c rest ih =>
    intro pos s s2 hs hstep h
    rw [rangeScan] at h
    cases hc : mem c with
    | none => simp [hc] at h
    | some ct =>
      simp only [hc] at h
      have hstep2 : ∀ (s : RangeScan) (k c2 : Nat) (ct2 : TSTree), P s → rest[k]? = some c2 →
          mem c2 = some ct2 →
          P ⟨ts_node_make (some c2) ((totalSizes mem total (rest.take k)).foldl ts_length_add
              (ts_length_add pos (total ct))),
            if ct2.visible then
              ts_node_make (some c2) ((totalSizes mem total (rest.take k)).foldl ts_length_add
                (ts_length_add pos (total ct)))
            else s.last_visible_node, true⟩ := by
        intro s k c2 ct2 hs hk hc2
        have := hstep s (k + 1) c2 ct2 hs (by simpa using hk) hc2
        rwa [childPos_cons mem total c ct rest hc] at this
      by_cases hb : (pos.chars + ct.padding.chars) % SIZE_MOD > min
      · simp only [hb, if_true, Outcome.ok.injEq] at h
        exact h ▸ hs
      · simp only [hb, if_false] at h
        by_cases hm : (pos.chars + ct.padding.chars + ct.size.chars) % SIZE_MOD > max
        · simp only [hm, if_true] at h
          refine ih _ _ _ ?_ hstep2 h
          have := hstep s 0 c ct hs (by simp) hc
          simpa [totalSizes, ts_tree_is_visible] using this
        · simp only [hm, if_false] at h
          exact ih _ _ _ hs hstep2 h

theorem below_snoc {a b c : TSNode} (h : Below mem total a b)
    (hc : isChildHandle mem total b c) : Below mem total a c := by
  induction h with
  | child h1 => exact Below.step h1 (Below.child hc)
  | step h1 _ ih => exact Below.step h1 (ih hc)

theorem below_trans {a b c : TSNode} (h : Below mem total a b) (h2 : Below mem total b c) :
    Below mem total a c := by
  induction h with
  | child h1 => exact Below.step h1 h2
  | step h1 _ ih => exact Below.step h1 (ih h2)

/-- The loop with the record of its path returns what `rangeLoop` returns. -/
theorem rangeLoop_eq_trace (min max : Nat) (fuel : Nat) :
    ∀ (node lv : TSNode), rangeLoop mem total min max fuel node lv
      = match rangeLoopTrace mem total min max fuel node lv with
        | .ok (r, _) => .ok r
        | .fault => .fault
        | .timeout => .timeout := by
  induction fuel with
  | zero => intro node lv; rw [rangeLoop, rangeLoopTrace]
  | succ fuel ih =>
    intro node lv
    rw [rangeLoop, rangeLoopTrace]
    cases hg : get_tree node with
    | none => rfl
    | some p =>
      simp only []
      cases hp : mem p with
      | none => rfl
      | some t =>
        simp only []
        cases hs : rangeScan mem total min max t.children node.position
            { node := node, last_visible_node := lv, did_descend := false } with
        | fault => rfl
        | timeout => rfl
        | ok s =>
          simp only []
          cases hd : s.did_descend with
          | false => simp
          | true =>
            simp only [if_true]
            rw [ih]
            cases rangeLoopTrace mem total min max fuel s.node s.last_visible_node with
            | fault => rfl
            | timeout => rfl
            | ok rp => rfl

/-- What the loop of `ts_node_find_for_range` keeps, whatever the tree: the working node is the
handle `h` the search began with or lies below it, and the last visible node is `h` or a visible
handle below it. So are the result and the nodes of the path. -/
theorem rangeLoopTrace_inv (min max : Nat) (h : TSNode) (fuel : Nat) :
    ∀ (node lv r : TSNode) (path : List TSNode),
      (node = h ∨ Below mem total h node) →
      (lv = h ∨ (Below mem total h lv ∧ isVisibleHandle mem lv = true)) →
      rangeLoopTrace mem total min max fuel node lv = .ok (r, path) →
      (r = h ∨ (Below mem total h r ∧ isVisibleHandle mem r = true)) ∧
      ∀ b ∈ path, Below mem total h b := by
  induction fuel with
  | zero => intro node lv r path _ _ hr; simp [rangeLoopTrace] at hr
  | succ fuel ih =>
    intro node lv r path hnode hlv hr
    rw [rangeLoopTrace] at hr
    cases hg : get_tree node with
    | none => simp [hg] at hr
    | some p =>
      simp only [hg] at hr
      cases hp : mem p with
      | none => simp [hp] at hr
      | some t =>
        simp only [hp] at hr
        cases hs : rangeScan mem total min max t.children node.position
            { node := node, last_visible_node := lv, did_descend := false } with
        | fault => simp [hs] at hr
        | timeout => simp [hs] at hr
        | ok s =>
          simp only [hs] at hr
          have hinv := rangeScan_ind mem total min max
            (fun s => (s.last_visible_node = h ∨
                (Below mem total h s.last_visible_node ∧
                  isVisibleHandle mem s.last_visible_node = true)) ∧
              (s.did_descend = true → Below mem total h s.node))
            t.children node.position _ s ⟨hlv, by simp⟩
            (by
              intro s1 k c ct hs1 hk hc
              have hch : isChildHandle mem total node (ts_node_make (some c)
                  ((totalSizes mem total (t.children.take k)).foldl ts_length_add
                    node.position)) := ⟨p, t, k, c, hg, hp, hk, rfl⟩
              have hb : Below mem total h (ts_node_make (some c)
                  ((totalSizes mem total (t.children.take k)).foldl ts_length_add
                    node.position)) := by
                rcases hnode with rfl | hnode
                · exact Below.child hch
                · exact below_snoc mem total hnode hch
              refine ⟨?_, fun _ => hb⟩
              cases hv : ct.visible with
              | true =>
                right
                simp only [if_true]
                exact ⟨hb, by simp [isVisibleHandle, ts_node_make, isVisibleAt, hc,
                  ts_tree_is_visible, hv]⟩
              | false => simpa using hs1.1)
            hs
          cases hd : s.did_descend with
          | false =>
            simp only [hd, Bool.false_eq_true, if_false, Outcome.ok.injEq, Prod.mk.injEq] at hr
            obtain ⟨rfl, rfl⟩ := hr
            exact ⟨hinv.1, by simp⟩
          | true =>
            simp only [hd, if_true] at hr
            cases hrec : rangeLoopTrace mem total min max fuel s.node s.last_visible_node with
            | fault => simp [hrec] at hr
            | timeout => simp [hrec] at hr
            | ok rp =>
              obtain ⟨r2, path2⟩ := rp
              simp only [hrec, Outcome.ok.injEq, Prod.mk.injEq] at hr
              obtain ⟨rfl, rfl⟩ := hr
              obtain ⟨h1, h2⟩ := ih s.node s.last_visible_node r2 path2 (Or.inr (hinv.2 hd))
                hinv.1 hrec
              refine ⟨h1, ?_⟩
              intro b hb
              rcases List.mem_cons.1 hb with rfl | hb
              · exact hinv.2 hd
              · exact h2 b hb

/-- On an ordered subtree, for `min <= max`, the result of the loop is the last visible node it
was entered with or a node of the path. -/
theorem rangeLoopTrace_on_path (min max : Nat) (hmm : min ≤ max) (n : Nat) :
    ∀ (p : Nat) (pos : TSLength) (fuel : Nat) (lv r : TSNode) (path : List TSNode),
      ordered mem total n p pos = true →
      rangeLoopTrace mem total min max fuel ⟨some p, pos⟩ lv = .ok (r, path) →
      r = lv ∨ r ∈ path := by
  induction n with
  | zero => intro p pos fuel lv r path h; simp [ordered] at h
  | succ n ih =>
    intro p pos fuel lv r path hord hr
    obtain ⟨t, ht, hscan⟩ := ordered_succ mem total hord
    cases fuel with
    | zero => simp [rangeLoopTrace] at hr
    | succ fuel =>
      rw [rangeLoopTrace] at hr
      simp only [get_tree, ht] at hr
      rcases rangeScan_find mem total _ min max hmm t.children pos
        ⟨⟨some p, pos⟩, lv, false⟩ hscan with ⟨hs, _⟩ | ⟨k, c, ct, _, _, hf, _, _, hs, _⟩
      · rw [hs] at hr
        simp only [Bool.false_eq_true, if_false, Outcome.ok.injEq, Prod.mk.injEq] at hr
        exact Or.inl hr.1.symm
      · rw [hs] at hr
        simp only [if_true, ts_node_make] at hr
        cases hrec : rangeLoopTrace mem total min max fuel
            ⟨some c, (totalSizes mem total (t.children.take k)).foldl ts_length_add pos⟩
            (if ct.visible then
              ⟨some c, (totalSizes mem total (t.children.take k)).foldl ts_length_add pos⟩
            else lv) with
        | fault => simp [hrec] at hr
        | timeout => simp [hrec] at hr
        | ok rp =>
          obtain ⟨r2, path2⟩ := rp
          simp only [hrec, Outcome.ok.injEq, Prod.mk.injEq] at hr
          obtain ⟨rfl, rfl⟩ := hr
          rcases ih c _ fuel _ r2 path2 hf hrec with h1 | h1
          · cases hv : ct.visible with
            | true =>
              rw [hv] at h1
              simp only [if_true] at h1
              right
              rw [h1]
              simp
            | false =>
              rw [hv] at h1
              simp only [Bool.false_eq_true, if_false] at h1
              exact Or.inl h1
          · right
            simp [h1]

end

/-! ## Child descent stays below the handle -/

section
variable (mem : Memory) (total : TSTree → TSLength)

/-- What the scan of `ts_node_child` returns is a visible child at the position the scan gives
it, and what it descends into is a child at that position. -/
theorem childScan_below (cs : List Nat) :
    ∀ (idx ci : Nat) (pos : TSLength) (did : Bool) (node : TSNode) (res : ChildScan),
      childScan mem total cs idx ci pos did node = .ok res →
      (∀ b, res = .returned b → ∃ k c ct, cs[k]? = some c ∧ mem c = some ct ∧
        ct.visible = true ∧
        b = ts_node_make (some c)
          ((totalSizes mem total (cs.take k)).foldl ts_length_add pos)) ∧
      (∀ node2 ci2, res = .finished true node2 ci2 → (did = true ∧ node2 = node) ∨
        ∃ k c ct, cs[k]? = some c ∧ mem c = some ct ∧
          node2 = ts_node_make (some c)
            ((totalSizes mem total (cs.take k)).foldl ts_length_add pos)) := by
  induction cs with
  | nil =>
    intro idx ci pos did node res h
    simp only [childScan, Outcome.ok.injEq] at h
    subst h
    refine ⟨fun b hb => by simp at hb, fun node2 ci2 hf => ?_⟩
    simp only [ChildScan.finished.injEq] at hf
    exact Or.inl ⟨hf.1, hf.2.1.symm⟩
  | cons c rest ih =>
    intro idx ci pos did node res h
    rw [childScan] at h
    cases hc : mem c with
    | none => simp [hc] at h
    | some ct =>
      simp only [hc] at h
      have shift : ∀ (b : TSNode) (Q : TSTree → Prop),
          (∃ k c2 ct2, rest[k]? = some c2 ∧ mem c2 = some ct2 ∧ Q ct2 ∧
            b = ts_node_make (some c2) ((totalSizes mem total (rest.take k)).foldl
              ts_length_add (ts_length_add pos (total ct)))) →
          ∃ k c2 ct2, (c :: rest)[k]? = some c2 ∧ mem c2 = some ct2 ∧ Q ct2 ∧
            b = ts_node_make (some c2) ((totalSizes mem total ((c :: rest).take k)).foldl
              ts_length_add pos) := by
        rintro b Q ⟨k, c2, ct2, hk, hc2, hq, hb⟩
        refine ⟨k + 1, c2, ct2, by simpa using hk, hc2, hq, ?_⟩
        rw [childPos_cons mem total c ct rest hc]
        exact hb
      have shift1 : ∀ (b : TSNode),
          (∃ k c2 ct2, rest[k]? = some c2 ∧ mem c2 = some ct2 ∧ ct2.visible = true ∧
            b = ts_node_make (some c2) ((totalSizes mem total (rest.take k)).foldl
              ts_length_add (ts_length_add pos (total ct)))) →
          ∃ k c2 ct2, (c :: rest)[k]? = some c2 ∧ mem c2 = some ct2 ∧ ct2.visible = true ∧
            b = ts_node_make (some c2) ((totalSizes mem total ((c :: rest).take k)).foldl
              ts_length_add pos) := fun b hb => shift b (fun t => t.visible = true) hb
      have shift2 : ∀ (b : TSNode),
          (∃ k c2 ct2, rest[k]? = some c2 ∧ mem c2 = some ct2 ∧
            b = ts_node_make (some c2) ((totalSizes mem total (rest.take k)).foldl
              ts_length_add (ts_length_add pos (total ct)))) →
          ∃ k c2 ct2, (c :: rest)[k]? = some c2 ∧ mem c2 = some ct2 ∧
            b = ts_node_make (some c2) ((totalSizes mem total ((c :: rest).take k)).foldl
              ts_length_add pos) := by
        rintro b ⟨k, c2, ct2, hk, hc2, hb⟩
        obtain ⟨k2, c3, ct3, h1, h2, _, h3⟩ := shift b (fun _ => True)
          ⟨k, c2, ct2, hk, hc2, trivial, hb⟩
        exact ⟨k2, c3, ct3, h1, h2, h3⟩
      have here : ∀ (b : TSNode), b = ts_node_make (some c) pos →
          ∃ k c2 ct2, (c :: rest)[k]? = some c2 ∧ mem c2 = some ct2 ∧
            b = ts_node_make (some c2) ((totalSizes mem total ((c :: rest).take k)).foldl
              ts_length_add pos) := by
        intro b hb
        exact ⟨0, c, ct, by simp, hc, by simpa [totalSizes] using hb⟩
      cases hv : ts_tree_is_visible ct with
      | true =>
        simp only [hv, if_true] at h
        by_cases he : idx = ci
        · simp only [he, if_true, Outcome.ok.injEq] at h
          subst h
          refine ⟨fun b hb => ?_, fun node2 ci2 hf => by simp at hf⟩
          simp only [ChildScan.returned.injEq] at hb
          exact ⟨0, c, ct, by simp, hc, by simpa [ts_tree_is_visible] using hv,
            by simpa [totalSizes] using hb.symm⟩
        · simp only [he, if_false] at h
          obtain ⟨h1, h2⟩ := ih _ _ _ _ _ _ h
          refine ⟨fun b hb => shift1 b (h1 b hb), fun node2 ci2 hf => ?_⟩
          rcases h2 node2 ci2 hf with h3 | h3
          · exact Or.inl h3
          · exact Or.inr (shift2 node2 h3)
      | false =>
        simp only [hv, Bool.false_eq_true, if_false] at h
        split at h
        · obtain ⟨h1, h2⟩ := ih _ _ _ _ _ _ h
          refine ⟨fun b hb => shift1 b (h1 b hb), fun node2 ci2 hf => ?_⟩
          rcases h2 node2 ci2 hf with ⟨_, h3⟩ | h3
          · exact Or.inr (here node2 h3)
          · exact Or.inr (shift2 node2 h3)
        · obtain ⟨h1, h2⟩ := ih _ _ _ _ _ _ h
          refine ⟨fun b hb => shift1 b (h1 b hb), fun node2 ci2 hf => ?_⟩
          rcases h2 node2 ci2 hf with h3 | h3
          · exact Or.inl h3
          · exact Or.inr (shift2 node2 h3)

/-- A non-null handle returned by the loop of `ts_node_child` is a visible handle below the
handle the loop began with. -/
theorem childLoop_below (fuel : Nat) :
    ∀ (node : TSNode) (ci : Nat) (b : TSNode),
      childLoop mem total fuel node ci = .ok b → b.data ≠ none →
      Below mem total node b ∧ isVisibleHandle mem b = true := by
  induction fuel with
  | zero => intro node ci b h; simp [childLoop] at h
  | succ fuel ih =>
    intro node ci b h hb
    rw [childLoop] at h
    cases hg : get_tree node with
    | none => simp [hg] at h
    | some p =>
      simp only [hg] at h
      cases hp : mem p with
      | none => simp [hp] at h
      | some t =>
        simp only [hp] at h
        cases hs : childScan mem total t.children 0 ci node.position false node with
        | fault => simp [hs] at h
        | timeout => simp [hs] at h
        | ok res =>
          obtain ⟨h1, h2⟩ := childScan_below mem total _ _ _ _ _ _ _ hs
          cases res with
          | returned e =>
            simp only [hs, Outcome.ok.injEq] at h
            subst h
            obtain ⟨k, c, ct, hk, hc, hv, he⟩ := h1 e rfl
            refine ⟨Below.child ⟨p, t, k, c, hg, hp, hk, he⟩, ?_⟩
            rw [he]
            simp [isVisibleHandle, ts_node_make, isVisibleAt, hc, ts_tree_is_visible, hv]
          | finished did node2 ci2 =>
            cases did with
            | false =>
              simp only [hs, Outcome.ok.injEq] at h
              subst h
              exact absurd rfl hb
            | true =>
              simp only [hs] at h
              rcases h2 node2 ci2 rfl with ⟨hf, _⟩ | ⟨k, c, ct, hk, hc, he⟩
              · cases hf
              · obtain ⟨hbel, hvis⟩ := ih node2 ci2 b h hb
                exact ⟨Below.step ⟨p, t, k, c, hg, hp, hk, he⟩ hbel, hvis⟩

/-- A handle reached by child descent is a visible handle below the one the descent began
at. -/
theorem childDescent_below {a d : TSNode} (h : ChildDescent mem total a d) :
    Below mem total a d ∧ isVisibleHandle mem d = true := by
  induction h with
  | child fuel i hc hne => exact childLoop_below mem total fuel _ i _ hc hne
  | step fuel i _ hc hne ih =>
    obtain ⟨h1, h2⟩ := childLoop_below mem total fuel _ i _ hc hne
    exact ⟨below_trans mem total ih.1 h1, h2⟩

end

/-! ## Minimality of the range lookup -/

section
variable (mem : Memory) (total : TSTree → TSLength)

theorem nestedScan_cons {f : Nat → TSLength → Bool} {lo hi c : Nat} {rest : List Nat}
    {pos : TSLength} (h : nestedScan mem total f lo hi (c :: rest) pos = true) :
    ∃ ct, mem c = some ct ∧ lo ≤ pos.chars + ct.padding.chars ∧
      pos.chars + ct.padding.chars + ct.size.chars ≤ hi ∧
      f c pos = true ∧
      nestedScan mem total f lo hi rest (ts_length_add pos (total ct)) = true := by
  rw [nestedScan] at h
  cases hc : mem c with
  | none => simp [hc] at h
  | some ct =>
    simp only [hc, Bool.and_eq_true, decide_eq_true_eq] at h
    exact ⟨ct, rfl, h.1.1.1, h.1.1.2, h.1.2, h.2⟩

/-- In a nested level the `k`-th child is in memory, its span lies between the bounds, and its
subtree satisfies the condition of the level. -/
theorem nestedScan_get (f : Nat → TSLength → Bool) (lo hi : Nat) (cs : List Nat) :
    ∀ (pos : TSLength) (k c : Nat), nestedScan mem total f lo hi cs pos = true →
      cs[k]? = some c →
      ∃ ct, mem c = some ct ∧
        lo ≤ ((totalSizes mem total (cs.take k)).foldl ts_length_add pos).chars
          + ct.padding.chars ∧
        ((totalSizes mem total (cs.take k)).foldl ts_length_add pos).chars
          + ct.padding.chars + ct.size.chars ≤ hi ∧
        f c ((totalSizes mem total (cs.take k)).foldl ts_length_add pos) = true := by
  induction cs with
  | nil => intro pos k c _ hk; simp at hk
  | cons c0 rest ih =>
    intro pos k c hn hk
    obtain ⟨ct0, hct0, hlo, hhi, hf, hrest⟩ := nestedScan_cons mem total hn
    cases k with
    | zero =>
      simp only [List.getElem?_cons_zero, Option.some.injEq] at hk
      subst hk
      refine ⟨ct0, hct0, ?_⟩
      simp only [List.take_zero, totalSizes, List.filterMap_nil, List.foldl_nil]
      exact ⟨hlo, hhi, hf⟩
    | succ k =>
      simp only [List.getElem?_cons_succ] at hk
      rw [childPos_cons mem total c0 ct0 rest hct0]
      exact ih _ k c hrest hk

theorem nested_succ {n p : Nat} {pos : TSLength} (h : nested mem total (n + 1) p pos = true) :
    ∃ t, mem p = some t ∧ pos.chars + t.padding.chars + t.size.chars < SIZE_MOD ∧
      nestedScan mem total (nested mem total n) (pos.chars + t.padding.chars)
        (pos.chars + t.padding.chars + t.size.chars) t.children pos = true := by
  rw [nested] at h
  cases hp : mem p with
  | none => simp [hp] at h
  | some t =>
    simp only [hp, Bool.and_eq_true, decide_eq_true_eq] at h
    exact ⟨t, rfl, h.1, h.2⟩

/-- The span of a child handle of a nested subtree lies within the span of its parent, and the
child heads a nested subtree. -/
theorem nested_child {n : Nat} {a b : TSNode} {p : Nat} {t : TSTree} (ha : a.data = some p)
    (ht : mem p = some t) (hn : nested mem total n p a.position = true)
    (h : isChildHandle mem total a b) :
    ∃ m c ct, b.data = some c ∧ mem c = some ct ∧ nested mem total m c b.position = true ∧
      a.position.chars + t.padding.chars ≤ b.position.chars + ct.padding.chars ∧
      b.position.chars + ct.padding.chars + ct.size.chars
        ≤ a.position.chars + t.padding.chars + t.size.chars := by
  obtain ⟨p2, t2, k, c, hp2, ht2, hk, rfl⟩ := h
  rw [ha] at hp2
  cases hp2
  rw [ht] at ht2
  cases ht2
  cases n with
  | zero => simp [nested] at hn
  | succ n =>
    obtain ⟨t2, ht2, _, hscan⟩ := nested_succ mem total hn
    rw [ht] at ht2
    cases ht2
    obtain ⟨ct, hct, h1, h2, h3⟩ := nestedScan_get mem total _ _ _ _ _ k c hscan hk
    exact ⟨n, c, ct, rfl, hct, h3, h1, h2⟩

/-- The span of a handle below a nested subtree lies within the span of the subtree, and the
handle heads a nested subtree. -/
theorem nested_below {a d : TSNode} (h : Below mem total a d) :
    ∀ (n p : Nat) (t : TSTree), a.data = some p → mem p = some t →
      nested mem total n p a.position = true →
      ∃ m c dt, d.data = some c ∧ mem c = some dt ∧ nested mem total m c d.position = true ∧
        a.position.chars + t.padding.chars ≤ d.position.chars + dt.padding.chars ∧
        d.position.chars + dt.padding.chars + dt.size.chars
          ≤ a.position.chars + t.padding.chars + t.size.chars := by
  induction h with
  | child hc => intro n p t ha ht hn; exact nested_child mem total ha ht hn hc
  | step hc _ ih =>
    intro n p t ha ht hn
    obtain ⟨m, c, ct, hb, hct, hnb, h1, h2⟩ := nested_child mem total ha ht hn hc
    obtain ⟨m2, c2, dt, hd, hdt, hnd, h3, h4⟩ := ih m c ct hb hct hnb
    exact ⟨m2, c2, dt, hd, hdt, hnd, by omega, by omega⟩

theorem nested_end_lt {n p : Nat} {pos : TSLength} {t : TSTree}
    (hn : nested mem total n p pos = true) (ht : mem p = some t) :
    pos.chars + t.padding.chars + t.size.chars < SIZE_MOD := by
  cases n with
  | zero => simp [nested] at hn
  | succ n =>
    obtain ⟨t2, ht2, h, _⟩ := nested_succ mem total hn
    rw [ht] at ht2
    cases ht2
    exact h

/-- On a nested subtree a handle that covers the range by `ts_node_pos` and `ts_node_size`
covers it with the sums not wrapped. -/
theorem spanCovers_of_coversRange {n c : Nat} {d : TSNode} {min max : Nat}
    (hd : d.data = some c) (hn : nested mem total n c d.position = true)
    (h : coversRange mem min max d) : spanCovers mem min max d := by
  obtain ⟨pr, sz, hpr, hsz, h1, h2⟩ := h
  simp only [ts_node_pos, ts_node_size, get_tree, hd] at hpr hsz
  cases hc : mem c with
  | none => simp [hc] at hpr
  | some dt =>
    have hlt := nested_end_lt mem total hn hc
    simp only [hc, Outcome.ok.injEq] at hpr hsz
    subst hpr hsz
    refine ⟨c, dt, hd, hc, ?_, ?_⟩
    · simp only [ts_length_add] at h1
      rwa [Nat.mod_eq_of_lt (by omega)] at h1
    · simp only [ts_length_add] at h2
      rwa [Nat.mod_eq_of_lt (by omega)] at h2

/-- On an ordered subtree, for `min <= max`, the loop of `ts_node_find_for_range` returns when
the fuel is at least the height. -/
theorem rangeLoop_total_of_ordered (min max : Nat) (hmm : min ≤ max) (n : Nat) :
    ∀ (p : Nat) (pos : TSLength) (fuel : Nat) (lv : TSNode),
      ordered mem total n p pos = true → n ≤ fuel →
      ∃ r, rangeLoop mem total min max fuel ⟨some p, pos⟩ lv = .ok r := by
  induction n with
  | zero => intro p pos fuel lv h; simp [ordered] at h
  | succ n ih =>
    intro p pos fuel lv hord hfuel
    obtain ⟨t, ht, hscan⟩ := ordered_succ mem total hord
    obtain ⟨f, rfl⟩ : ∃ g, fuel = g + 1 := ⟨fuel - 1, by omega⟩
    rw [rangeLoop]
    simp only [get_tree, ht]
    rcases rangeScan_find mem total _ min max hmm t.children pos
      ⟨⟨some p, pos⟩, lv, false⟩ hscan with ⟨hs, _⟩ | ⟨k, c, ct, _, _, hf, _, _, hs, _⟩
    · rw [hs]
      exact ⟨lv, by simp⟩
    · rw [hs]
      simp only [if_true, ts_node_make]
      exact ih c _ f _ hf (by omega)

/-- On an ordered and nested subtree, for `min <= max`: if every visible handle below the last
visible node that covers the range lies below the working node, then no visible handle below
the result of the loop covers the range. -/
theorem rangeLoop_minimal (min max : Nat) (hmm : min ≤ max) (n : Nat) :
    ∀ (p : Nat) (pos : TSLength) (fuel : Nat) (lv r : TSNode),
      ordered mem total n p pos = true → nested mem total n p pos = true →
      (∀ d, Below mem total lv d → isVisibleHandle mem d = true → spanCovers mem min max d →
        Below mem total ⟨some p, pos⟩ d) →
      rangeLoop mem total min max fuel ⟨some p, pos⟩ lv = .ok r →
      ∀ d, Below mem total r d → isVisibleHandle mem d = true → ¬ spanCovers mem min max d := by
  induction n with
  | zero => intro p pos fuel lv r h; simp [ordered] at h
  | succ n ih =>
    intro p pos fuel lv r hord hnest hJ hr
    obtain ⟨t, ht, hscan⟩ := ordered_succ mem total hord
    obtain ⟨t2, ht2, _, hnscan⟩ := nested_succ mem total hnest
    rw [ht] at ht2
    cases ht2
    -- a covering handle below the working node passes through a covering child
    have hthrough : ∀ d, Below mem total ⟨some p, pos⟩ d → spanCovers mem min max d →
        ∃ (j c : Nat) (ct : TSTree), t.children[j]? = some c ∧ mem c = some ct ∧
          ((totalSizes mem total (t.children.take j)).foldl ts_length_add pos).chars
            + ct.padding.chars ≤ min ∧
          max < ((totalSizes mem total (t.children.take j)).foldl ts_length_add pos).chars
            + ct.padding.chars + ct.size.chars ∧
          (d = ts_node_make (some c)
              ((totalSizes mem total (t.children.take j)).foldl ts_length_add pos) ∨
            Below mem total (ts_node_make (some c)
              ((totalSizes mem total (t.children.take j)).foldl ts_length_add pos)) d) := by
      intro d hd hcov
      obtain ⟨dc, dt, hdc, hdt, hc1, hc2⟩ := hcov
      have key : ∀ b, isChildHandle mem total ⟨some p, pos⟩ b →
          (d = b ∨ Below mem total b d) →
          ∃ (j c : Nat) (ct : TSTree), t.children[j]? = some c ∧ mem c = some ct ∧
            ((totalSizes mem total (t.children.take j)).foldl ts_length_add pos).chars
              + ct.padding.chars ≤ min ∧
            max < ((totalSizes mem total (t.children.take j)).foldl ts_length_add pos).chars
              + ct.padding.chars + ct.size.chars ∧
            (d = ts_node_make (some c)
                ((totalSizes mem total (t.children.take j)).foldl ts_length_add pos) ∨
              Below mem total (ts_node_make (some c)
                ((totalSizes mem total (t.children.take j)).foldl ts_length_add pos)) d) := by
        intro b hb hdb
        obtain ⟨p2, t2, j, c, hp2, ht2, hj, rfl⟩ := hb
        simp only [Option.some.injEq] at hp2
        subst hp2
        rw [ht] at ht2
        cases ht2
        obtain ⟨ct, hct, _, _, hnc⟩ := nestedScan_get mem total _ _ _ _ _ j c hnscan hj
        refine ⟨j, c, ct, hj, hct, ?_, ?_, hdb⟩
        · rcases hdb with rfl | hdb
          · simp only [ts_node_make, Option.some.injEq] at hdc
            subst hdc
            rw [hct] at hdt
            cases hdt
            exact hc1
          · obtain ⟨m2, c2, dt2, h1, h2, _, h3, _⟩ := nested_below mem total hdb n c ct rfl hct hnc
            rw [hdc] at h1
            cases h1
            rw [hdt] at h2
            cases h2
            simp only [ts_node_make] at h3
            omega
        · rcases hdb with rfl | hdb
          · simp only [ts_node_make, Option.some.injEq] at hdc
            subst hdc
            rw [hct] at hdt
            cases hdt
            exact hc2
          · obtain ⟨m2, c2, dt2, h1, h2, _, _, h4⟩ := nested_below mem total hdb n c ct rfl hct hnc
            rw [hdc] at h1
            cases h1
            rw [hdt] at h2
            cases h2
            simp only [ts_node_make] at h4
            omega
      cases hd with
      | child hc => exact key _ hc (Or.inl rfl)
      | step hc hb => exact key _ hc (Or.inr hb)
    cases fuel with
    | zero => simp [rangeLoop] at hr
    | succ fuel =>
      rw [rangeLoop] at hr
      simp only [get_tree, ht] at hr
      rcases rangeScan_find mem total _ min max hmm t.children pos
        ⟨⟨some p, pos⟩, lv, false⟩ hscan with ⟨hs, hno⟩ |
        ⟨k, c, ct, hk, hct, hf, _, _, hs, huniq⟩
      · rw [hs] at hr
        simp only [Bool.false_eq_true, if_false, Outcome.ok.injEq] at hr
        subst hr
        intro d hd hvis hcov
        obtain ⟨j, c, ct, hj, hct, h1, h2, _⟩ := hthrough d (hJ d hd hvis hcov) hcov
        exact hno j c ct hj hct ⟨h1, h2⟩
      · rw [hs] at hr
        simp only [if_true, ts_node_make] at hr
        obtain ⟨ct2, hct2, _, _, hnc⟩ := nestedScan_get mem total _ _ _ _ _ k c hnscan hk
        refine ih c _ fuel _ r hf hnc ?_ hr
        intro d hd hvis hcov
        cases hv : ct.visible with
        | true =>
          rw [hv] at hd
          simpa using hd
        | false =>
          rw [hv] at hd
          simp only [Bool.false_eq_true, if_false] at hd
          obtain ⟨j, c2, ct3, hj, hct3, h1, h2, hdj⟩ := hthrough d (hJ d hd hvis hcov) hcov
          have hjk := huniq j c2 ct3 hj hct3 h1 h2
          subst hjk
          rw [hk] at hj
          cases hj
          rcases hdj with rfl | hdj
          · simp [isVisibleHandle, ts_node_make, isVisibleAt, hct, ts_tree_is_visible, hv]
              at hvis
          · exact hdj

end

/-! ## The claims -/

/-- C1. On a well-formed tree, for every handle and every `i` below its child count,
`ts_node_child` returns a handle to the `i`-th node (0-based) of the flattened visible
enumeration of the handle's node. -/
theorem ts_node_child_is_nth_of_flat (mem : Memory) (total : TSTree → TSLength)
    (n p : Nat) (pos : TSLength) (i fuel cnt : Nat)
    (hwf : wf mem n p = true) (hfuel : n ≤ fuel)
    (hcnt : ts_node_child_count mem ⟨some p, pos⟩ = .ok cnt) (hi : i < cnt) :
    ∃ c position,
      ts_node_child mem total fuel ⟨some p, pos⟩ i = .ok (ts_node_make (some c) position) ∧
      (flat mem n p)[i]? = some c := by
  obtain ⟨t, ht, hvcc, hlt, _⟩ := wf_node mem hwf
  simp only [ts_node_child_count, get_tree, ht, Outcome.ok.injEq] at hcnt
  subst hcnt
  have hlen : i < (flat mem n p).length := by omega
  have hc : (flat mem n p)[i]? = some ((flat mem n p)[i]) := List.getElem?_eq_getElem hlen
  obtain ⟨position, hpos⟩ := flatPos_getElem?_data mem total pos hc
  refine ⟨_, position, ?_, hc⟩
  rw [ts_node_child, childLoop_eq mem total n p pos i fuel hwf hfuel (by omega), hpos]
  rfl

/-- The hidden wrappers of the sample tree are flattened: the child at index 2 of the node at
address 0 is the leaf at address 5. -/
theorem ts_node_child_is_nth_of_flat_witness :
    wf sampleMem 3 0 = true ∧
    ts_node_child_count sampleMem ⟨some 0, ⟨0, 0⟩⟩ = .ok 3 ∧
    ∃ c position,
      ts_node_child sampleMem paddedSize 3 ⟨some 0, ⟨0, 0⟩⟩ 2
        = .ok (ts_node_make (some c) position) ∧
      (flat sampleMem 3 0)[2]? = some c :=
  ⟨by decide, by decide,
    ts_node_child_is_nth_of_flat sampleMem paddedSize 3 0 ⟨0, 0⟩ 2 3 3
      (by decide) (by decide) (by decide) (by decide)⟩

/-- C2. On a well-formed tree, for every handle with a tree and every index `i` of type
`size_t`, `ts_node_child` returns the null handle if and only if `i` is at or past
`ts_node_child_count`; below it, the handle returned has a tree. -/
theorem ts_node_child_null_iff (mem : Memory) (total : TSTree → TSLength)
    (n p : Nat) (pos : TSLength) (i fuel cnt : Nat)
    (hwf : wf mem n p = true) (hfuel : n ≤ fuel) (hi : i < SIZE_MOD)
    (hcnt : ts_node_child_count mem ⟨some p, pos⟩ = .ok cnt) :
    ∃ r, ts_node_child mem total fuel ⟨some p, pos⟩ i = .ok r ∧
      (r = ts_node_null ↔ cnt ≤ i) ∧ (r.data = none ↔ cnt ≤ i) := by
  obtain ⟨t, ht, hvcc, hlt, _⟩ := wf_node mem hwf
  simp only [ts_node_child_count, get_tree, ht, Outcome.ok.injEq] at hcnt
  subst hcnt
  rw [ts_node_child, childLoop_eq mem total n p pos i fuel hwf hfuel hi]
  refine ⟨_, rfl, ?_⟩
  by_cases hlen : i < (flat mem n p).length
  · have hc : (flat mem n p)[i]? = some ((flat mem n p)[i]) := List.getElem?_eq_getElem hlen
    obtain ⟨position, hpos⟩ := flatPos_getElem?_data mem total pos hc
    rw [hpos]
    simp only [Option.getD_some]
    constructor
    · constructor
      · intro h; simp [ts_node_null] at h
      · intro h; omega
    · constructor
      · intro h; simp at h
      · intro h; omega
  · have hnone : (flatPos mem total n p pos)[i]? = none := by
      rw [List.getElem?_eq_none_iff, flatPos_length]; omega
    rw [hnone]
    have hle : t.visible_child_count ≤ i := by omega
    simp [hle, ts_node_null]

/-- In the sample tree the node at address 0 has three children: index 3 gives the null handle,
index 2 does not. -/
theorem ts_node_child_null_iff_witness :
    wf sampleMem 3 0 = true ∧
    ∃ r, ts_node_child sampleMem paddedSize 3 ⟨some 0, ⟨0, 0⟩⟩ 3 = .ok r ∧
      (r = ts_node_null ↔ 3 ≤ 3) ∧ (r.data = none ↔ 3 ≤ 3) :=
  ⟨by decide,
    ts_node_child_null_iff sampleMem paddedSize 3 0 ⟨0, 0⟩ 3 3 3
      (by decide) (by decide) (by decide) (by decide)⟩

/-- C3. In a well-formed tree whose root has no parent, for a visible node `x` whose
`ts_node_parent` is a handle to `a`, the node `x` has an index in the flattened visible
enumeration of `a`, and `ts_node_child` of the parent handle at that index is the handle of `x`
again: the same physical node at the same relative position. -/
theorem ts_node_child_of_parent (mem : Memory) (total : TSTree → TSLength)
    (r N : Nat) (rt : TSTree) (d x : Nat) (pos : TSLength) (fuel a : Nat) (posa : TSLength)
    (hwf : wf mem N r = true) (hr : mem r = some rt) (hroot : rt.context.parent = none)
    (hx : InTree mem r d x) (hvis : isVisibleAt mem x = true) (hpos : pos.inRange)
    (hfuel : N ≤ fuel)
    (hpar : ts_node_parent mem total fuel ⟨some x, pos⟩ = .ok ⟨some a, posa⟩) :
    List.indexOf x (flat mem N a) < (flat mem N a).length ∧
    ∃ c, ts_node_child mem total fuel ⟨some a, posa⟩ (List.indexOf x (flat mem N a)) = .ok c ∧
      c = ⟨some x, pos⟩ ∧ ts_node_eq c ⟨some x, pos⟩ = true := by
  obtain ⟨hwa, _, _, hxa, hsame⟩ :=
    parent_handle_facts mem total hwf hr hroot hx hvis hpos hfuel hpar
  obtain ⟨ta, hta, hvcc, hlt, _⟩ := wf_node mem hwa
  have hk : List.indexOf x (flat mem N a) < (flat mem N a).length :=
    List.indexOf_lt_length.2 hxa
  have hkx : (flat mem N a)[List.indexOf x (flat mem N a)]? = some x :=
    List.getElem?_indexOf hxa
  obtain ⟨q, hq⟩ := flatPos_getElem?_data mem total posa hkx
  have hqpos : q = pos := hsame q (List.mem_iff_getElem?.2 ⟨_, hq⟩)
  subst hqpos
  refine ⟨hk, ⟨some x, q⟩, ?_, rfl, ts_node_eq_self _⟩
  rw [ts_node_child, childLoop_eq mem total N a posa _ fuel hwa hfuel (by omega), hq]
  rfl

/-- In the sample tree the leaf at address 4, one character in, is the child at index 1 of its
parent, the node at address 0. -/
theorem ts_node_child_of_parent_witness :
    wf sampleMem 3 0 = true ∧ InTree sampleMem 0 2 4 ∧ isVisibleAt sampleMem 4 = true ∧
    ts_node_parent sampleMem paddedSize 3 ⟨some 4, ⟨1, 1⟩⟩ = .ok ⟨some 0, ⟨0, 0⟩⟩ ∧
    List.indexOf 4 (flat sampleMem 3 0) < (flat sampleMem 3 0).length ∧
    ∃ c, ts_node_child sampleMem paddedSize 3 ⟨some 0, ⟨0, 0⟩⟩
        (List.indexOf 4 (flat sampleMem 3 0)) = .ok c ∧
      c = ⟨some 4, ⟨1, 1⟩⟩ ∧ ts_node_eq c ⟨some 4, ⟨1, 1⟩⟩ = true := by
  have hin : InTree sampleMem 0 2 4 :=
    InTree.child (i := 1) (InTree.child (i := 0) InTree.root rfl rfl) rfl rfl
  exact ⟨by decide, hin, by decide, by decide,
    ts_node_child_of_parent sampleMem paddedSize 0 3 _ 2 4 ⟨1, 1⟩ 3 0 ⟨0, 0⟩
      (by decide) rfl rfl hin (by decide) (by decide) (by decide) (by decide)⟩

/-- C4. In a well-formed tree, for a visible handle `p` and `i` below its child count,
`ts_node_parent` of `ts_node_child(p, i)` is `p` again: the same physical node at the same
relative position, so with the same `ts_node_pos`. In particular, when the root has no parent,
for a visible node `x` with `ts_node_parent(x)` a handle `P` and `k` the index of `x` in the
flattened enumeration of `P`, the parent of `ts_node_child(P, k)` is `P` again. -/
theorem ts_node_parent_of_child (mem : Memory) (total : TSTree → TSLength)
    (r N fuel : Nat) (hwf : wf mem N r = true) (hfuel : N ≤ fuel) :
    (∀ (dp p : Nat) (pos : TSLength) (i cnt : Nat),
      InTree mem r dp p → isVisibleAt mem p = true → pos.inRange →
      ts_node_child_count mem ⟨some p, pos⟩ = .ok cnt → i < cnt →
      ∃ c back, ts_node_child mem total fuel ⟨some p, pos⟩ i = .ok c ∧
        ts_node_parent mem total fuel c = .ok back ∧
        back = ⟨some p, pos⟩ ∧ ts_node_eq back ⟨some p, pos⟩ = true ∧
        ts_node_pos mem back = ts_node_pos mem ⟨some p, pos⟩) ∧
    (∀ (rt : TSTree) (d x : Nat) (posx : TSLength) (a : Nat) (posa : TSLength),
      mem r = some rt → rt.context.parent = none → InTree mem r d x →
      isVisibleAt mem x = true → posx.inRange →
      ts_node_parent mem total fuel ⟨some x, posx⟩ = .ok ⟨some a, posa⟩ →
      ∃ c, ts_node_child mem total fuel ⟨some a, posa⟩ (List.indexOf x (flat mem N a)) = .ok c ∧
        ts_node_parent mem total fuel c = .ok ⟨some a, posa⟩) := by
  have part1 : ∀ (q : Nat) (posq : TSLength) (j : Nat), wf mem N q = true →
      isVisibleAt mem q = true → posq.inRange →
      (∀ t, mem q = some t → j < t.visible_child_count) →
      ∃ c, ts_node_child mem total fuel ⟨some q, posq⟩ j = .ok c ∧
        ts_node_parent mem total fuel c = .ok ⟨some q, posq⟩ := by
    intro q posq j hwq hvq hposq hj
    obtain ⟨t, ht, hvcc, hlt, _⟩ := wf_node mem hwq
    have hjt := hj t ht
    have hlen : j < (flatPos mem total N q posq).length := by rw [flatPos_length]; omega
    have he : (flatPos mem total N q posq)[j]? = some ((flatPos mem total N q posq)[j]) :=
      List.getElem?_eq_getElem hlen
    obtain ⟨x, px, hx, _, hclimb⟩ :=
      parentLoop_of_flatPos mem total N q t posq _ hwq ht hposq (List.getElem_mem hlen)
    have hv : t.visible = true := by simpa [isVisibleAt, ht, ts_tree_is_visible] using hvq
    have hpar := hclimb 0 ⟨some q, posq⟩ (by simp [hv])
    refine ⟨(flatPos mem total N q posq)[j], ?_, ?_⟩
    · rw [ts_node_child, childLoop_eq mem total N q posq j fuel hwq hfuel (by omega), he]
      rfl
    · rw [hx, ts_node_parent]
      exact parentLoop_mono_le mem total (by omega) hpar
  constructor
  · intro dp p pos i cnt hp hvis hpos hcnt hi
    obtain ⟨c, hc, hback⟩ := part1 p pos i (hp.node_wf mem hwf) hvis hpos (by
      intro t ht
      simp only [ts_node_child_count, get_tree, ht, Outcome.ok.injEq] at hcnt
      omega)
    exact ⟨c, ⟨some p, pos⟩, hc, hback, rfl, ts_node_eq_self _, rfl⟩
  · intro rt d x posx a posa hr hroot hx hvx hposx hpar
    obtain ⟨hwa, hva, hposa, hxa, _⟩ :=
      parent_handle_facts mem total hwf hr hroot hx hvx hposx hfuel hpar
    apply part1 a posa _ hwa hva hposa
    intro t ht
    obtain ⟨t', ht', hvcc, _⟩ := wf_node mem hwa
    rw [ht] at ht'; cases ht'
    rw [hvcc]
    exact List.indexOf_lt_length.2 hxa

/-- In the sample tree the parent of the child at index 1 of the node at address 0 is that node
again. -/
theorem ts_node_parent_of_child_witness :
    wf sampleMem 3 0 = true ∧ InTree sampleMem 0 0 0 ∧ isVisibleAt sampleMem 0 = true ∧
    ∃ c back, ts_node_child sampleMem paddedSize 3 ⟨some 0, ⟨0, 0⟩⟩ 1 = .ok c ∧
      ts_node_parent sampleMem paddedSize 3 c = .ok back ∧
      back = ⟨some 0, ⟨0, 0⟩⟩ ∧ ts_node_eq back ⟨some 0, ⟨0, 0⟩⟩ = true ∧
      ts_node_pos sampleMem back = ts_node_pos sampleMem ⟨some 0, ⟨0, 0⟩⟩ :=
  ⟨by decide, InTree.root, by decide,
    (ts_node_parent_of_child sampleMem paddedSize 0 3 3 (by decide) (by decide)).1
      0 0 ⟨0, 0⟩ 1 3 InTree.root (by decide) (by decide) (by decide) (by decide)⟩

/-- C5, evaluated. In the sample tree the children at indices 1 and 2 of the node at address 0
sit under different hidden wrappers. `ts_node_next_sibling` of the first is a handle to the
right node, the leaf at address 5, but at position 4 where `ts_node_child` has position 3: the
two handles are not equal under `ts_node_eq`. -/
theorem ts_node_next_sibling_position_after_climb :
    wf sampleMem 3 0 = true ∧
    ts_node_child sampleMem paddedSize 3 ⟨some 0, ⟨0, 0⟩⟩ 1 = .ok ⟨some 4, ⟨1, 1⟩⟩ ∧
    ts_node_child sampleMem paddedSize 3 ⟨some 0, ⟨0, 0⟩⟩ 2 = .ok ⟨some 5, ⟨3, 3⟩⟩ ∧
    ts_node_next_sibling sampleMem paddedSize 3 ⟨some 4, ⟨1, 1⟩⟩ = .ok ⟨some 5, ⟨4, 4⟩⟩ ∧
    ts_node_eq ⟨some 5, ⟨4, 4⟩⟩ ⟨some 5, ⟨3, 3⟩⟩ = false ∧
    ts_node_prev_sibling sampleMem paddedSize 3 ⟨some 5, ⟨3, 3⟩⟩ = .ok ⟨some 4, ⟨1, 1⟩⟩ := by
  decide

/-- C6. On a well-formed tree, for a visible handle `p` and `i + 1` below its child count,
`ts_node_prev_sibling` of `ts_node_child(p, i + 1)` is `ts_node_child(p, i)`: the same physical
node at the same relative position, whatever hidden wrappers the two nodes sit under. -/
theorem ts_node_prev_sibling_of_child (mem : Memory) (total : TSTree → TSLength)
    (n p : Nat) (pos : TSLength) (i fuel cnt : Nat)
    (hwf : wf mem n p = true) (hvis : isVisibleAt mem p = true) (hpos : pos.inRange)
    (hfuel : n ≤ fuel)
    (hcnt : ts_node_child_count mem ⟨some p, pos⟩ = .ok cnt) (hi : i + 1 < cnt) :
    ∃ a b r, ts_node_child mem total fuel ⟨some p, pos⟩ i = .ok a ∧
      ts_node_child mem total fuel ⟨some p, pos⟩ (i + 1) = .ok b ∧
      ts_node_prev_sibling mem total fuel b = .ok r ∧
      r = a ∧ ts_node_eq r a = true := by
  obtain ⟨t, ht, hvcc, hlt, _⟩ := wf_node mem hwf
  simp only [ts_node_child_count, get_tree, ht, Outcome.ok.injEq] at hcnt
  subst hcnt
  have hv : t.visible = true := by simpa [isVisibleAt, ht, ts_tree_is_visible] using hvis
  obtain ⟨a, _, ha, _, _⟩ :=
    siblings_of_child mem total n p t pos i fuel hwf ht hv hpos hfuel (by omega)
  obtain ⟨b, _, hb, hprev, _⟩ :=
    siblings_of_child mem total n p t pos (i + 1) fuel hwf ht hv hpos hfuel hi
  refine ⟨a, b, a, ha, hb, ?_, rfl, ts_node_eq_self a⟩
  rw [hprev]
  rw [ts_node_child, childLoop_eq mem total n p pos i fuel hwf hfuel (by omega)] at ha
  exact ha

/-- In the sample tree the children at indices 1 and 2 of the node at address 0 sit under
different hidden wrappers, and the previous sibling of the second is the first. -/
theorem ts_node_prev_sibling_of_child_witness :
    wf sampleMem 3 0 = true ∧ isVisibleAt sampleMem 0 = true ∧
    ∃ a b r, ts_node_child sampleMem paddedSize 3 ⟨some 0, ⟨0, 0⟩⟩ 1 = .ok a ∧
      ts_node_child sampleMem paddedSize 3 ⟨some 0, ⟨0, 0⟩⟩ (1 + 1) = .ok b ∧
      ts_node_prev_sibling sampleMem paddedSize 3 b = .ok r ∧
      r = a ∧ ts_node_eq r a = true :=
  ⟨by decide, by decide,
    ts_node_prev_sibling_of_child sampleMem paddedSize 3 0 ⟨0, 0⟩ 1 3 3
      (by decide) (by decide) (by decide) (by decide) (by decide) (by decide)⟩

/-- C7. In a well-formed tree whose root has no parent, `ts_node_parent` of a handle to the node
at `x` returns the handle whose node is the nearest visible strict ancestor and whose position
is the handle's position less the total sizes of the physical siblings before each node of the
path from `x` up to that ancestor; it returns the null handle exactly when no strict ancestor is
visible, and so for the root. -/
theorem ts_node_parent_nearest_visible (mem : Memory) (total : TSTree → TSLength)
    (r N : Nat) (rt : TSTree) (d x : Nat) (pos : TSLength) (fuel : Nat)
    (hwf : wf mem N r = true) (hr : mem r = some rt) (hroot : rt.context.parent = none)
    (hx : InTree mem r d x) (hfuel : N ≤ fuel) :
    (ancestors mem d x).length = d ∧
    ts_node_parent mem total fuel ⟨some x, pos⟩ =
      .ok (match nearestVisibleAncestor mem d x with
        | none => ⟨none, ⟨0, 0⟩⟩
        | some a =>
          ⟨some a,
            ((pathBelowAncestor mem d x).map (sizesBefore mem total)).flatten.foldl
              ts_length_sub pos⟩) ∧
    (∀ a, nearestVisibleAncestor mem d x = some a →
      (∃ da, InTree mem r da a) ∧ isVisibleAt mem a = true ∧ a ∈ ancestors mem d x ∧
      (∀ b ∈ (pathBelowAncestor mem d x).tail, isVisibleAt mem b = false)) ∧
    (ts_node_parent mem total fuel ⟨some x, pos⟩ = .ok ⟨none, ⟨0, 0⟩⟩ ↔
      ∀ a ∈ ancestors mem d x, isVisibleAt mem a = false) ∧
    ts_node_parent mem total fuel ⟨some r, pos⟩ = .ok ⟨none, ⟨0, 0⟩⟩ := by
  have hd := hx.depth_lt mem hwf
  have hexp : expectedParent mem total d x pos =
      (match nearestVisibleAncestor mem d x with
        | none => ⟨none, ⟨0, 0⟩⟩
        | some a =>
          ⟨some a,
            ((pathBelowAncestor mem d x).map (sizesBefore mem total)).flatten.foldl
              ts_length_sub pos⟩) := by
    rw [expectedParent]
    cases nearestVisibleAncestor mem d x <;> rfl
  have hmain : ts_node_parent mem total fuel ⟨some x, pos⟩ =
      .ok (match nearestVisibleAncestor mem d x with
        | none => ⟨none, ⟨0, 0⟩⟩
        | some a =>
          ⟨some a,
            ((pathBelowAncestor mem d x).map (sizesBefore mem total)).flatten.foldl
              ts_length_sub pos⟩) := by
    rw [ts_node_parent, ← hexp]
    exact parentLoop_expected mem total hwf hr hroot hx pos fuel (by omega)
  refine ⟨ancestors_length mem N hwf hx, hmain, ?_, ?_, ?_⟩
  · intro a ha
    obtain ⟨h1, h2, _, _⟩ := nearestVisibleAncestor_spec mem hwf hx a ha
    refine ⟨h1, h2, ?_, ?_⟩
    · rw [nearestVisibleAncestor] at ha
      exact List.mem_of_find?_eq_some ha
    · intro b hb
      simp only [pathBelowAncestor, List.tail_cons] at hb
      have := List.mem_takeWhile_imp hb
      simpa using this
  · rw [hmain]
    cases hf : nearestVisibleAncestor mem d x with
    | none =>
      simp only [true_iff]
      rw [nearestVisibleAncestor] at hf
      intro a ha
      have := List.find?_eq_none.1 hf a ha
      simpa using this
    | some a =>
      rw [nearestVisibleAncestor] at hf
      have hva := List.find?_some hf
      have hma := List.mem_of_find?_eq_some hf
      constructor
      · intro h
        simp at h
      · intro h
        have := h a hma
        simp [hva] at this
  · have h0 := parentLoop_expected mem total hwf hr hroot (@InTree.root mem r)
      pos fuel (by omega)
    rw [ts_node_parent]
    simpa [expectedParent, nearestVisibleAncestor, ancestors, ts_node_null, ts_length_zero]
      using h0

/-- In the third sample tree the leaf at address 5 stands at position 3: two characters of the
leaf before its visible ancestor, one of the leaf before it in the hidden wrapper. Its parent
is the visible node at address 2, at position 2: the one character is subtracted, the two
remain. -/
theorem ts_node_parent_nearest_visible_witness :
    wf sampleMem3 4 0 = true ∧ InTree sampleMem3 0 3 5 ∧
    ts_node_child sampleMem3 paddedSize 4 ⟨some 2, ⟨2, 2⟩⟩ 1 = .ok ⟨some 5, ⟨3, 3⟩⟩ ∧
    nearestVisibleAncestor sampleMem3 3 5 = some 2 ∧
    ts_node_parent sampleMem3 paddedSize 4 ⟨some 5, ⟨3, 3⟩⟩ = .ok ⟨some 2, ⟨2, 2⟩⟩ := by
  have hin : InTree sampleMem3 0 3 5 :=
    InTree.child (i := 1) (InTree.child (i := 0)
      (InTree.child (i := 1) InTree.root rfl rfl) rfl rfl) rfl rfl
  have h := (ts_node_parent_nearest_visible sampleMem3 paddedSize 0 4 _ 3 5 ⟨3, 3⟩ 4
    (by decide) rfl rfl hin (by decide)).2.1
  exact ⟨by decide, hin, by decide, by decide, h.trans (by decide)⟩

/-- C8. Whatever `ts_node_parent`, `ts_node_child`, `ts_node_prev_sibling` and
`ts_node_next_sibling` return for a handle with a tree is the null handle or a handle whose
physical node is visible, never a hidden node; and in a well-formed tree whose root has no
parent each of the four does return, for every node, position and `size_t` index. -/
theorem ts_node_navigation_returns_visible (mem : Memory) (total : TSTree → TSLength) :
    (∀ (fuel x : Nat) (pos : TSLength) (i : Nat) (r : TSNode),
      (ts_node_parent mem total fuel ⟨some x, pos⟩ = .ok r ∨
       ts_node_child mem total fuel ⟨some x, pos⟩ i = .ok r ∨
       ts_node_prev_sibling mem total fuel ⟨some x, pos⟩ = .ok r ∨
       ts_node_next_sibling mem total fuel ⟨some x, pos⟩ = .ok r) →
      r = ts_node_null ∨ ∃ y, r.data = some y ∧ isVisibleAt mem y = true) ∧
    (∀ (r0 N : Nat) (rt : TSTree) (d x : Nat) (pos : TSLength) (i fuel : Nat),
      wf mem N r0 = true → mem r0 = some rt → rt.context.parent = none →
      InTree mem r0 d x → i < SIZE_MOD → N ≤ fuel →
      (∃ r, ts_node_parent mem total fuel ⟨some x, pos⟩ = .ok r) ∧
      (∃ r, ts_node_child mem total fuel ⟨some x, pos⟩ i = .ok r) ∧
      (∃ r, ts_node_prev_sibling mem total fuel ⟨some x, pos⟩ = .ok r) ∧
      (∃ r, ts_node_next_sibling mem total fuel ⟨some x, pos⟩ = .ok r)) := by
  constructor
  · intro fuel x pos i r h
    rcases h with h | h | h | h
    · exact parentLoop_visible mem total fuel x pos r h
    · exact childLoop_visible mem total fuel _ i r h
    · exact prevLoop_visible mem total fuel fuel x pos r h
    · exact nextLoop_visible mem total fuel fuel x pos r h
  · intro r0 N rt d x pos i fuel hwf hr hroot hx hi hfuel
    have hd := hx.depth_lt mem hwf
    refine ⟨⟨_, parentLoop_expected mem total hwf hr hroot hx pos fuel (by omega)⟩,
      ⟨_, childLoop_eq mem total N x pos i fuel (hx.node_wf mem hwf) hfuel hi⟩, ?_, ?_⟩
    · exact prevLoop_total mem total hwf hr hroot fuel hfuel hx pos fuel (by omega)
    · exact nextLoop_total mem total hwf hr hroot fuel hfuel hx pos fuel (by omega)

/-- In the sample tree the four functions return from the hidden wrapper at address 1, and the
parent returned is the visible node at address 0. -/
theorem ts_node_navigation_returns_visible_witness :
    wf sampleMem 3 0 = true ∧ InTree sampleMem 0 1 1 ∧
    ((∃ r, ts_node_parent sampleMem paddedSize 3 ⟨some 1, ⟨0, 0⟩⟩ = .ok r) ∧
     (∃ r, ts_node_child sampleMem paddedSize 3 ⟨some 1, ⟨0, 0⟩⟩ 0 = .ok r) ∧
     (∃ r, ts_node_prev_sibling sampleMem paddedSize 3 ⟨some 1, ⟨0, 0⟩⟩ = .ok r) ∧
     (∃ r, ts_node_next_sibling sampleMem paddedSize 3 ⟨some 1, ⟨0, 0⟩⟩ = .ok r)) ∧
    ts_node_parent sampleMem paddedSize 3 ⟨some 1, ⟨0, 0⟩⟩ = .ok ⟨some 0, ⟨0, 0⟩⟩ ∧
    ((⟨some 0, ⟨0, 0⟩⟩ : TSNode) = ts_node_null ∨
      ∃ y, (⟨some 0, ⟨0, 0⟩⟩ : TSNode).data = some y ∧ isVisibleAt sampleMem y = true) := by
  have hin : InTree sampleMem 0 1 1 := InTree.child (i := 0) InTree.root rfl rfl
  have h := ts_node_navigation_returns_visible sampleMem paddedSize
  exact ⟨by decide, hin,
    h.2 0 3 _ 1 1 ⟨0, 0⟩ 0 3 (by decide) rfl rfl hin (by decide) (by decide),
    by decide, h.1 3 1 ⟨0, 0⟩ 0 _ (Or.inl (by decide))⟩

/-- C9. On a well-formed tree, for a visible handle `p` with child count `cnt > 0`:
`ts_node_prev_sibling` of the first child and `ts_node_next_sibling` of the last child are the
null handle, and from every child both searches give the null handle or a node of the flattened
enumeration of `p`. -/
theorem ts_node_sibling_no_wraparound (mem : Memory) (total : TSTree → TSLength)
    (n p : Nat) (pos : TSLength) (fuel cnt : Nat)
    (hwf : wf mem n p = true) (hvis : isVisibleAt mem p = true) (hpos : pos.inRange)
    (hfuel : n ≤ fuel)
    (hcnt : ts_node_child_count mem ⟨some p, pos⟩ = .ok cnt) (hc : 0 < cnt) :
    (∃ first, ts_node_child mem total fuel ⟨some p, pos⟩ 0 = .ok first ∧
      ts_node_prev_sibling mem total fuel first = .ok ts_node_null) ∧
    (∃ last, ts_node_child mem total fuel ⟨some p, pos⟩ (cnt - 1) = .ok last ∧
      ts_node_next_sibling mem total fuel last = .ok ts_node_null) ∧
    (∀ i, i < cnt → ∃ c rp rn, ts_node_child mem total fuel ⟨some p, pos⟩ i = .ok c ∧
      ts_node_prev_sibling mem total fuel c = .ok rp ∧
      ts_node_next_sibling mem total fuel c = .ok rn ∧
      (rp = ts_node_null ∨ ∃ y, rp.data = some y ∧ y ∈ flat mem n p) ∧
      (rn = ts_node_null ∨ ∃ y, rn.data = some y ∧ y ∈ flat mem n p)) := by
  obtain ⟨t, ht, hvcc, hlt, _⟩ := wf_node mem hwf
  simp only [ts_node_child_count, get_tree, ht, Outcome.ok.injEq] at hcnt
  subst hcnt
  have hv : t.visible = true := by simpa [isVisibleAt, ht, ts_tree_is_visible] using hvis
  have hsib := fun i hi => siblings_of_child mem total n p t pos i fuel hwf ht hv hpos hfuel hi
  refine ⟨?_, ?_, ?_⟩
  · obtain ⟨c, _, hchild, hprev, _⟩ := hsib 0 hc
    exact ⟨c, hchild, hprev⟩
  · obtain ⟨c, _, hchild, _, rn, hnext, hmatch⟩ := hsib (t.visible_child_count - 1) (by omega)
    have hnone : (flat mem n p)[t.visible_child_count - 1 + 1]? = none := by
      rw [List.getElem?_eq_none_iff]; omega
    rw [hnone] at hmatch
    simp only at hmatch
    subst hmatch
    exact ⟨c, hchild, hnext⟩
  · intro i hi
    obtain ⟨c, _, hchild, hprev, rn, hnext, hmatch⟩ := hsib i hi
    refine ⟨c, _, rn, hchild, hprev, hnext, ?_, ?_⟩
    · cases i with
      | zero => left; rfl
      | succ j =>
        right
        have hj : j < (flat mem n p).length := by omega
        have hx : (flat mem n p)[j]? = some ((flat mem n p)[j]) := List.getElem?_eq_getElem hj
        obtain ⟨q, hq⟩ := flatPos_getElem?_data mem total pos hx
        refine ⟨(flat mem n p)[j], ?_, List.getElem_mem _⟩
        simp [hq]
    · cases hy : (flat mem n p)[i + 1]? with
      | none => left; simpa [hy] using hmatch
      | some y =>
        right
        exact ⟨y, by simpa [hy] using hmatch, List.mem_iff_getElem?.2 ⟨_, hy⟩⟩

/-- In the sample tree the node at address 0 has three children: the first has no previous
sibling and the last no next sibling. -/
theorem ts_node_sibling_no_wraparound_witness :
    wf sampleMem 3 0 = true ∧ isVisibleAt sampleMem 0 = true ∧
    (∃ first, ts_node_child sampleMem paddedSize 3 ⟨some 0, ⟨0, 0⟩⟩ 0 = .ok first ∧
      ts_node_prev_sibling sampleMem paddedSize 3 first = .ok ts_node_null) ∧
    (∃ last, ts_node_child sampleMem paddedSize 3 ⟨some 0, ⟨0, 0⟩⟩ (3 - 1) = .ok last ∧
      ts_node_next_sibling sampleMem paddedSize 3 last = .ok ts_node_null) :=
  have h := ts_node_sibling_no_wraparound sampleMem paddedSize 3 0 ⟨0, 0⟩ 3 3
    (by decide) (by decide) (by decide) (by decide) (by decide) (by decide)
  ⟨by decide, by decide, h.1, h.2.1⟩

/-- C10, as the code has it. On a well-formed tree `ts_node_find_for_range` returns, and the
node returned is the input handle itself or a node `n` with `ts_node_pos(n).chars <= min` and
`ts_node_pos(n).chars + ts_node_size(n).chars > max`; so the node returned contains the range
whenever the input handle does. -/
theorem ts_node_find_for_range_contains (mem : Memory) (total : TSTree → TSLength)
    (n p : Nat) (pos : TSLength) (min max fuel : Nat)
    (hwf : wf mem n p = true) (hfuel : n ≤ fuel) :
    ∃ r, ts_node_find_for_range mem total fuel ⟨some p, pos⟩ min max = .ok r ∧
      (r = ⟨some p, pos⟩ ∨
        ∃ pr sz, ts_node_pos mem r = .ok pr ∧ ts_node_size mem r = .ok sz ∧
          pr.chars ≤ min ∧ pr.chars + sz.chars > max) ∧
      ((∃ pr sz, ts_node_pos mem ⟨some p, pos⟩ = .ok pr ∧
          ts_node_size mem ⟨some p, pos⟩ = .ok sz ∧
          pr.chars ≤ min ∧ pr.chars + sz.chars ≥ max) →
        ∃ pr sz, ts_node_pos mem r = .ok pr ∧ ts_node_size mem r = .ok sz ∧
          pr.chars ≤ min ∧ pr.chars + sz.chars ≥ max) := by
  obtain ⟨r, hr, hq⟩ := rangeLoop_inv mem total min max ⟨some p, pos⟩ n p ⟨some p, pos⟩
    ⟨some p, pos⟩ fuel hwf rfl (Or.inl rfl) hfuel
  refine ⟨r, hr, hq, ?_⟩
  intro hthis
  rcases hq with rfl | ⟨pr, sz, h1, h2, h3, h4⟩
  · exact hthis
  · exact ⟨pr, sz, h1, h2, h3, by omega⟩

/-- In the sample tree the search for the characters 1 to 2 from the node at address 0 ends at
the leaf at address 4, which starts at 1 and is 2 long. -/
theorem ts_node_find_for_range_contains_witness :
    wf sampleMem 3 0 = true ∧
    ts_node_find_for_range sampleMem paddedSize 3 ⟨some 0, ⟨0, 0⟩⟩ 1 2 = .ok ⟨some 4, ⟨1, 1⟩⟩ ∧
    ∃ r, ts_node_find_for_range sampleMem paddedSize 3 ⟨some 0, ⟨0, 0⟩⟩ 1 2 = .ok r ∧
      (r = ⟨some 0, ⟨0, 0⟩⟩ ∨
        ∃ pr sz, ts_node_pos sampleMem r = .ok pr ∧ ts_node_size sampleMem r = .ok sz ∧
          pr.chars ≤ 1 ∧ pr.chars + sz.chars > 2) ∧
      ((∃ pr sz, ts_node_pos sampleMem ⟨some 0, ⟨0, 0⟩⟩ = .ok pr ∧
          ts_node_size sampleMem ⟨some 0, ⟨0, 0⟩⟩ = .ok sz ∧
          pr.chars ≤ 1 ∧ pr.chars + sz.chars ≥ 2) →
        ∃ pr sz, ts_node_pos sampleMem r = .ok pr ∧ ts_node_size sampleMem r = .ok sz ∧
          pr.chars ≤ 1 ∧ pr.chars + sz.chars ≥ 2) :=
  ⟨by decide, by decide,
    ts_node_find_for_range_contains sampleMem paddedSize 3 0 ⟨0, 0⟩ 1 2 3
      (by decide) (by decide)⟩

/-- C10 as stated fails. In the sample tree, six characters long, the search for the range from
0 to 100 returns the input handle, which ends at 6, before 100. -/
theorem ts_node_find_for_range_returns_input :
    ∃ r pr sz,
      ts_node_find_for_range sampleMem paddedSize 3 ⟨some 0, ⟨0, 0⟩⟩ 0 100 = .ok r ∧
      ts_node_pos sampleMem r = .ok pr ∧ ts_node_size sampleMem r = .ok sz ∧
      ¬ (pr.chars ≤ 0 ∧ pr.chars + sz.chars ≥ 100) :=
  ⟨⟨some 0, ⟨0, 0⟩⟩, ⟨0, 0⟩, ⟨6, 6⟩, by decide, by decide, by decide, by decide⟩

/-- C11, as the code has it. On a subtree whose children are laid out in non-decreasing,
non-overlapping order (`ordered`) with the span of every child inside the span of its parent and
no span wrapping (`nested`), for `min <= max` and fuel at least the height,
`ts_node_find_for_range` returns a handle `r` such that no visible handle `d` below `r`, and so
no handle `d` reached from `r` by child descent, has `ts_node_pos(d).chars <= min` and
`ts_node_pos(d).chars + ts_node_size(d).chars > max`: the test of the code is strict at
`max`. -/
theorem ts_node_find_for_range_minimal (mem : Memory) (total : TSTree → TSLength)
    (n p : Nat) (pos : TSLength) (min max fuel : Nat)
    (hord : ordered mem total n p pos = true) (hnest : nested mem total n p pos = true)
    (hmm : min ≤ max) (hfuel : n ≤ fuel) :
    ∃ r, ts_node_find_for_range mem total fuel ⟨some p, pos⟩ min max = .ok r ∧
      (∀ d, Below mem total r d → isVisibleHandle mem d = true →
        ¬ coversRange mem min max d) ∧
      (∀ d, ChildDescent mem total r d → ¬ coversRange mem min max d) := by
  obtain ⟨r, hr⟩ := rangeLoop_total_of_ordered mem total min max hmm n p pos fuel
    ⟨some p, pos⟩ hord hfuel
  have hmin := rangeLoop_minimal mem total min max hmm n p pos fuel ⟨some p, pos⟩ r hord hnest
    (fun d hd _ _ => hd) hr
  have hbelow : r = ⟨some p, pos⟩ ∨ Below mem total ⟨some p, pos⟩ r := by
    have h := hr
    rw [rangeLoop_eq_trace] at h
    cases htr : rangeLoopTrace mem total min max fuel ⟨some p, pos⟩ ⟨some p, pos⟩ with
    | fault => simp [htr] at h
    | timeout => simp [htr] at h
    | ok rp =>
      obtain ⟨r2, path⟩ := rp
      simp only [htr, Outcome.ok.injEq] at h
      subst h
      rcases (rangeLoopTrace_inv mem total min max ⟨some p, pos⟩ fuel _ _ r2 path
        (Or.inl rfl) (Or.inl rfl) htr).1 with h1 | ⟨h1, _⟩
      · exact Or.inl h1
      · exact Or.inr h1
  have hp : ∃ t, mem p = some t := by
    cases n with
    | zero => simp [ordered] at hord
    | succ n =>
      obtain ⟨t, ht, _⟩ := ordered_succ mem total hord
      exact ⟨t, ht⟩
  obtain ⟨t, ht⟩ := hp
  have hvis : ∀ d, Below mem total r d → isVisibleHandle mem d = true →
      ¬ coversRange mem min max d := by
    intro d hd hv hcov
    have hd2 : Below mem total ⟨some p, pos⟩ d := by
      rcases hbelow with rfl | hb
      · exact hd
      · exact below_trans mem total hb hd
    obtain ⟨m, c, dt, hdc, _, hnd, _, _⟩ := nested_below mem total hd2 n p t rfl ht hnest
    exact hmin d hd hv (spanCovers_of_coversRange mem total hdc hnd hcov)
  refine ⟨r, hr, hvis, ?_⟩
  intro d hd
  obtain ⟨h1, h2⟩ := childDescent_below mem total hd
  exact hvis d h1 h2

/-- In the sample tree the search for the characters 0 to 3 returns the node at address 0: the
first wrapper ends at 3 and the second starts there. No leaf covers the range; the first child
by `ts_node_child`, the leaf at address 3, is reached by child descent. -/
theorem ts_node_find_for_range_minimal_witness :
    ordered sampleMem paddedSize 3 0 ⟨0, 0⟩ = true ∧
    nested sampleMem paddedSize 3 0 ⟨0, 0⟩ = true ∧
    ts_node_find_for_range sampleMem paddedSize 3 ⟨some 0, ⟨0, 0⟩⟩ 0 3
      = .ok ⟨some 0, ⟨0, 0⟩⟩ ∧
    ChildDescent sampleMem paddedSize ⟨some 0, ⟨0, 0⟩⟩ ⟨some 3, ⟨0, 0⟩⟩ ∧
    ∃ r, ts_node_find_for_range sampleMem paddedSize 3 ⟨some 0, ⟨0, 0⟩⟩ 0 3 = .ok r ∧
      (∀ d, Below sampleMem paddedSize r d → isVisibleHandle sampleMem d = true →
        ¬ coversRange sampleMem 0 3 d) ∧
      (∀ d, ChildDescent sampleMem paddedSize r d → ¬ coversRange sampleMem 0 3 d) :=
  ⟨by decide, by decide, by decide,
    ChildDescent.child 3 0 (by decide) (by decide),
    ts_node_find_for_range_minimal sampleMem paddedSize 3 0 ⟨0, 0⟩ 0 3 3
      (by decide) (by decide) (by decide) (by decide)⟩

/-- C11 as stated fails. In the sample tree, well formed and laid out in order, the search for
the range from 0 to 1 returns the node at address 0, yet its first child by `ts_node_child`,
the leaf at address 3, starts at 0 and ends at 1: it has `start <= min` and
`start + extent >= max`. -/
theorem ts_node_find_for_range_not_minimal :
    wf sampleMem 3 0 = true ∧
    ordered sampleMem paddedSize 3 0 ⟨0, 0⟩ = true ∧
    nested sampleMem paddedSize 3 0 ⟨0, 0⟩ = true ∧
    ∃ r d pr sz,
      ts_node_find_for_range sampleMem paddedSize 3 ⟨some 0, ⟨0, 0⟩⟩ 0 1 = .ok r ∧
      ts_node_child sampleMem paddedSize 3 r 0 = .ok d ∧ d.data ≠ none ∧
      ts_node_pos sampleMem d = .ok pr ∧ ts_node_size sampleMem d = .ok sz ∧
      pr.chars ≤ 0 ∧ pr.chars + sz.chars ≥ 1 :=
  ⟨by decide, by decide, by decide,
    ⟨some 0, ⟨0, 0⟩⟩, ⟨some 3, ⟨0, 0⟩⟩, ⟨0, 0⟩, ⟨1, 1⟩,
    by decide, by decide, by decide, by decide, by decide, by decide, by decide⟩

/-- C12, as the code has it. None of `ts_node_parent`, `ts_node_child` and
`ts_node_prev_sibling` tests its handle for the null handle: each reads the tree behind the
handle first (`tree->context.parent`, `tree->child_count`), so on the null handle the call
faults, whatever the memory, and returns no handle; `ts_node_next_sibling` does the same. -/
theorem ts_node_navigation_null_faults (mem : Memory) (total : TSTree → TSLength)
    (fuel i : Nat) :
    ts_node_parent mem total fuel ts_node_null = .fault ∧
    ts_node_child mem total (fuel + 1) ts_node_null i = .fault ∧
    ts_node_prev_sibling mem total fuel ts_node_null = .fault ∧
    ts_node_next_sibling mem total fuel ts_node_null = .fault ∧
    (∀ r, ts_node_child mem total fuel ts_node_null i ≠ .ok r) := by
  refine ⟨rfl, rfl, rfl, rfl, ?_⟩
  intro r h
  cases fuel with
  | zero => simp [ts_node_child, childLoop] at h
  | succ f => simp [ts_node_child, childLoop, get_tree, ts_node_null] at h

/-- C12 as stated fails. On the sample tree `ts_node_parent`, `ts_node_child` and
`ts_node_prev_sibling` of the null handle fault; none of them returns the null handle. -/
theorem ts_node_parent_null_not_null :
    ts_node_parent sampleMem paddedSize 3 ts_node_null ≠ .ok ts_node_null ∧
    ts_node_child sampleMem paddedSize 3 ts_node_null 0 ≠ .ok ts_node_null ∧
    ts_node_prev_sibling sampleMem paddedSize 3 ts_node_null ≠ .ok ts_node_null ∧
    ts_node_parent sampleMem paddedSize 3 ts_node_null = .fault := by
  decide

/-- C13. `ts_node_eq(a, b)` is true if and only if `a` and `b` reference the same physical node
and have equal positions; so handles to different physical nodes are never equal, and the null
handle is never equal to a handle with a tree reference, whatever the positions. -/
theorem ts_node_eq_iff (a b : TSNode) :
    (ts_node_eq a b = true ↔ a.data = b.data ∧ a.position = b.position) ∧
    (a.data ≠ b.data → ts_node_eq a b = false) ∧
    (∀ (x : Nat) (p q : TSLength),
      ts_node_eq ⟨none, p⟩ ⟨some x, q⟩ = false ∧ ts_node_eq ⟨some x, q⟩ ⟨none, p⟩ = false) := by
  have hiff : ts_node_eq a b = true ↔ a.data = b.data ∧ a.position = b.position := by
    obtain ⟨da, ⟨ab, ac⟩⟩ := a
    obtain ⟨db, ⟨bb, bc⟩⟩ := b
    simp only [ts_node_eq, ts_tree_eq, ts_length_eq, get_tree, Bool.and_eq_true, beq_iff_eq,
      TSLength.mk.injEq]
  refine ⟨hiff, ?_, ?_⟩
  · intro hne
    cases h : ts_node_eq a b with
    | false => rfl
    | true => exact absurd (hiff.1 h).1 hne
  · intro x p q
    constructor <;> simp [ts_node_eq, ts_tree_eq, get_tree]

/-- In the sample tree the leaves at addresses 3 and 4 are different nodes: handles to them are
not equal, even at the same position. -/
theorem ts_node_eq_iff_witness :
    (some 3 : Option Nat) ≠ some 4 ∧ ts_node_eq ⟨some 3, ⟨0, 0⟩⟩ ⟨some 4, ⟨0, 0⟩⟩ = false :=
  ⟨by decide, (ts_node_eq_iff ⟨some 3, ⟨0, 0⟩⟩ ⟨some 4, ⟨0, 0⟩⟩).2.1 (by decide)⟩

/-- C14, as the code has it. For a non-null handle `h` and any `min`, `max`:
`ts_node_find_for_range` is the first component of the loop that also records the downward path
(`rangeLoopTrace`); whenever it returns, the result is `h` itself, node and position, or a
visible handle below `h`, so a hidden node is returned only as `h` itself; on a finite tree
with its nodes in memory it returns. The result lies on the path the descent followed, or is `h`, when `min <= max` and
the children are laid out in non-decreasing, non-overlapping order; otherwise it need not, since
the last visible node is recorded at every match of a scan and the descent takes the last
match. -/
theorem ts_node_find_for_range_visible_bias (mem : Memory) (total : TSTree → TSLength)
    (p : Nat) (pos : TSLength) (min max : Nat) :
    (∀ fuel : Nat, ts_node_find_for_range mem total fuel ⟨some p, pos⟩ min max
      = match rangeLoopTrace mem total min max fuel ⟨some p, pos⟩ ⟨some p, pos⟩ with
        | .ok (r, _) => .ok r
        | .fault => .fault
        | .timeout => .timeout) ∧
    (∀ (fuel : Nat) (r : TSNode),
      ts_node_find_for_range mem total fuel ⟨some p, pos⟩ min max = .ok r →
      r = ⟨some p, pos⟩ ∨
        (Below mem total ⟨some p, pos⟩ r ∧ isVisibleHandle mem r = true)) ∧
    (∀ (n fuel : Nat), finiteTree mem n p = true → n ≤ fuel →
      ∃ r, ts_node_find_for_range mem total fuel ⟨some p, pos⟩ min max = .ok r) ∧
    (∀ (n fuel : Nat) (r : TSNode) (path : List TSNode), min ≤ max →
      ordered mem total n p pos = true →
      rangeLoopTrace mem total min max fuel ⟨some p, pos⟩ ⟨some p, pos⟩ = .ok (r, path) →
      (r = ⟨some p, pos⟩ ∨ r ∈ path) ∧ ∀ b ∈ path, Below mem total ⟨some p, pos⟩ b) := by
  refine ⟨?_, ?_, ?_, ?_⟩
  · intro fuel
    rw [ts_node_find_for_range]
    exact rangeLoop_eq_trace mem total min max fuel _ _
  · intro fuel r hr
    rw [ts_node_find_for_range, rangeLoop_eq_trace] at hr
    cases htr : rangeLoopTrace mem total min max fuel ⟨some p, pos⟩ ⟨some p, pos⟩ with
    | fault => simp [htr] at hr
    | timeout => simp [htr] at hr
    | ok rp =>
      obtain ⟨r2, path⟩ := rp
      simp only [htr, Outcome.ok.injEq] at hr
      subst hr
      exact (rangeLoopTrace_inv mem total min max ⟨some p, pos⟩ fuel _ _ r2 path
        (Or.inl rfl) (Or.inl rfl) htr).1
  · intro n fuel hfin hfuel
    exact rangeLoop_total_of_finite mem total min max n p pos ⟨some p, pos⟩ fuel hfin hfuel
  · intro n fuel r path hmm hord htr
    exact ⟨rangeLoopTrace_on_path mem total min max hmm n p pos fuel _ r path hord htr,
      (rangeLoopTrace_inv mem total min max ⟨some p, pos⟩ fuel _ _ r path
        (Or.inl rfl) (Or.inl rfl) htr).2⟩

/-- In the sample tree the search for the characters 1 to 2 descends into the first hidden
wrapper and then into the leaf at address 4, which it returns: a node of the path. -/
theorem ts_node_find_for_range_visible_bias_witness :
    ordered sampleMem paddedSize 3 0 ⟨0, 0⟩ = true ∧
    rangeLoopTrace sampleMem paddedSize 1 2 3 ⟨some 0, ⟨0, 0⟩⟩ ⟨some 0, ⟨0, 0⟩⟩
      = .ok (⟨some 4, ⟨1, 1⟩⟩, [⟨some 1, ⟨0, 0⟩⟩, ⟨some 4, ⟨1, 1⟩⟩]) ∧
    (((⟨some 4, ⟨1, 1⟩⟩ : TSNode) = ⟨some 0, ⟨0, 0⟩⟩ ∨
        (⟨some 4, ⟨1, 1⟩⟩ : TSNode) ∈ [(⟨some 1, ⟨0, 0⟩⟩ : TSNode), ⟨some 4, ⟨1, 1⟩⟩]) ∧
      ∀ b ∈ [(⟨some 1, ⟨0, 0⟩⟩ : TSNode), ⟨some 4, ⟨1, 1⟩⟩],
        Below sampleMem paddedSize ⟨some 0, ⟨0, 0⟩⟩ b) :=
  ⟨by decide, by decide,
    (ts_node_find_for_range_visible_bias sampleMem paddedSize 0 ⟨0, 0⟩ 1 2).2.2.2 3 3
      ⟨some 4, ⟨1, 1⟩⟩ [⟨some 1, ⟨0, 0⟩⟩, ⟨some 4, ⟨1, 1⟩⟩] (by decide) (by decide)
      (by decide)⟩

/-- C14 as stated fails. In the second sample tree, well formed and laid out in order, the
search with `min = 1` and `max = 0` matches the visible leaf at address 1 and then the hidden
leaf at address 2: it descends into the hidden leaf and returns the visible leaf, which is
neither the input handle nor on the path of the descent. With overlapping children (every total
size taken as zero) the same happens for `min = max = 0`. -/
theorem ts_node_find_for_range_off_path :
    wf sampleMem2 2 0 = true ∧
    ordered sampleMem2 paddedSize 2 0 ⟨0, 0⟩ = true ∧
    ts_node_find_for_range sampleMem2 paddedSize 2 ⟨some 0, ⟨0, 0⟩⟩ 1 0
      = .ok ⟨some 1, ⟨0, 0⟩⟩ ∧
    rangeLoopTrace sampleMem2 paddedSize 1 0 2 ⟨some 0, ⟨0, 0⟩⟩ ⟨some 0, ⟨0, 0⟩⟩
      = .ok (⟨some 1, ⟨0, 0⟩⟩, [⟨some 2, ⟨1, 1⟩⟩]) ∧
    (⟨some 1, ⟨0, 0⟩⟩ : TSNode) ≠ ⟨some 0, ⟨0, 0⟩⟩ ∧
    (⟨some 1, ⟨0, 0⟩⟩ : TSNode) ∉ [(⟨some 2, ⟨1, 1⟩⟩ : TSNode)] ∧
    rangeLoopTrace sampleMem2 (fun _ => ⟨0, 0⟩) 0 0 2 ⟨some 0, ⟨0, 0⟩⟩ ⟨some 0, ⟨0, 0⟩⟩
      = .ok (⟨some 1, ⟨0, 0⟩⟩, [⟨some 2, ⟨0, 0⟩⟩]) := by
  decide

/-- C15. On a well-formed tree, for `i` below the child count, the position of
`ts_node_child(h, i)` is the position of `h` plus, for each node of the physical path from the
node of `h` down to the returned node, the total sizes of the physical siblings before it;
nothing else is added. So `ts_node_pos` of the result is that sum plus the returned node's own
padding. -/
theorem ts_node_child_position (mem : Memory) (total : TSTree → TSLength)
    (n p : Nat) (pos : TSLength) (i fuel cnt : Nat)
    (hwf : wf mem n p = true) (hfuel : n ≤ fuel)
    (hcnt : ts_node_child_count mem ⟨some p, pos⟩ = .ok cnt) (hi : i < cnt) :
    ∃ (c : Nat) (q : TSLength) (path : List Nat) (ct : TSTree),
      ts_node_child mem total fuel ⟨some p, pos⟩ i = .ok ⟨some c, q⟩ ∧
      isChildPath mem p path ∧ path.getLast? = some c ∧
      (∀ y ∈ path.dropLast, isVisibleAt mem y = false) ∧
      q = ((path.map (sizesBefore mem total)).flatten).foldl ts_length_add pos ∧
      mem c = some ct ∧
      ts_node_pos mem ⟨some c, q⟩ = .ok (ts_length_add q ct.padding) := by
  obtain ⟨t, ht, hvcc, hlt, _⟩ := wf_node mem hwf
  simp only [ts_node_child_count, get_tree, ht, Outcome.ok.injEq] at hcnt
  subst hcnt
  have hlen : i < (flatPos mem total n p pos).length := by rw [flatPos_length]; omega
  have he : (flatPos mem total n p pos)[i]? = some ((flatPos mem total n p pos)[i]) :=
    List.getElem?_eq_getElem hlen
  obtain ⟨c, q, path, hcq, hpath, hlast, hhid, hvis, hq⟩ :=
    flatPos_path mem total n p pos _ hwf (List.getElem_mem hlen)
  have hcmem : ∃ ct, mem c = some ct := by
    cases hc : mem c with
    | none => simp [isVisibleAt, hc] at hvis
    | some ct => exact ⟨ct, rfl⟩
  obtain ⟨ct, hct⟩ := hcmem
  refine ⟨c, q, path, ct, ?_, hpath, hlast, hhid, hq, hct, ?_⟩
  · rw [ts_node_child, childLoop_eq mem total n p pos i fuel hwf hfuel (by omega), he, hcq]
    rfl
  · simp [ts_node_pos, get_tree, hct]

/-- In the sample tree the child at index 1 of the node at address 0 is the leaf at address 4,
reached through the hidden wrapper at address 1: its position is the size of the leaf at
address 3, its one sibling in front. -/
theorem ts_node_child_position_witness :
    wf sampleMem 3 0 = true ∧
    ts_node_child sampleMem paddedSize 3 ⟨some 0, ⟨0, 0⟩⟩ 1 = .ok ⟨some 4, ⟨1, 1⟩⟩ ∧
    (([1, 4].map (sizesBefore sampleMem paddedSize)).flatten).foldl ts_length_add ⟨0, 0⟩
      = ⟨1, 1⟩ ∧
    ∃ (c : Nat) (q : TSLength) (path : List Nat) (ct : TSTree),
      ts_node_child sampleMem paddedSize 3 ⟨some 0, ⟨0, 0⟩⟩ 1 = .ok ⟨some c, q⟩ ∧
      isChildPath sampleMem 0 path ∧ path.getLast? = some c ∧
      (∀ y ∈ path.dropLast, isVisibleAt sampleMem y = false) ∧
      q = ((path.map (sizesBefore sampleMem paddedSize)).flatten).foldl ts_length_add ⟨0, 0⟩ ∧
      sampleMem c = some ct ∧
      ts_node_pos sampleMem ⟨some c, q⟩ = .ok (ts_length_add q ct.padding) :=
  ⟨by decide, by decide, by decide,
    ts_node_child_position sampleMem paddedSize 3 0 ⟨0, 0⟩ 1 3 3
      (by decide) (by decide) (by decide) (by decide)⟩

/-- C16. For a handle to the node at `x`, the `k`-th child of its parent: if `j > k` is the
smallest index whose child is visible or is hidden with `visible_child_count > 0`, then
`ts_node_next_sibling` is positioned at the handle's position plus the total sizes of the
children `k..j-1`, and is that child when visible, and `ts_node_child` of its handle at index 0
otherwise; `ts_node_prev_sibling` uses the largest such `j < k`, the position less the total
sizes of the children `j..k-1`, and the index `visible_child_count - 1`. -/
theorem ts_node_sibling_step (mem : Memory) (total : TSTree → TSLength)
    (x q k : Nat) (t par : TSTree) (pos : TSLength) (fuel : Nat)
    (hx : mem x = some t) (hctx : t.context = ⟨some q, k⟩) (hq : mem q = some par)
    (hk : par.children[k]? = some x) (hlen : par.child_count < SIZE_MOD) (hfuel : 1 ≤ fuel) :
    (∀ (j cj : Nat) (ct : TSTree), k < j → par.children[j]? = some cj → mem cj = some ct →
      (ct.visible = true ∨ ct.visible_child_count > 0) →
      (∀ i, k < i → i < j → ∃ c t', par.children[i]? = some c ∧ mem c = some t' ∧
        t'.visible = false ∧ t'.visible_child_count = 0) →
      ts_node_next_sibling mem total fuel ⟨some x, pos⟩ =
        if ts_tree_is_visible ct then
          .ok (ts_node_make (some cj)
            ((totalSizes mem total ((par.children.drop k).take (j - k))).foldl
              ts_length_add pos))
        else
          ts_node_child mem total fuel (ts_node_make (some cj)
            ((totalSizes mem total ((par.children.drop k).take (j - k))).foldl
              ts_length_add pos)) 0) ∧
    (∀ (j cj : Nat) (ct : TSTree), j < k → par.children[j]? = some cj → mem cj = some ct →
      (ct.visible = true ∨ ct.visible_child_count > 0) →
      (∀ i, j < i → i < k → ∃ c t', par.children[i]? = some c ∧ mem c = some t' ∧
        t'.visible = false ∧ t'.visible_child_count = 0) →
      ts_node_prev_sibling mem total fuel ⟨some x, pos⟩ =
        if ts_tree_is_visible ct then
          .ok (ts_node_make (some cj)
            ((totalSizes mem total ((par.children.drop j).take (k - j))).foldl
              ts_length_sub pos))
        else
          ts_node_child mem total fuel (ts_node_make (some cj)
            ((totalSizes mem total ((par.children.drop j).take (k - j))).foldl
              ts_length_sub pos)) (ct.visible_child_count - 1)) := by
  obtain ⟨f, rfl⟩ : ∃ f, fuel = f + 1 := ⟨fuel - 1, by omega⟩
  have hklt : k < par.children.length := (List.getElem?_eq_some_iff.1 hk).1
  simp only [TSTree.child_count] at hlen
  constructor
  · intro j cj ct hkj hj hct hgood hskip
    have hidx : (k + 1) % SIZE_MOD = k + 1 := Nat.mod_eq_of_lt (by omega)
    have hmem : ∀ i, k ≤ i → i < j → ∃ c t', par.children[i]? = some c ∧ mem c = some t' := by
      intro i hki hij
      by_cases hik : i = k
      · subst hik; exact ⟨x, t, hk, hx⟩
      · obtain ⟨c, t', hc, ht', _⟩ := hskip i (by omega) hij
        exact ⟨c, t', hc, ht'⟩
    have hscan := nextScan_to mem total (f + 1) par.children pos k j cj ct hlen hj hct hgood
      hmem hskip (j - (k + 1)) (k + 1) (by omega) (by omega)
    simp only [show k + 1 - 1 - k = 0 by omega, List.take_zero, totalSizes,
      List.filterMap_nil, List.foldl_nil] at hscan
    rw [ts_node_next_sibling]
    simp only [get_tree]
    rw [nextLoop, hx]
    simp only [hctx, hq, hidx, TSTree.child_count]
    rw [hscan]
    simp only [ts_tree_is_visible, ts_node_make, totalSizes]
  · intro j cj ct hjk hj hct hgood hskip
    have hidx : (sizePred k + 1) % SIZE_MOD = k := by
      simp only [sizePred, SIZE_MOD] at hlen ⊢
      split <;> omega
    have hscan := prevScan_to mem total (f + 1) par.children pos k j cj ct hj hct hgood
      hskip (k - (j + 1)) k (by omega) (le_refl _)
    simp only [Nat.sub_self, List.take_zero, totalSizes, List.filterMap_nil, List.reverse_nil,
      List.foldl_nil] at hscan
    rw [ts_node_prev_sibling]
    simp only [get_tree]
    rw [prevLoop, hx]
    simp only [hctx, hq, hidx]
    rw [hscan]
    simp only [ts_tree_is_visible, ts_node_make, totalSizes, foldl_sub_reverse]

/-- In the sample tree the hidden wrapper at address 1 is child 0 of the node at address 0, and
child 1, the wrapper at address 2, is hidden with one visible child: the next sibling is
`ts_node_child` of that wrapper at index 0, three characters on. -/
theorem ts_node_sibling_step_witness :
    sampleMem 1 = some ⟨1, ⟨0, 0⟩, ⟨3, 3⟩, [3, 4], 2, false, ⟨some 0, 0⟩⟩ ∧
    ts_node_next_sibling sampleMem paddedSize 3 ⟨some 1, ⟨0, 0⟩⟩ =
      ts_node_child sampleMem paddedSize 3 ⟨some 2, ⟨3, 3⟩⟩ 0 ∧
    ts_node_next_sibling sampleMem paddedSize 3 ⟨some 1, ⟨0, 0⟩⟩ = .ok ⟨some 5, ⟨3, 3⟩⟩ := by
  have h := (ts_node_sibling_step sampleMem paddedSize 1 0 0 _ _ ⟨0, 0⟩ 3
    (rfl : sampleMem 1 = some ⟨1, ⟨0, 0⟩, ⟨3, 3⟩, [3, 4], 2, false, ⟨some 0, 0⟩⟩) rfl
    (rfl : sampleMem 0 = some ⟨0, ⟨0, 0⟩, ⟨6, 6⟩, [1, 2], 3, true, ⟨none, 0⟩⟩) rfl
    (by decide) (by decide)).1 1 2 ⟨2, ⟨0, 0⟩, ⟨3, 3⟩, [5], 1, false, ⟨some 0, 1⟩⟩
    (by decide) rfl rfl (Or.inr (by decide)) (fun i h1 h2 => absurd h2 (by omega))
  exact ⟨rfl, h.trans (by decide), by decide⟩

/-- C17, as the code has it. Termination by bounded descent; fuel counts the entries into a loop
body. On a finite tree below the node at `p`, of at most `n` levels (height at most `n - 1`)
and with its nodes in memory, `ts_node_child` and `ts_node_find_for_range` return within `n`
entries of their `while (did_descend)` loop, for every index, `min` and `max`; and a scan that
ends with a descent has replaced the working node by one of its own children. In a well-formed
tree (which is such a finite tree) whose root `p` has no parent, the loops of `ts_node_parent`,
`ts_node_prev_sibling` and `ts_node_next_sibling` started at a node `d` levels below the root
return within `d + 1` entries, and within `d` unless every strict ancestor is hidden and the
result is null: the loop climbs at most `d` times, and the one further entry, at the root,
returns at `if (!parent)`. -/
theorem ts_node_loops_bounded (mem : Memory) (total : TSTree → TSLength) (n p : Nat) :
    (finiteTree mem n p = true →
      (∀ (pos : TSLength) (i : Nat),
        ∃ r, ts_node_child mem total n ⟨some p, pos⟩ i = .ok r) ∧
      (∀ (pos : TSLength) (min max : Nat),
        ∃ r, ts_node_find_for_range mem total n ⟨some p, pos⟩ min max = .ok r)) ∧
    (∀ t : TSTree, mem p = some t →
      (∀ (pos : TSLength) (i : Nat) (node : TSNode) (j : Nat),
        childScan mem total t.children 0 i pos false ⟨some p, pos⟩
          = .ok (.finished true node j) →
        ∃ c ∈ t.children, node.data = some c) ∧
      (∀ (pos : TSLength) (min max : Nat) (lv : TSNode) (s : RangeScan),
        rangeScan mem total min max t.children pos ⟨⟨some p, pos⟩, lv, false⟩ = .ok s →
        s.did_descend = true → ∃ c ∈ t.children, s.node.data = some c)) ∧
    (wf mem n p = true → finiteTree mem n p = true ∧
      ∀ t : TSTree, mem p = some t → t.context.parent = none →
      ∀ (d x : Nat), InTree mem p d x → ∀ (pos : TSLength),
      (∃ e, ts_node_parent mem total (d + 1) ⟨some x, pos⟩ = .ok e ∧
        (ts_node_parent mem total d ⟨some x, pos⟩ = .ok e ∨
          (e = ts_node_null ∧ ∀ a ∈ ancestors mem d x, isVisibleAt mem a = false))) ∧
      (∀ cfuel, n ≤ cfuel → ∃ e, prevLoop mem total cfuel (d + 1) x pos = .ok e ∧
        (prevLoop mem total cfuel d x pos = .ok e ∨
          (e = ts_node_null ∧ ∀ a ∈ ancestors mem d x, isVisibleAt mem a = false))) ∧
      (∀ cfuel, n ≤ cfuel → ∃ e, nextLoop mem total cfuel (d + 1) x pos = .ok e ∧
        (nextLoop mem total cfuel d x pos = .ok e ∨
          (e = ts_node_null ∧ ∀ a ∈ ancestors mem d x, isVisibleAt mem a = false)))) := by
  refine ⟨?_, ?_, ?_⟩
  · intro hfin
    refine ⟨?_, ?_⟩
    · intro pos i
      exact childLoop_total_of_finite mem total n p pos i n hfin le_rfl
    · intro pos min max
      exact rangeLoop_total_of_finite mem total min max n p pos ⟨some p, pos⟩ n hfin le_rfl
  · intro t _
    refine ⟨?_, ?_⟩
    · intro pos i node j h
      rcases childScan_descends_to_child mem total t.children 0 i pos false _ node j h with
        ⟨h2, _⟩ | h2
      · cases h2
      · exact h2
    · intro pos min max lv s h hd
      rcases rangeScan_descends_to_child mem total min max t.children pos _ s h hd with
        ⟨h2, _⟩ | h2
      · cases h2
      · exact h2
  · intro hwf
    refine ⟨finiteTree_of_wf mem n p hwf, ?_⟩
    intro t ht hnone d x hin pos
    refine ⟨?_, ?_, ?_⟩
    · exact parentLoop_bound mem total hwf ht hnone hin pos
    · intro cfuel hc
      exact prevLoop_bound mem total hwf ht hnone cfuel hc hin pos
    · intro cfuel hc
      exact nextLoop_bound mem total hwf ht hnone cfuel hc hin pos

/-- In the sample tree, of three levels, the child and range loops from the root return within
three entries; from the leaf at address 4, two levels down below a hidden wrapper and the
visible root, `ts_node_parent` returns within two entries and not within one. -/
theorem ts_node_loops_bounded_witness :
    finiteTree sampleMem 3 0 = true ∧
    wf sampleMem 3 0 = true ∧
    (∃ r, ts_node_child sampleMem paddedSize 3 ⟨some 0, ⟨0, 0⟩⟩ 2 = .ok r) ∧
    (∃ r, ts_node_find_for_range sampleMem paddedSize 3 ⟨some 0, ⟨0, 0⟩⟩ 1 2 = .ok r) ∧
    (∃ e, ts_node_parent sampleMem paddedSize 3 ⟨some 4, ⟨1, 1⟩⟩ = .ok e ∧
      (ts_node_parent sampleMem paddedSize 2 ⟨some 4, ⟨1, 1⟩⟩ = .ok e ∨
        (e = ts_node_null ∧ ∀ a ∈ ancestors sampleMem 2 4, isVisibleAt sampleMem a = false))) ∧
    ts_node_parent sampleMem paddedSize 2 ⟨some 4, ⟨1, 1⟩⟩ = .ok ⟨some 0, ⟨0, 0⟩⟩ ∧
    ts_node_parent sampleMem paddedSize 1 ⟨some 4, ⟨1, 1⟩⟩ = .timeout :=
  have h := ts_node_loops_bounded sampleMem paddedSize 3 0
  ⟨by decide, by decide, (h.1 (by decide)).1 ⟨0, 0⟩ 2, (h.1 (by decide)).2 ⟨0, 0⟩ 1 2,
    ((h.2.2 (by decide)).2 _ rfl rfl 2 4
      (InTree.child (i := 1) (InTree.child (i := 0) InTree.root rfl rfl) rfl rfl) ⟨1, 1⟩).1,
    by decide, by decide⟩

/-- C17 as stated fails for the upward loops. The root of the sample tree has depth 0, yet each
of the three loops enters its body once there, to return the null handle at `if (!parent)`: with
no entry allowed the loop has not returned. -/
theorem ts_node_upward_loops_enter_once_at_root :
    InTree sampleMem 0 0 0 ∧
    ts_node_parent sampleMem paddedSize 0 ⟨some 0, ⟨0, 0⟩⟩ = .timeout ∧
    ts_node_parent sampleMem paddedSize 1 ⟨some 0, ⟨0, 0⟩⟩ = .ok ts_node_null ∧
    prevLoop sampleMem paddedSize 3 0 0 ⟨0, 0⟩ = .timeout ∧
    prevLoop sampleMem paddedSize 3 1 0 ⟨0, 0⟩ = .ok ts_node_null ∧
    nextLoop sampleMem paddedSize 3 0 0 ⟨0, 0⟩ = .timeout ∧
    nextLoop sampleMem paddedSize 3 1 0 ⟨0, 0⟩ = .ok ts_node_null :=
  ⟨InTree.root, by decide, by decide, by decide, by decide, by decide, by decide⟩

/-- C18. The inner scan of `ts_node_child` goes on after it has decided to descend; on a
well-formed tree, whose counts do not overflow `size_t`, the rest of the scan returns no node
and leaves the descent target and `child_index` as they are (the running index is above
`child_index`, and `child_index - index` wraps to a value no later child's count exceeds). So
`ts_node_child` equals the variant that breaks out of the scan on descent, for every fuel. -/
theorem ts_node_child_eq_break (mem : Memory) (total : TSTree → TSLength)
    (n p : Nat) (hwf : wf mem n p = true) :
    (∀ (pos : TSLength) (i fuel : Nat), i < SIZE_MOD →
      ts_node_child mem total fuel ⟨some p, pos⟩ i
        = ts_node_child_break mem total fuel ⟨some p, pos⟩ i) ∧
    (∀ (m : Nat) (rest : List Nat) (index child_index : Nat) (position : TSLength)
      (target : TSNode), (∀ c ∈ rest, wf mem m c = true) → child_index < index →
      index + (flatScan mem (flat mem m) rest).length < SIZE_MOD →
      childScan mem total rest index child_index position true target
        = .ok (.finished true target child_index)) := by
  constructor
  · intro pos i fuel hi
    rw [ts_node_child, ts_node_child_break]
    exact childLoop_eq_break mem total n p pos i fuel hwf hi
  · intro m rest index child_index position target hrest hlt hlen
    exact childScan_after mem total m rest index child_index position target hrest hlt hlen

/-- In the sample tree the child at index 1 of the node at address 0 lies in the first hidden
wrapper; the scan goes on over the second wrapper, and the result is that of the variant with
the `break`. -/
theorem ts_node_child_eq_break_witness :
    wf sampleMem 3 0 = true ∧
    ts_node_child sampleMem paddedSize 3 ⟨some 0, ⟨0, 0⟩⟩ 1
      = ts_node_child_break sampleMem paddedSize 3 ⟨some 0, ⟨0, 0⟩⟩ 1 ∧
    ts_node_child_break sampleMem paddedSize 3 ⟨some 0, ⟨0, 0⟩⟩ 1 = .ok ⟨some 4, ⟨1, 1⟩⟩ :=
  ⟨by decide,
    (ts_node_child_eq_break sampleMem paddedSize 3 0 (by decide)).1 ⟨0, 0⟩ 1 3 (by decide),
    by decide⟩

/-- C19. The inner scan of `ts_node_find_for_range` goes on after a match. When the children
scanned are in memory, the scan ends with the descent into the last candidate (`rangeCandidates`:
the children ending after `max` among those scanned before the first child that starts after
`min`), with the last visible candidate as the last visible node; with no candidate the state is
left as it is. For `min <= max`, on a subtree whose children are laid out in non-decreasing,
non-overlapping order (`ordered`), every level at or below the handle has at most one candidate,
and `ts_node_find_for_range` equals the variant that leaves the scan at the first match, for
every fuel. -/
theorem ts_node_find_for_range_last_match (mem : Memory) (total : TSTree → TSLength)
    (min max : Nat) :
    (∀ (cs : List Nat) (pos : TSLength) (s : RangeScan), (∀ c ∈ cs, ∃ ct, mem c = some ct) →
      rangeScan mem total min max cs pos s
        = .ok (match (rangeCandidates mem total min max cs pos).getLast? with
          | none => s
          | some e =>
            ⟨e.1, match ((rangeCandidates mem total min max cs pos).filter
                      fun e => e.2.visible).getLast? with
                  | none => s.last_visible_node
                  | some v => v.1, true⟩)) ∧
    (min ≤ max → ∀ (n p : Nat) (pos : TSLength), ordered mem total n p pos = true →
      (∀ (t : TSTree), mem p = some t →
        (rangeCandidates mem total min max t.children pos).length ≤ 1) ∧
      (∀ (b : TSNode) (c : Nat) (t : TSTree), Below mem total ⟨some p, pos⟩ b →
        b.data = some c → mem c = some t →
        (rangeCandidates mem total min max t.children b.position).length ≤ 1) ∧
      ∀ fuel : Nat, ts_node_find_for_range mem total fuel ⟨some p, pos⟩ min max
        = ts_node_find_for_range_first mem total fuel ⟨some p, pos⟩ min max) := by
  refine ⟨?_, ?_⟩
  · intro cs pos s hmem
    refine ((rangeScan_fold mem total min max cs pos s hmem).trans
      (congrArg Outcome.ok (foldl_select_getLast _ _))).trans ?_
    generalize rangeCandidates mem total min max cs pos = l
    cases l.getLast? with
    | none => rfl
    | some e => cases (List.filter (fun e => e.2.visible) l).getLast? <;> rfl
  · intro hmm n p pos hord
    have hlevel : ∀ (m c : Nat) (q : TSLength) (t : TSTree),
        ordered mem total m c q = true → mem c = some t →
        (rangeCandidates mem total min max t.children q).length ≤ 1 := by
      intro m c q t ho ht
      cases m with
      | zero => simp [ordered] at ho
      | succ m =>
        obtain ⟨t2, ht2, hscan⟩ := ordered_succ mem total ho
        rw [ht] at ht2
        cases ht2
        exact rangeCandidates_length_le_one mem total _ min max hmm _ _ hscan
    refine ⟨fun t ht => hlevel n p pos t hord ht, ?_, ?_⟩
    · intro b c t hb hc ht
      obtain ⟨m, c2, hc2, ho⟩ := ordered_below mem total hb n p rfl hord
      rw [hc] at hc2
      cases hc2
      exact hlevel m c _ t ho ht
    · intro fuel
      rw [ts_node_find_for_range, ts_node_find_for_range_first]
      exact rangeLoop_eq_first mem total min max hmm n p pos fuel _ hord

/-- In the sample tree, laid out in order, the search for the characters 1 to 2 is that of the
variant that stops at the first match. When every total size is taken to be zero the two hidden
wrappers overlap and both contain the characters 0 to 1: the scan ends with the descent into the
last of them, and the two variants differ. -/
theorem ts_node_find_for_range_last_match_witness :
    ordered sampleMem paddedSize 3 0 ⟨0, 0⟩ = true ∧
    ts_node_find_for_range sampleMem paddedSize 3 ⟨some 0, ⟨0, 0⟩⟩ 1 2
      = ts_node_find_for_range_first sampleMem paddedSize 3 ⟨some 0, ⟨0, 0⟩⟩ 1 2 ∧
    ts_node_find_for_range_first sampleMem paddedSize 3 ⟨some 0, ⟨0, 0⟩⟩ 1 2
      = .ok ⟨some 4, ⟨1, 1⟩⟩ ∧
    (rangeCandidates sampleMem (fun _ => ⟨0, 0⟩) 0 1 [1, 2] ⟨0, 0⟩).map (fun e => e.1)
      = [⟨some 1, ⟨0, 0⟩⟩, ⟨some 2, ⟨0, 0⟩⟩] ∧
    rangeScan sampleMem (fun _ => ⟨0, 0⟩) 0 1 [1, 2] ⟨0, 0⟩
        ⟨⟨some 0, ⟨0, 0⟩⟩, ⟨some 0, ⟨0, 0⟩⟩, false⟩
      = .ok ⟨⟨some 2, ⟨0, 0⟩⟩, ⟨some 0, ⟨0, 0⟩⟩, true⟩ ∧
    ts_node_find_for_range sampleMem (fun _ => ⟨0, 0⟩) 3 ⟨some 0, ⟨0, 0⟩⟩ 0 1
      = .ok ⟨some 5, ⟨0, 0⟩⟩ ∧
    ts_node_find_for_range_first sampleMem (fun _ => ⟨0, 0⟩) 3 ⟨some 0, ⟨0, 0⟩⟩ 0 1
      = .ok ⟨some 4, ⟨0, 0⟩⟩ :=
  ⟨by decide,
    ((ts_node_find_for_range_last_match sampleMem paddedSize 1 2).2 (by decide) 3 0 ⟨0, 0⟩
      (by decide)).2.2 3,
    by decide, by decide, by decide, by decide, by decide⟩

end TreeSitter
